import Mathlib

/-!
Verification of the news-monitoring bot's core pipeline components against
their specification.  Python strings are modelled as `List Char` (one element
per Unicode code point, matching Python's `str` indexing); Python `datetime`
values are modelled as naive-UTC timestamps in whole seconds (`Int`);
Python `float` scores are modelled as `ℚ`; fallible operations return
`Option`.  Each component of the source is embedded as an executable Lean
function mirroring the Python control flow, and the claimed properties are
stated and proved (or refuted) about those embeddings.
-/

/-- Lowercasing of a single character, modelling Python `str.lower` on the
character ranges the program actually processes: ASCII `A`-`Z` and the
Cyrillic letters `А`-`Я` and `Ё` (the repository's data is Russian text). -/
def pyToLower (c : Char) : Char :=
  if 'A' ≤ c ∧ c ≤ 'Z' then Char.ofNat (c.toNat + 32)
  else if Char.ofNat 0x410 ≤ c ∧ c ≤ Char.ofNat 0x42F then Char.ofNat (c.toNat + 32)
  else if c = Char.ofNat 0x401 then Char.ofNat 0x451
  else c

/-- Python `str.lower` over a whole string. -/
def pyLower (s : List Char) : List Char := s.map pyToLower

/-- Does `haystack` begin with `needle`? (helper for the substring test). -/
def listStartsWith : List Char → List Char → Bool
  | [], _ => true
  | _ :: _, [] => false
  | a :: as, b :: bs => a = b && listStartsWith as bs

/-- Python's substring test `needle in haystack`: `needle` occurs
contiguously somewhere in `haystack`. -/
def pyContains (needle : List Char) : List Char → Bool
  | [] => needle.isEmpty
  | c :: rest => listStartsWith needle (c :: rest) || pyContains needle rest

/-- Whitespace class of Python's `str.split()` / `str.strip()` / regex `\s`
(ASCII part: space, tab, newline, carriage return, vertical tab, form feed). -/
def isPySpace (c : Char) : Bool :=
  c = ' ' ∨ c = '\t' ∨ c = '\n' ∨ c = '\r' ∨ c = Char.ofNat 0x0B ∨ c = Char.ofNat 0x0C

/-- Python `str.strip()`: drop leading and trailing whitespace. -/
def pyStrip (s : List Char) : List Char :=
  ((s.dropWhile isPySpace).reverse.dropWhile isPySpace).reverse

/-- Truthiness of an optional Python string (`None` and `""` are falsy). -/
def pyTruthyStr : Option (List Char) → Bool
  | none => false
  | some s => !s.isEmpty

namespace Repo

/-- A row of the `signals` table; only the `sent_at` column is relevant to
the daily-limit logic, the remaining payload is kept abstract. -/
structure Signal where
  sentAt : Int
  payload : String
  deriving Repr, DecidableEq

/-- `SignalRepository.count_today`'s `WHERE Signal.sent_at >= today_start_utc`
count, where `todayStartUtc` is the configured timezone's midnight converted
to naive UTC (the `pytz` arithmetic of the source, kept as a parameter). -/
def countTodaySignals (signals : List Signal) (todayStartUtc : Int) : Nat :=
  (signals.filter (fun s => todayStartUtc ≤ s.sentAt)).length

/-- `SignalRepository.try_create_if_under_limit`: inside one transaction,
count today's signals and insert the new row only when the count is below
`maxPerDay`.  The database state is the list of signal rows; the function
returns the new state together with the created signal (or `none`). -/
def tryCreateIfUnderLimit (signals : List Signal) (signalData : Signal)
    (maxPerDay : Nat) (todayStartUtc : Int) : List Signal × Option Signal :=
  let currentCount := countTodaySignals signals todayStartUtc
  if maxPerDay ≤ currentCount then (signals, none)
  else (signals ++ [signalData], some signalData)

end Repo

namespace Freshness

/-- Result record of the freshness gate (`FreshnessResult` in the source);
`ageDays` is the fractional day count `age.total_seconds() / 86400`. -/
structure FreshnessResult where
  passed : Bool
  decisionCode : String
  ageDays : Option ℚ
  deriving Repr, DecidableEq

/-- `check_freshness` from `freshness.py`.  Timestamps are naive-UTC seconds;
the source's `tzinfo` strip is the identity on the wall-clock value.  The
`check_date` selection and the three decision codes follow the source's
`if` / `elif` chain exactly. -/
def checkFreshness (now : Int) (publishedAt : Option Int) (collectedAt : Int)
    (maxAgeDays : Int) (allowMissingPublishedAt : Bool)
    (fallbackToCollectedAt : Bool) : FreshnessResult :=
  let maxAge : Int := maxAgeDays * 86400
  let checkDate : Option Int :=
    match publishedAt with
    | some p => some p
    | none =>
      if allowMissingPublishedAt && fallbackToCollectedAt then some collectedAt
      else none
  match checkDate with
  | none =>
    if !allowMissingPublishedAt then
      { passed := false, decisionCode := "MISSING_PUBLISHED_AT", ageDays := none }
    else
      { passed := true, decisionCode := "PASSED", ageDays := some 0 }
  | some d =>
    let age : Int := now - d
    let ageDays : ℚ := (age : ℚ) / 86400
    if maxAge < age then
      { passed := false, decisionCode := "STALE_NEWS", ageDays := some ageDays }
    else
      { passed := true, decisionCode := "PASSED", ageDays := some ageDays }

end Freshness

/-- C1: for every payload, daily maximum and database state,
`try_create_if_under_limit` counts the signals whose `sent_at` is on or after
the configured timezone's start of day, and in the same atomic step inserts
and returns the new signal exactly when that count is strictly below the
maximum; otherwise it returns `none` and leaves the table unchanged. -/
theorem try_create_if_under_limit_atomic (signals : List Repo.Signal)
    (signalData : Repo.Signal) (maxPerDay : Nat) (todayStartUtc : Int) :
    (Repo.countTodaySignals signals todayStartUtc < maxPerDay →
      Repo.tryCreateIfUnderLimit signals signalData maxPerDay todayStartUtc
        = (signals ++ [signalData], some signalData)) ∧
    (maxPerDay ≤ Repo.countTodaySignals signals todayStartUtc →
      Repo.tryCreateIfUnderLimit signals signalData maxPerDay todayStartUtc
        = (signals, none)) := by
  constructor
  · intro h
    unfold Repo.tryCreateIfUnderLimit
    simp only [if_neg (by omega : ¬ maxPerDay ≤ Repo.countTodaySignals signals todayStartUtc)]
  · intro h
    unfold Repo.tryCreateIfUnderLimit
    simp only [if_pos h]

/-- Witness for C1 at a concrete database state: two signals sent today,
limit five, so the third insert succeeds; with limit two it is refused. -/
theorem try_create_if_under_limit_atomic_witness :
    Repo.countTodaySignals [⟨100, "a"⟩, ⟨200, "b"⟩] 0 < 5 ∧
    Repo.tryCreateIfUnderLimit [⟨100, "a"⟩, ⟨200, "b"⟩] ⟨300, "c"⟩ 5 0
      = ([⟨100, "a"⟩, ⟨200, "b"⟩, ⟨300, "c"⟩], some ⟨300, "c"⟩) ∧
    Repo.tryCreateIfUnderLimit [⟨100, "a"⟩, ⟨200, "b"⟩] ⟨300, "c"⟩ 2 0
      = ([⟨100, "a"⟩, ⟨200, "b"⟩], none) := by
  refine ⟨by decide, ?_, ?_⟩
  · exact (try_create_if_under_limit_atomic [⟨100, "a"⟩, ⟨200, "b"⟩] ⟨300, "c"⟩ 5 0).1
      (by decide)
  · exact (try_create_if_under_limit_atomic [⟨100, "a"⟩, ⟨200, "b"⟩] ⟨300, "c"⟩ 2 0).2
      (by decide)

/-- C3 counterexample: with `published_at` absent and both `allow_missing`
and `fallback_to_collected` enabled, the code takes the age from
`collected_at` rather than using age 0, so an item collected five days ago
is rejected as `STALE_NEWS` — contradicting the claim that such an item is
never rejected as stale. -/
theorem check_freshness_fallback_age_counterexample :
    Freshness.checkFreshness (5 * 86400) none 0 2 true true
      = { passed := false, decisionCode := "STALE_NEWS", ageDays := some 5 } := by
  simp only [Freshness.checkFreshness]
  norm_num

/-- C3 (amended): if `published_at` is present the age is `now - published_at`
and the item is rejected `STALE_NEWS` exactly when the age exceeds
`max_age_days`; if absent and both `allow_missing` and
`fallback_to_collected` are enabled, the age is `now - collected_at` under
the same staleness test (not 0); if absent and `allow_missing` is disabled,
the item is rejected `MISSING_PUBLISHED_AT`; if absent with `allow_missing`
enabled but `fallback_to_collected` disabled, the item passes with age 0. -/
theorem check_freshness_cases (now : Int) (publishedAt : Option Int)
    (collectedAt : Int) (maxAgeDays : Int) :
    (∀ p, publishedAt = some p →
      ∀ allowMissing fallback,
        Freshness.checkFreshness now publishedAt collectedAt maxAgeDays allowMissing fallback
          = (if maxAgeDays * 86400 < now - p then
              { passed := false, decisionCode := "STALE_NEWS",
                ageDays := some (((now - p : Int) : ℚ) / 86400) }
            else
              { passed := true, decisionCode := "PASSED",
                ageDays := some (((now - p : Int) : ℚ) / 86400) })) ∧
    (publishedAt = none →
      Freshness.checkFreshness now publishedAt collectedAt maxAgeDays true true
        = (if maxAgeDays * 86400 < now - collectedAt then
            { passed := false, decisionCode := "STALE_NEWS",
              ageDays := some (((now - collectedAt : Int) : ℚ) / 86400) }
          else
            { passed := true, decisionCode := "PASSED",
              ageDays := some (((now - collectedAt : Int) : ℚ) / 86400) })) ∧
    (publishedAt = none → ∀ fallback,
      Freshness.checkFreshness now publishedAt collectedAt maxAgeDays false fallback
        = { passed := false, decisionCode := "MISSING_PUBLISHED_AT", ageDays := none }) ∧
    (publishedAt = none →
      Freshness.checkFreshness now publishedAt collectedAt maxAgeDays true false
        = { passed := true, decisionCode := "PASSED", ageDays := some 0 }) := by
  refine ⟨?_, ?_, ?_, ?_⟩
  · intro p hp allowMissing fallback
    subst hp
    simp only [Freshness.checkFreshness]
  · intro hp
    subst hp
    simp only [Freshness.checkFreshness, Bool.and_self, if_pos]
  · intro hp fallback
    subst hp
    simp only [Freshness.checkFreshness, Bool.false_and, if_neg, Bool.not_false, if_pos]
    rfl
  · intro hp
    subst hp
    simp only [Freshness.checkFreshness, Bool.and_false, if_neg, Bool.not_true]
    rfl

/-- Witness for C3 (amended) at concrete inputs: a three-day-old published
item with a two-day maximum is stale, and a missing date with
`allow_missing` disabled is rejected as missing. -/
theorem check_freshness_cases_witness :
    Freshness.checkFreshness (3 * 86400) (some 0) 0 2 true true
      = { passed := false, decisionCode := "STALE_NEWS", ageDays := some 3 } ∧
    Freshness.checkFreshness 0 none 0 2 false true
      = { passed := false, decisionCode := "MISSING_PUBLISHED_AT", ageDays := none } := by
  constructor
  · have h := (check_freshness_cases (3 * 86400) (some 0) 0 2).1 0 rfl true true
    rw [h]
    norm_num
  · exact (check_freshness_cases 0 none 0 2).2.2.1 rfl true

namespace Dedup

/-- Is `c` an ASCII hexadecimal digit? -/
def isHexDigitChar (c : Char) : Bool :=
  ('0' ≤ c ∧ c ≤ '9') ∨ ('a' ≤ c ∧ c ≤ 'f') ∨ ('A' ≤ c ∧ c ≤ 'F')

/-- Numeric value of a hexadecimal digit. -/
def hexDigitVal (c : Char) : Nat :=
  if '0' ≤ c ∧ c ≤ '9' then c.toNat - '0'.toNat
  else if 'a' ≤ c ∧ c ≤ 'f' then c.toNat - 'a'.toNat + 10
  else if 'A' ≤ c ∧ c ≤ 'F' then c.toNat - 'A'.toNat + 10
  else 0

/-- Tail of a digit group as accepted by Python's `int(s, 16)`: single
underscores are allowed only between digits. -/
def hexTailOk : List Char → Bool
  | [] => true
  | '_' :: rest =>
    match rest with
    | [] => false
    | c :: rest2 => isHexDigitChar c && hexTailOk rest2
  | c :: rest => isHexDigitChar c && hexTailOk rest

/-- A non-empty, correctly underscore-grouped run of hex digits. -/
def hexDigitsOk : List Char → Bool
  | [] => false
  | c :: rest => isHexDigitChar c && hexTailOk rest

/-- Value of a hex digit run (underscores ignored). -/
def hexValue (l : List Char) : Nat :=
  (l.filter (fun c => c ≠ '_')).foldl (fun acc c => 16 * acc + hexDigitVal c) 0

/-- Python `int(s, 16)`: strip surrounding whitespace, an optional sign,
an optional `0x`/`0X` prefix (itself optionally followed by one
underscore), then a non-empty underscore-grouped run of hex digits. -/
def pyIntHex (s : List Char) : Option Int :=
  let t := pyStrip s
  let signAndBody : Int × List Char :=
    match t with
    | '+' :: r => (1, r)
    | '-' :: r => (-1, r)
    | _ => (1, t)
  let sign := signAndBody.1
  let body := signAndBody.2
  let digits : List Char :=
    match body with
    | '0' :: x :: r =>
      if x = 'x' ∨ x = 'X' then (match r with | '_' :: r2 => r2 | _ => r) else body
    | _ => body
  if hexDigitsOk digits then some (sign * (hexValue digits : Int)) else none

/-- Structural helper for the population count (the first argument is
fuel, always at least the value being counted). -/
def popcountGo : Nat → Nat → Nat
  | _, 0 => 0
  | 0, _ => 0
  | fuel + 1, n + 1 => (n + 1) % 2 + popcountGo fuel ((n + 1) / 2)

/-- Population count.  The source computes this with Kernighan's loop
(`while xor: distance += 1; xor &= xor - 1`), which counts the set bits of
its operand; this is the standard bit-count recursion (see
`popcount_eq`). -/
def popcount (n : Nat) : Nat := popcountGo n n

theorem popcountGo_congr : ∀ f1 f2 n : Nat, n ≤ f1 → n ≤ f2 →
    popcountGo f1 n = popcountGo f2 n := by
  intro f1
  induction f1 with
  | zero =>
    intro f2 n h1 _
    interval_cases n
    cases f2 <;> rfl
  | succ k ih =>
    intro f2 n h1 h2
    match n, f2 with
    | 0, f2 => cases f2 <;> rfl
    | m + 1, j + 1 =>
      show (m + 1) % 2 + popcountGo k ((m + 1) / 2)
          = (m + 1) % 2 + popcountGo j ((m + 1) / 2)
      rw [ih j ((m + 1) / 2) (by omega) (by omega)]

/-- The Kernighan-loop recurrence satisfied by `popcount`. -/
theorem popcount_eq (n : Nat) :
    popcount n = if n = 0 then 0 else n % 2 + popcount (n / 2) := by
  match n with
  | 0 => rfl
  | m + 1 =>
    rw [if_neg (Nat.succ_ne_zero m)]
    show (m + 1) % 2 + popcountGo m ((m + 1) / 2)
        = (m + 1) % 2 + popcountGo ((m + 1) / 2) ((m + 1) / 2)
    rw [popcountGo_congr m ((m + 1) / 2) ((m + 1) / 2) (by omega) (by omega)]

/-- `hamming_distance` from `dedup.py`.  An empty string is treated as the
value 0 without parsing (`int(hash1, 16) if hash1 else 0`); a parse failure
yields the error value 99.  Python computes `(v1 ^ v2) & ((1 << 64) - 1)`
on unbounded integers; two's-complement XOR followed by the 64-bit mask
equals the XOR of the operands' residues modulo `2 ^ 64`, the form used
here. -/
def hammingDistance (hash1 hash2 : List Char) : Nat :=
  let v1 : Option Int := if hash1.isEmpty then some 0 else pyIntHex hash1
  let v2 : Option Int := if hash2.isEmpty then some 0 else pyIntHex hash2
  match v1, v2 with
  | some a, some b =>
    popcount ((a % (2 ^ 64 : Int)).toNat ^^^ (b % (2 ^ 64 : Int)).toNat)
  | _, _ => 99

theorem popcount_le_of_lt {k n : Nat} (h : n < 2 ^ k) : popcount n ≤ k := by
  induction k generalizing n with
  | zero =>
    interval_cases n
    rfl
  | succ k ih =>
    rw [popcount_eq]
    by_cases h0 : n = 0
    · simp [h0]
    · rw [if_neg h0]
      have hdiv : n / 2 < 2 ^ k := by
        rw [Nat.div_lt_iff_lt_mul (by norm_num)]
        calc n < 2 ^ (k + 1) := h
        _ = 2 ^ k * 2 := by ring
      have := ih hdiv
      have hm : n % 2 ≤ 1 := Nat.lt_succ_iff.mp (Nat.mod_lt n (by norm_num))
      omega

theorem popcount_eq_zero_iff (n : Nat) : popcount n = 0 ↔ n = 0 := by
  induction n using Nat.strong_induction_on with
  | _ n ih =>
    rw [popcount_eq]
    by_cases h0 : n = 0
    · simp [h0]
    · rw [if_neg h0]
      constructor
      · intro h
        have h1 : n % 2 = 0 := by omega
        have h2 : popcount (n / 2) = 0 := by omega
        have h3 : n / 2 = 0 :=
          (ih (n / 2) (Nat.div_lt_self (Nat.pos_of_ne_zero h0) one_lt_two)).mp h2
        omega
      · intro h
        exact absurd h h0

end Dedup

/-- C5 counterexample: the hex strings `"0"` and `"00"` are distinct, yet
their Hamming distance is 0 — so "the result is 0 if and only if a and b
are equal" fails for hex strings as stated (the distance compares the
denoted 64-bit values, not the strings). -/
theorem hamming_distance_zero_counterexample :
    Dedup.hammingDistance "0".data "00".data = 0 ∧ "0".data ≠ "00".data := by
  constructor
  · rfl
  · decide

/-- C5 (amended): for all strings that Python's `int(s, 16)` accepts (an
empty string standing for 0), the distance is symmetric, lies in [0, 64],
equals `popcount (xor)` of the two 64-bit values, and is 0 exactly when the
two values are congruent modulo `2 ^ 64` — i.e. when the denoted 64-bit
hashes are equal (for canonical hash strings this is string equality). -/
theorem hamming_distance_spec (a b : List Char) (va vb : Int)
    (ha : (if a.isEmpty then some 0 else Dedup.pyIntHex a) = some va)
    (hb : (if b.isEmpty then some 0 else Dedup.pyIntHex b) = some vb) :
    Dedup.hammingDistance a b = Dedup.hammingDistance b a ∧
    Dedup.hammingDistance a b ≤ 64 ∧
    (Dedup.hammingDistance a b = 0 ↔ va % (2 ^ 64 : Int) = vb % (2 ^ 64 : Int)) ∧
    Dedup.hammingDistance a b
      = Dedup.popcount (((va % (2 ^ 64 : Int)).toNat)
          ^^^ ((vb % (2 ^ 64 : Int)).toNat)) := by
  have hA : (va % (2 ^ 64 : Int)).toNat < 2 ^ 64 := by
    have h1 : va % (2 ^ 64 : Int) < 2 ^ 64 := Int.emod_lt_of_pos va (by positivity)
    have h2 : (0 : Int) ≤ va % (2 ^ 64 : Int) := Int.emod_nonneg va (by positivity)
    omega
  have hB : (vb % (2 ^ 64 : Int)).toNat < 2 ^ 64 := by
    have h1 : vb % (2 ^ 64 : Int) < 2 ^ 64 := Int.emod_lt_of_pos vb (by positivity)
    have h2 : (0 : Int) ≤ vb % (2 ^ 64 : Int) := Int.emod_nonneg vb (by positivity)
    omega
  have hmain : Dedup.hammingDistance a b
      = Dedup.popcount (((va % (2 ^ 64 : Int)).toNat)
          ^^^ ((vb % (2 ^ 64 : Int)).toNat)) := by
    unfold Dedup.hammingDistance
    rw [ha, hb]
  have hsym : Dedup.hammingDistance b a
      = Dedup.popcount (((vb % (2 ^ 64 : Int)).toNat)
          ^^^ ((va % (2 ^ 64 : Int)).toNat)) := by
    unfold Dedup.hammingDistance
    rw [ha, hb]
  refine ⟨?_, ?_, ?_, hmain⟩
  · rw [hmain, hsym, Nat.xor_comm]
  · rw [hmain]
    exact Dedup.popcount_le_of_lt (Nat.xor_lt_two_pow hA hB)
  · rw [hmain, Dedup.popcount_eq_zero_iff, Nat.xor_eq_zero]
    have h2 : (0 : Int) ≤ va % (2 ^ 64 : Int) := Int.emod_nonneg va (by positivity)
    have h3 : (0 : Int) ≤ vb % (2 ^ 64 : Int) := Int.emod_nonneg vb (by positivity)
    omega

/-- Witness for C5 (amended) at the canonical hashes `"f"` and `"e"`:
distance 1, symmetric, within bounds. -/
theorem hamming_distance_spec_witness :
    ((if ("f".data).isEmpty then some 0 else Dedup.pyIntHex "f".data) = some 15) ∧
    Dedup.hammingDistance "f".data "e".data = Dedup.hammingDistance "e".data "f".data ∧
    Dedup.hammingDistance "f".data "e".data ≤ 64 ∧
    (Dedup.hammingDistance "f".data "e".data = 0
      ↔ (15 : Int) % (2 ^ 64 : Int) = (14 : Int) % (2 ^ 64 : Int)) := by
  have h := hamming_distance_spec "f".data "e".data 15 14 (by rfl) (by rfl)
  exact ⟨by rfl, h.1, h.2.1, h.2.2.1⟩

namespace LlmMonitor

/-- The class-level state of `CircuitBreaker` in `llm_monitor.py`:
the recorded error timestamps (naive-UTC seconds), the `_is_open` flag and
`_last_error_at`. -/
structure CBState where
  errors : List Int
  isOpenFlag : Bool
  lastErrorAt : Option Int
  deriving Repr, DecidableEq

/-- `_window_minutes = 5`, in seconds. -/
def windowSeconds : Int := 5 * 60

/-- `_cooldown_minutes = 10`, in seconds. -/
def cooldownSeconds : Int := 10 * 60

/-- `_threshold = 5` errors in the window. -/
def cbThreshold : Nat := 5

/-- The initial class-level state: no errors, circuit closed. -/
def cbInitial : CBState := { errors := [], isOpenFlag := false, lastErrorAt := none }

/-- `CircuitBreaker._cleanup`: keep only errors strictly newer than
`now - 5 minutes`. -/
def cbCleanup (now : Int) (errors : List Int) : List Int :=
  errors.filter (fun t => now - windowSeconds < t)

/-- `CircuitBreaker.record_error` at time `now`: set `_last_error_at`,
append the error, clean up the window, and open the circuit when the
window holds at least `_threshold` errors. -/
def recordError (s : CBState) (now : Int) : CBState :=
  let errors := cbCleanup now (s.errors ++ [now])
  { errors := errors
    isOpenFlag := if cbThreshold ≤ errors.length then true else s.isOpenFlag
    lastErrorAt := some now }

/-- `CircuitBreaker.record_success`: close the circuit and clear the error
list when it was open; otherwise do nothing. -/
def recordSuccess (s : CBState) : CBState :=
  if s.isOpenFlag then { errors := [], isOpenFlag := false, lastErrorAt := s.lastErrorAt }
  else s

/-- `CircuitBreaker.is_open` at time `now`: false when the flag is down;
when the flag is up, false once strictly more than the 10-minute cooldown
has elapsed since `_last_error_at` (a probe is allowed), else true. -/
def cbIsOpen (s : CBState) (now : Int) : Bool :=
  if !s.isOpenFlag then false
  else
    match s.lastErrorAt with
    | some t => if cooldownSeconds < now - t then false else true
    | none => true

/-- `LLMMonitor.track_request`'s breaker update: a non-200 HTTP status or a
truthy `error_type` records an error, otherwise a success. -/
def trackRequest (s : CBState) (now : Int) (httpStatus : Int)
    (errorType : Option (List Char)) : CBState :=
  if httpStatus ≠ 200 ∨ pyTruthyStr errorType = true then recordError s now
  else recordSuccess s

theorem recordError_errors (s : CBState) (now : Int) :
    (recordError s now).errors = cbCleanup now (s.errors ++ [now]) := rfl

theorem recordError_flag (s : CBState) (now : Int) :
    (recordError s now).isOpenFlag
      = (if cbThreshold ≤ (cbCleanup now (s.errors ++ [now])).length then true
         else s.isOpenFlag) := rfl

theorem recordError_last (s : CBState) (now : Int) :
    (recordError s now).lastErrorAt = some now := rfl

theorem cbCleanup_eq_self (now : Int) (l : List Int)
    (h : ∀ t ∈ l, now - windowSeconds < t) : cbCleanup now l = l := by
  unfold cbCleanup
  rw [List.filter_eq_self]
  intro a ha
  simpa using h a ha

end LlmMonitor

namespace Llm

/-- The per-cycle throttle state of `OpenRouterClient` (`llm.py`). -/
structure ClientState where
  requestsThisCycle : Nat
  consecutive429 : Nat
  disabledForCycle : Bool
  lastErrorCode : Option (List Char)
  maxRequestsPerCycle : Nat
  maxConsecutive429 : Nat
  deriving Repr, DecidableEq

/-- A fresh client: `__init__` / `reset_cycle` values with the default
configuration (30 requests per cycle, three consecutive 429s). -/
def freshClient : ClientState :=
  { requestsThisCycle := 0, consecutive429 := 0, disabledForCycle := false,
    lastErrorCode := none, maxRequestsPerCycle := 30, maxConsecutive429 := 3 }

/-- `OpenRouterClient.is_available`: the only pre-call gate used by
`_call_api`.  It inspects the cycle throttle state only — the circuit
breaker is not an input. -/
def isAvailable (c : ClientState) : Bool × Option (List Char) :=
  if c.disabledForCycle then
    (false, some (match c.lastErrorCode with
      | some e => if e.isEmpty then "LLM_DISABLED".data else e
      | none => "LLM_DISABLED".data))
  else if c.maxRequestsPerCycle ≤ c.requestsThisCycle then
    (false, some "LLM_CYCLE_LIMIT".data)
  else if c.maxConsecutive429 ≤ c.consecutive429 then
    (false, some "LLM_RATE_LIMIT_EXCEEDED".data)
  else (true, none)

/-- `_call_api` proceeds to the HTTP request exactly when `is_available`
returns true. -/
def callIsAttempted (c : ClientState) : Bool := (isAvailable c).1

end Llm

/-- C2 counterexample: after five errors at time 0 the circuit is open at
time 0 (well within the cooldown), yet the LLM client's only pre-call gate,
`is_available`, still reports a fresh client as available — the HTTP call
is attempted and no `CIRCUIT_OPEN` code is produced.  This contradicts the
claim that while the circuit is open callers receive `CIRCUIT_OPEN`
without any call being made: nothing in the call path consults
`is_open`. -/
theorem circuit_open_not_consulted_counterexample :
    LlmMonitor.cbIsOpen
      (LlmMonitor.recordError (LlmMonitor.recordError (LlmMonitor.recordError
        (LlmMonitor.recordError (LlmMonitor.recordError LlmMonitor.cbInitial 0) 0) 0) 0) 0)
      0 = true ∧
    Llm.callIsAttempted Llm.freshClient = true ∧
    (Llm.isAvailable Llm.freshClient).2 = none := by
  refine ⟨by decide, rfl, rfl⟩

/-- C2 (amended): the `CircuitBreaker` state machine itself behaves as
specified.  It starts closed; five errors recorded at nondecreasing times
spanning strictly less than the 5-minute window open the circuit; while
the open flag is set, `is_open` returns true as long as at most 10 minutes
have elapsed since the last recorded error and false once strictly more
have elapsed (so the next call would be allowed as a probe); recording a
success while open closes the circuit and clears the error window.
However, no caller consults `is_open` before an LLM call and no
`CIRCUIT_OPEN` error code exists in the call path (see the
counterexample); the breaker state is only reported through the health,
metrics and admin surfaces. -/
theorem circuit_breaker_state_machine (t1 t2 t3 t4 t5 : Int)
    (h12 : t1 ≤ t2) (h23 : t2 ≤ t3) (h34 : t3 ≤ t4) (h45 : t4 ≤ t5)
    (hw : t5 - t1 < LlmMonitor.windowSeconds) :
    LlmMonitor.cbInitial.isOpenFlag = false ∧
    (∀ now, LlmMonitor.cbIsOpen LlmMonitor.cbInitial now = false) ∧
    (LlmMonitor.recordError (LlmMonitor.recordError (LlmMonitor.recordError
        (LlmMonitor.recordError (LlmMonitor.recordError LlmMonitor.cbInitial t1) t2)
        t3) t4) t5).isOpenFlag = true ∧
    (∀ s : LlmMonitor.CBState, ∀ te now : Int, s.isOpenFlag = true →
      s.lastErrorAt = some te →
      (now - te ≤ LlmMonitor.cooldownSeconds → LlmMonitor.cbIsOpen s now = true) ∧
      (LlmMonitor.cooldownSeconds < now - te → LlmMonitor.cbIsOpen s now = false)) ∧
    (∀ s : LlmMonitor.CBState, s.isOpenFlag = true →
      (LlmMonitor.recordSuccess s).isOpenFlag = false ∧
      (LlmMonitor.recordSuccess s).errors = [] ∧
      ∀ now, LlmMonitor.cbIsOpen (LlmMonitor.recordSuccess s) now = false) := by
  have hwin : LlmMonitor.windowSeconds = 300 := rfl
  refine ⟨rfl, fun now => rfl, ?_, ?_, ?_⟩
  · have e1 : (LlmMonitor.recordError LlmMonitor.cbInitial t1).errors = [t1] := by
      rw [LlmMonitor.recordError_errors]
      show LlmMonitor.cbCleanup t1 [t1] = [t1]
      refine LlmMonitor.cbCleanup_eq_self t1 [t1] ?_
      intro t ht
      simp only [List.mem_singleton] at ht
      omega
    have e2 : (LlmMonitor.recordError (LlmMonitor.recordError LlmMonitor.cbInitial t1)
        t2).errors = [t1, t2] := by
      rw [LlmMonitor.recordError_errors, e1]
      refine LlmMonitor.cbCleanup_eq_self t2 [t1, t2] ?_
      intro t ht
      simp only [List.mem_cons, List.mem_singleton, List.not_mem_nil, or_false] at ht
      rcases ht with h | h <;> omega
    have e3 : (LlmMonitor.recordError (LlmMonitor.recordError (LlmMonitor.recordError
        LlmMonitor.cbInitial t1) t2) t3).errors = [t1, t2, t3] := by
      rw [LlmMonitor.recordError_errors, e2]
      refine LlmMonitor.cbCleanup_eq_self t3 [t1, t2, t3] ?_
      intro t ht
      simp only [List.mem_cons, List.not_mem_nil, or_false] at ht
      rcases ht with h | h | h <;> omega
    have e4 : (LlmMonitor.recordError (LlmMonitor.recordError (LlmMonitor.recordError
        (LlmMonitor.recordError LlmMonitor.cbInitial t1) t2) t3) t4).errors
        = [t1, t2, t3, t4] := by
      rw [LlmMonitor.recordError_errors, e3]
      refine LlmMonitor.cbCleanup_eq_self t4 [t1, t2, t3, t4] ?_
      intro t ht
      simp only [List.mem_cons, List.not_mem_nil, or_false] at ht
      rcases ht with h | h | h | h <;> omega
    rw [LlmMonitor.recordError_flag]
    have e5 : LlmMonitor.cbCleanup t5 ((LlmMonitor.recordError (LlmMonitor.recordError
        (LlmMonitor.recordError (LlmMonitor.recordError LlmMonitor.cbInitial t1) t2) t3)
        t4).errors ++ [t5]) = [t1, t2, t3, t4, t5] := by
      rw [e4]
      refine LlmMonitor.cbCleanup_eq_self t5 [t1, t2, t3, t4, t5] ?_
      intro t ht
      simp only [List.mem_cons, List.not_mem_nil, or_false] at ht
      rcases ht with h | h | h | h | h <;> omega
    rw [e5]
    rfl
  · intro s te now hflag hlast
    constructor
    · intro hcool
      unfold LlmMonitor.cbIsOpen
      rw [hflag, hlast]
      simp only [Bool.not_true, Bool.false_eq_true, if_false]
      rw [if_neg (by omega)]
    · intro hcool
      unfold LlmMonitor.cbIsOpen
      rw [hflag, hlast]
      simp only [Bool.not_true, Bool.false_eq_true, if_false]
      rw [if_pos hcool]
  · intro s hflag
    unfold LlmMonitor.recordSuccess
    rw [if_pos hflag]
    exact ⟨rfl, rfl, fun now => rfl⟩

/-- Witness for C2 (amended): five errors recorded a minute apart (span
four minutes, inside the window) open the circuit. -/
theorem circuit_breaker_state_machine_witness :
    (LlmMonitor.recordError (LlmMonitor.recordError (LlmMonitor.recordError
        (LlmMonitor.recordError (LlmMonitor.recordError LlmMonitor.cbInitial 0) 60)
        120) 180) 240).isOpenFlag = true ∧
    LlmMonitor.cbIsOpen LlmMonitor.cbInitial 0 = false := by
  have h := circuit_breaker_state_machine 0 60 120 180 240
    (by norm_num) (by norm_num) (by norm_num) (by norm_num)
    (by norm_num [LlmMonitor.windowSeconds])
  exact ⟨h.2.2.1, h.2.1 0⟩

namespace Filter1

/-- `KeywordsConfig`: positive keyword categories (an ordered mapping, as a
Python dict) and the flat negative keyword list. -/
structure KeywordsConfig where
  positive : List (String × List (List Char))
  negative : List (List Char)

/-- `WeightsConfig`: the five declared integer weight fields. -/
structure WeightsConfig where
  accident : Int
  repair : Int
  infrastructure : Int
  industrial : Int
  negative : Int

/-- `getattr(self.weights, category, 0)`: look a category name up among the
declared fields of `WeightsConfig`, defaulting to 0. -/
def getWeight (w : WeightsConfig) (category : String) : Int :=
  if category = "accident" then w.accident
  else if category = "repair" then w.repair
  else if category = "infrastructure" then w.infrastructure
  else if category = "industrial" then w.industrial
  else if category = "negative" then w.negative
  else 0

/-- `FilterResult` of `filter1.py`. -/
structure FilterResult where
  score : Int
  positiveMatches : List (List Char)
  negativeMatches : List (List Char)
  passed : Bool
  categoriesMatched : List String
  deriving Repr, DecidableEq

/-- The negative-keyword loop: each matching negative keyword adds the
(negative) weight once and is recorded. -/
def negLoop (textLower : List Char) (negWeight : Int) :
    List (List Char) → Int × List (List Char) → Int × List (List Char)
  | [], acc => acc
  | kw :: rest, acc =>
    if pyContains (pyLower kw) textLower then
      negLoop textLower negWeight rest (acc.1 + negWeight, acc.2 ++ [kw])
    else negLoop textLower negWeight rest acc

/-- State threaded through the positive-category loops: running score,
positive matches, matched categories. -/
structure PosAcc where
  score : Int
  positiveMatches : List (List Char)
  categoriesMatched : List String
  deriving Repr, DecidableEq

/-- The inner keyword loop of one positive category: every matching keyword
is recorded, the category weight is added only at the first match
(`category_matched` flag). -/
def catLoop (textLower : List Char) (weight : Int) (category : String) :
    List (List Char) → Bool → PosAcc → PosAcc
  | [], _, acc => acc
  | kw :: rest, matched, acc =>
    if pyContains (pyLower kw) textLower then
      if matched then
        catLoop textLower weight category rest matched
          { acc with positiveMatches := acc.positiveMatches ++ [kw] }
      else
        catLoop textLower weight category rest true
          { score := acc.score + weight
            positiveMatches := acc.positiveMatches ++ [kw]
            categoriesMatched := acc.categoriesMatched ++ [category] }
    else catLoop textLower weight category rest matched acc

/-- The outer loop over the positive categories (dict order). -/
def posLoop (textLower : List Char) (weights : WeightsConfig) :
    List (String × List (List Char)) → PosAcc → PosAcc
  | [], acc => acc
  | (category, kws) :: rest, acc =>
    posLoop textLower weights rest
      (catLoop textLower (getWeight weights category) category kws false acc)

/-- `KeywordFilter.score`: empty text scores 0 and fails; otherwise the
negative keywords are scanned first, then each positive category, and the
text passes when the total reaches the threshold. -/
def keywordScore (keywords : KeywordsConfig) (weights : WeightsConfig)
    (threshold : Int) (text : List Char) : FilterResult :=
  if text.isEmpty then
    { score := 0, positiveMatches := [], negativeMatches := [],
      passed := false, categoriesMatched := [] }
  else
    let textLower := pyLower text
    let neg := negLoop textLower weights.negative keywords.negative (0, [])
    let pos := posLoop textLower weights keywords.positive
      { score := neg.1, positiveMatches := [], categoriesMatched := [] }
    { score := pos.score
      positiveMatches := pos.positiveMatches
      negativeMatches := neg.2
      passed := threshold ≤ pos.score
      categoriesMatched := pos.categoriesMatched }

/-- Result triple of `should_send_to_llm`: `(should_send, filter_result,
decision_code)`. -/
structure SendToLLMResult where
  shouldSend : Bool
  result : FilterResult
  decisionCode : String
  deriving Repr, DecidableEq

/-- `KeywordFilter.should_send_to_llm`: score `f"{title} {text}"`; below
threshold fails with `FILTER1_BELOW_THRESHOLD`; with the combo rule armed
(flag on and both required category lists non-empty) and not satisfied, a
strong-event phrase found case-insensitively in the combined text overrides
to pass with `STRONG_OVERRIDE`, otherwise the item fails with
`COMBO_RULE_FAILED` (its result re-marked unpassed). -/
def shouldSendToLLM (keywords : KeywordsConfig) (weights : WeightsConfig)
    (threshold : Int) (title text : List Char) (requireCombo : Bool)
    (eventCategories objectCategories : List String)
    (strongOverrideEnabled : Bool) (strongPhrases : List (List Char)) :
    SendToLLMResult :=
  let combined := title ++ [' '] ++ text
  let result := keywordScore keywords weights threshold combined
  let code0 := if result.passed then "PASSED" else "FILTER1_BELOW_THRESHOLD"
  if !result.passed then ⟨false, result, code0⟩
  else if requireCombo && !eventCategories.isEmpty && !objectCategories.isEmpty then
    let hasEvent := eventCategories.any (fun cat => result.categoriesMatched.contains cat)
    let hasObject := objectCategories.any (fun cat => result.categoriesMatched.contains cat)
    if !(hasEvent && hasObject) then
      if strongOverrideEnabled && !strongPhrases.isEmpty &&
          strongPhrases.any (fun p => pyContains (pyLower p) (pyLower combined)) then
        ⟨true, result, "STRONG_OVERRIDE"⟩
      else
        ⟨false, { result with passed := false }, "COMBO_RULE_FAILED"⟩
    else ⟨true, result, code0⟩
  else ⟨true, result, code0⟩

end Filter1

/-- C6: when the base filter1 score passes, the combo requirement is on
with non-empty required event and object category lists, and the matched
categories lack a required event category or a required object category,
then: with the strong-event override enabled and some strong phrase
occurring case-insensitively in the combined `title + " " + text`, the
item passes with code `STRONG_OVERRIDE`; otherwise it fails with code
`COMBO_RULE_FAILED`. -/
theorem should_send_to_llm_combo (keywords : Filter1.KeywordsConfig)
    (weights : Filter1.WeightsConfig) (threshold : Int) (title text : List Char)
    (eventCategories objectCategories : List String)
    (strongOverrideEnabled : Bool) (strongPhrases : List (List Char))
    (hpass : (Filter1.keywordScore keywords weights threshold
        (title ++ [' '] ++ text)).passed = true)
    (hev : ¬ eventCategories.isEmpty = true)
    (hob : ¬ objectCategories.isEmpty = true)
    (hcombo : ¬ ((eventCategories.any (fun cat =>
          (Filter1.keywordScore keywords weights threshold
            (title ++ [' '] ++ text)).categoriesMatched.contains cat)) = true ∧
        (objectCategories.any (fun cat =>
          (Filter1.keywordScore keywords weights threshold
            (title ++ [' '] ++ text)).categoriesMatched.contains cat)) = true)) :
    (strongOverrideEnabled = true →
      (strongPhrases.any (fun p =>
          pyContains (pyLower p) (pyLower (title ++ [' '] ++ text)))) = true →
      Filter1.shouldSendToLLM keywords weights threshold title text true
          eventCategories objectCategories strongOverrideEnabled strongPhrases
        = ⟨true, Filter1.keywordScore keywords weights threshold
            (title ++ [' '] ++ text), "STRONG_OVERRIDE"⟩) ∧
    ((strongOverrideEnabled = false ∨
      (strongPhrases.any (fun p =>
          pyContains (pyLower p) (pyLower (title ++ [' '] ++ text)))) = false) →
      Filter1.shouldSendToLLM keywords weights threshold title text true
          eventCategories objectCategories strongOverrideEnabled strongPhrases
        = ⟨false,
            { Filter1.keywordScore keywords weights threshold
                (title ++ [' '] ++ text) with passed := false },
            "COMBO_RULE_FAILED"⟩) := by
  simp only [Filter1.shouldSendToLLM]
  rw [hpass]
  simp only [Bool.not_true, Bool.false_eq_true, if_false, Bool.true_and]
  rw [(by simp [hev] : (!eventCategories.isEmpty) = true),
    (by simp [hob] : (!objectCategories.isEmpty) = true)]
  simp only [Bool.and_self, if_true]
  have hcombo2 : (!(eventCategories.any (fun cat =>
      (Filter1.keywordScore keywords weights threshold
        (title ++ [' '] ++ text)).categoriesMatched.contains cat) &&
      objectCategories.any (fun cat =>
      (Filter1.keywordScore keywords weights threshold
        (title ++ [' '] ++ text)).categoriesMatched.contains cat))) = true := by
    rcases Bool.eq_false_or_eq_true (eventCategories.any (fun cat =>
      (Filter1.keywordScore keywords weights threshold
        (title ++ [' '] ++ text)).categoriesMatched.contains cat)) with h | h
    · rcases Bool.eq_false_or_eq_true (objectCategories.any (fun cat =>
        (Filter1.keywordScore keywords weights threshold
          (title ++ [' '] ++ text)).categoriesMatched.contains cat)) with h2 | h2
      · exact absurd ⟨h, h2⟩ hcombo
      · rw [h, h2]
        rfl
    · rw [h]
      rfl
  rw [if_pos hcombo2]
  constructor
  · intro hen hph
    have hne : strongPhrases.isEmpty = false := by
      rcases strongPhrases with _ | ⟨p, ps⟩
      · simp at hph
      · rfl
    rw [if_pos (by rw [hen, hne, hph]; rfl)]
  · intro hdis
    rcases hdis with hdis | hdis
    · rw [if_neg (by rw [hdis]; simp)]
    · rw [if_neg (by rw [hdis]; simp)]

/-- Witness for C6: a concrete config where the title matches only the
`accident` (event) category so the combo fails; with a strong phrase
present the item passes with `STRONG_OVERRIDE`, without it the item fails
with `COMBO_RULE_FAILED`. -/
theorem should_send_to_llm_combo_witness :
    Filter1.shouldSendToLLM
        ⟨[("accident", ["boom".data]), ("infrastructure", ["plant".data])],
          []⟩ ⟨3, 2, 4, 2, -5⟩ 3 "Boom today".data "".data true
        ["accident"] ["infrastructure"] true ["big boom".data]
      = ⟨false,
          { score := 3, positiveMatches := ["boom".data], negativeMatches := [],
            passed := false, categoriesMatched := ["accident"] },
          "COMBO_RULE_FAILED"⟩ := by
  have h := (should_send_to_llm_combo
    ⟨[("accident", ["boom".data]), ("infrastructure", ["plant".data])], []⟩
    ⟨3, 2, 4, 2, -5⟩ 3 "Boom today".data "".data
    ["accident"] ["infrastructure"] true ["big boom".data]
    (by decide) (by decide) (by decide) (by decide)).2 (Or.inr (by decide))
  rw [h]
  decide

namespace Decision

/-- The validated LLM classification (`LLMResponse` in `llm.py`);
`relevance` is a rational standing for the Python float in [0, 1]. -/
structure LLMResponse where
  eventType : String
  relevance : ℚ
  urgency : Int
  object : String
  why : List Char
  action : String
  deriving Repr, DecidableEq

/-- The rejection (or approval) reasons of `decide`; each constructor
stands for the source's reason string with its interpolated values elided:
`filter1_rejected (score=…)`, `llm_failed`, `low_relevance (…)`,
`low_urgency (…)`, `llm_action_ignore`, `daily_limit_reached (…/…)`,
`approved (…)`. -/
inductive DecisionReason
  | filter1Rejected
  | llmFailed
  | lowRelevance
  | lowUrgency
  | llmActionIgnore
  | dailyLimitReached
  | approved
  deriving Repr, DecidableEq

/-- `SignalDecision` of `decision.py`. -/
structure SignalDecision where
  shouldSend : Bool
  reason : DecisionReason
  suppressed : Bool
  deriving Repr, DecidableEq

/-- Default thresholds of `decide`. -/
def defaultMaxSignalsPerDay : Nat := 5

/-- Default relevance threshold 0.6. -/
def defaultRelevanceThreshold : ℚ := 6 / 10

/-- Default urgency threshold 3. -/
def defaultUrgencyThreshold : Int := 3

/-- `decide` from `decision.py`: the checks run in source order and the
first failing one determines the outcome; only the daily-limit rejection
sets `suppressed`. -/
def decide (llmResponse : Option LLMResponse) (filter1Passed : Bool)
    (signalsToday : Nat) (maxSignalsPerDay : Nat)
    (relevanceThreshold : ℚ) (urgencyThreshold : Int) : SignalDecision :=
  if !filter1Passed then ⟨false, .filter1Rejected, false⟩
  else
    match llmResponse with
    | none => ⟨false, .llmFailed, false⟩
    | some r =>
      if r.relevance < relevanceThreshold then ⟨false, .lowRelevance, false⟩
      else if r.urgency < urgencyThreshold then ⟨false, .lowUrgency, false⟩
      else if r.action = "ignore" then ⟨false, .llmActionIgnore, false⟩
      else if maxSignalsPerDay ≤ signalsToday then ⟨false, .dailyLimitReached, true⟩
      else ⟨true, .approved, false⟩

end Decision

/-- C7: the signal decision evaluates its checks in exactly the claimed
order and returns the first matching rejection — filter1 failure, then
missing LLM result (`llm_failed`), then relevance below threshold
(default 0.6), then urgency below threshold (default 3), then action
`ignore`, then the daily limit (default 5, the only `suppressed`
rejection) — and approves otherwise. -/
theorem decide_order (llmResponse : Option Decision.LLMResponse)
    (filter1Passed : Bool) (signalsToday : Nat) (maxSignalsPerDay : Nat)
    (relevanceThreshold : ℚ) (urgencyThreshold : Int) :
    (filter1Passed = false →
      Decision.decide llmResponse filter1Passed signalsToday maxSignalsPerDay
          relevanceThreshold urgencyThreshold
        = ⟨false, .filter1Rejected, false⟩) ∧
    (filter1Passed = true → llmResponse = none →
      Decision.decide llmResponse filter1Passed signalsToday maxSignalsPerDay
          relevanceThreshold urgencyThreshold
        = ⟨false, .llmFailed, false⟩) ∧
    (∀ r, filter1Passed = true → llmResponse = some r →
      r.relevance < relevanceThreshold →
      Decision.decide llmResponse filter1Passed signalsToday maxSignalsPerDay
          relevanceThreshold urgencyThreshold
        = ⟨false, .lowRelevance, false⟩) ∧
    (∀ r, filter1Passed = true → llmResponse = some r →
      ¬ r.relevance < relevanceThreshold → r.urgency < urgencyThreshold →
      Decision.decide llmResponse filter1Passed signalsToday maxSignalsPerDay
          relevanceThreshold urgencyThreshold
        = ⟨false, .lowUrgency, false⟩) ∧
    (∀ r, filter1Passed = true → llmResponse = some r →
      ¬ r.relevance < relevanceThreshold → ¬ r.urgency < urgencyThreshold →
      r.action = "ignore" →
      Decision.decide llmResponse filter1Passed signalsToday maxSignalsPerDay
          relevanceThreshold urgencyThreshold
        = ⟨false, .llmActionIgnore, false⟩) ∧
    (∀ r, filter1Passed = true → llmResponse = some r →
      ¬ r.relevance < relevanceThreshold → ¬ r.urgency < urgencyThreshold →
      ¬ r.action = "ignore" → maxSignalsPerDay ≤ signalsToday →
      Decision.decide llmResponse filter1Passed signalsToday maxSignalsPerDay
          relevanceThreshold urgencyThreshold
        = ⟨false, .dailyLimitReached, true⟩) ∧
    (∀ r, filter1Passed = true → llmResponse = some r →
      ¬ r.relevance < relevanceThreshold → ¬ r.urgency < urgencyThreshold →
      ¬ r.action = "ignore" → signalsToday < maxSignalsPerDay →
      Decision.decide llmResponse filter1Passed signalsToday maxSignalsPerDay
          relevanceThreshold urgencyThreshold
        = ⟨true, .approved, false⟩) ∧
    Decision.defaultRelevanceThreshold = 6 / 10 ∧
    Decision.defaultUrgencyThreshold = 3 ∧
    Decision.defaultMaxSignalsPerDay = 5 := by
  refine ⟨?_, ?_, ?_, ?_, ?_, ?_, ?_, rfl, rfl, rfl⟩
  · intro hf
    simp [Decision.decide, hf]
  · intro hf hl
    simp [Decision.decide, hf, hl]
  · intro r hf hl hrel
    simp [Decision.decide, hf, hl, if_pos hrel]
  · intro r hf hl hrel hurg
    simp [Decision.decide, hf, hl, if_neg hrel, if_pos hurg]
  · intro r hf hl hrel hurg hact
    simp [Decision.decide, hf, hl, if_neg hrel, if_neg hurg, if_pos hact]
  · intro r hf hl hrel hurg hact hlim
    simp [Decision.decide, hf, hl, if_neg hrel, if_neg hurg, if_neg hact, if_pos hlim]
  · intro r hf hl hrel hurg hact hlim
    simp [Decision.decide, hf, hl, if_neg hrel, if_neg hurg, if_neg hact,
      if_neg (by omega : ¬ maxSignalsPerDay ≤ signalsToday)]

/-- Witness for C7 at a concrete LLM response: relevance 0.85 and
urgency 4 with action `call`, five of five signals already sent today —
only the daily limit rejects, with `suppressed` set. -/
theorem decide_order_witness :
    Decision.decide (some ⟨"accident", 85 / 100, 4, "heat", "w".data, "call"⟩)
        true 5 Decision.defaultMaxSignalsPerDay Decision.defaultRelevanceThreshold
        Decision.defaultUrgencyThreshold
      = ⟨false, .dailyLimitReached, true⟩ := by
  exact (decide_order (some ⟨"accident", 85 / 100, 4, "heat", "w".data, "call"⟩)
      true 5 Decision.defaultMaxSignalsPerDay Decision.defaultRelevanceThreshold
      Decision.defaultUrgencyThreshold).2.2.2.2.2.1
    ⟨"accident", 85 / 100, 4, "heat", "w".data, "call"⟩ rfl rfl
    (by norm_num [Decision.defaultRelevanceThreshold])
    (by norm_num [Decision.defaultUrgencyThreshold]) (by decide)
    (by norm_num [Decision.defaultMaxSignalsPerDay])

namespace Signals

/-- One step of `re.sub(r'\s+', ' ', text)`: the flag tells whether the
previous character was whitespace (so the current run is already
collapsed). -/
def collapseWsGo : Bool → List Char → List Char
  | _, [] => []
  | prevWs, c :: rest =>
    if isPySpace c then
      if prevWs then collapseWsGo true rest else ' ' :: collapseWsGo true rest
    else c :: collapseWsGo false rest

/-- `re.sub(r'\s+', ' ', text)`: collapse every whitespace run to a single
space. -/
def collapseWs (l : List Char) : List Char := collapseWsGo false l

/-- `truncate_field` from `signals.py`: empty text stays empty; otherwise
whitespace is collapsed and stripped, and text longer than `max_len` is cut
to `max_len - 3` characters plus an ellipsis. -/
def truncateField (text : List Char) (maxLen : Nat) : List Char :=
  if text.isEmpty then []
  else if maxLen < (pyStrip (collapseWs text)).length then
    (pyStrip (collapseWs text)).take (maxLen - 3) ++ "...".data
  else pyStrip (collapseWs text)

/-- `EVENT_TYPE_RU.get(event_type, event_type)`. -/
def eventTypeRu (eventType : List Char) : List Char :=
  if eventType = "accident".data then "авария".data
  else if eventType = "outage".data then "остановка".data
  else if eventType = "repair".data then "ремонт".data
  else if eventType = "other".data then "другое".data
  else eventType

/-- `map_object_to_sphere`: `industrial` maps to industry, everything else
(water, heat, unknown) to utilities. -/
def mapObjectToSphere (objectType : List Char) : List Char :=
  if objectType = "industrial".data then "промышленность".data else "ЖКХ".data

/-- Decimal digit character (0-9). -/
def decDigitChar (d : Nat) : Char :=
  if d = 0 then '0' else if d = 1 then '1' else if d = 2 then '2'
  else if d = 3 then '3' else if d = 4 then '4' else if d = 5 then '5'
  else if d = 6 then '6' else if d = 7 then '7' else if d = 8 then '8' else '9'

/-- Digits of a natural number, most significant first (fuel-structured). -/
def natToStrGo : Nat → Nat → List Char → List Char
  | _, 0, acc => acc
  | 0, _, acc => acc
  | fuel + 1, n + 1, acc =>
    natToStrGo fuel ((n + 1) / 10) (decDigitChar ((n + 1) % 10) :: acc)

/-- Python `str` of a natural number. -/
def natToStr (n : Nat) : List Char := if n = 0 then ['0'] else natToStrGo n n []

/-- Python `str` of an integer (`f"{urgency}"`). -/
def intToStr (n : Int) : List Char :=
  if n < 0 then '-' :: natToStr (-n).toNat else natToStr n.toNat

/-- `format_signal_message` from `signals.py`: the six-line plain-text
message (`f"…{a}\n…{b}\n…"`), with `region or "не определён"` for a missing
or empty region. -/
def formatSignalMessage (eventType : List Char) (urgency : Int)
    (region : Option (List Char)) (objectType : List Char)
    (title : List Char) (why : List Char) (url : List Char) : List Char :=
  let eventRu := eventTypeRu eventType
  let sphere := mapObjectToSphere objectType
  let titleClean := truncateField title 200
  let whyClean := truncateField why 300
  let regionDisplay :=
    match region with
    | some r => if r.isEmpty then "не определён".data else r
    | none => "не определён".data
  "🚨 СИГНАЛ | ".data ++ eventRu ++ " | ".data ++ intToStr urgency ++ "/5\n".data ++
  "Регион: ".data ++ regionDisplay ++ "\n".data ++
  "Сфера: ".data ++ sphere ++ "\n".data ++
  "Суть: ".data ++ titleClean ++ "\n".data ++
  "Почему важно: ".data ++ whyClean ++ "\n".data ++
  "Источник: ".data ++ url

/-- Number of newline characters in a string; a message of exactly six
newline-separated lines has five of them. -/
def countNewlines (l : List Char) : Nat := (l.filter (fun c => c = '\n')).length

theorem collapseWsGo_ws_eq_space (b : Bool) (l : List Char) :
    ∀ c ∈ collapseWsGo b l, c = ' ' ∨ isPySpace c = false := by
  induction l generalizing b with
  | nil => intro c hc; simp [collapseWsGo] at hc
  | cons a rest ih =>
    intro c hc
    unfold collapseWsGo at hc
    by_cases ha : isPySpace a = true
    · rw [if_pos ha] at hc
      cases b with
      | true => simpa using ih true c (by simpa using hc)
      | false =>
        simp only [if_neg (by simp : ¬ (false = true)), List.mem_cons] at hc
        rcases hc with hc | hc
        · exact Or.inl hc
        · exact ih true c hc
    · rw [if_neg ha] at hc
      rcases List.mem_cons.mp hc with hc | hc
      · subst hc
        exact Or.inr (by simpa using ha)
      · exact ih false c hc

theorem mem_pyStrip {c : Char} {l : List Char} (h : c ∈ pyStrip l) : c ∈ l := by
  unfold pyStrip at h
  rw [List.mem_reverse] at h
  have h2 := (List.dropWhile_sublist isPySpace).mem h
  rw [List.mem_reverse] at h2
  exact (List.dropWhile_sublist isPySpace).mem h2

theorem newline_not_mem_truncateField (text : List Char) (maxLen : Nat) :
    '\n' ∉ truncateField text maxLen := by
  intro h
  unfold truncateField at h
  split at h
  · simp at h
  · split at h
    · rcases List.mem_append.mp h with h2 | h2
      · have h3 := mem_pyStrip ((List.take_sublist _ _).mem h2)
        rcases collapseWsGo_ws_eq_space false text '\n' h3 with h4 | h4
        · exact absurd h4 (by decide)
        · exact absurd h4 (by simp [isPySpace])
      · simp at h2
    · have h3 := mem_pyStrip h
      rcases collapseWsGo_ws_eq_space false text '\n' h3 with h4 | h4
      · exact absurd h4 (by decide)
      · exact absurd h4 (by simp [isPySpace])

theorem truncateField_length_le (text : List Char) (maxLen : Nat)
    (h3 : 3 ≤ maxLen) : (truncateField text maxLen).length ≤ maxLen := by
  unfold truncateField
  split
  · simp
  · split
    · rename_i hlong
      rw [List.length_append, List.length_take]
      have : ("...".data).length = 3 := by decide
      omega
    · rename_i hshort
      omega

theorem decDigitChar_ne_newline (d : Nat) : decDigitChar d ≠ '\n' := by
  unfold decDigitChar
  split_ifs <;> decide

theorem natToStrGo_no_newline (fuel : Nat) :
    ∀ (n : Nat) (acc : List Char), '\n' ∉ acc → '\n' ∉ natToStrGo fuel n acc := by
  induction fuel with
  | zero =>
    intro n acc hacc
    match n with
    | 0 => exact hacc
    | m + 1 => exact hacc
  | succ k ih =>
    intro n acc hacc
    match n with
    | 0 => exact hacc
    | m + 1 =>
      refine ih ((m + 1) / 10) (decDigitChar ((m + 1) % 10) :: acc) ?_
      intro hmem
      rcases List.mem_cons.mp hmem with h | h
      · exact decDigitChar_ne_newline ((m + 1) % 10) h.symm
      · exact hacc h

theorem intToStr_no_newline (n : Int) : '\n' ∉ intToStr n := by
  unfold intToStr
  split
  · intro h
    rcases List.mem_cons.mp h with h | h
    · exact absurd h (by decide)
    · revert h
      unfold natToStr
      split
      · decide
      · exact fun h => natToStrGo_no_newline _ _ [] (by simp) h
  · unfold natToStr
    split
    · decide
    · exact natToStrGo_no_newline _ _ [] (by simp)

theorem countNewlines_append (a b : List Char) :
    countNewlines (a ++ b) = countNewlines a + countNewlines b := by
  unfold countNewlines
  rw [List.filter_append, List.length_append]

theorem countNewlines_eq_zero {l : List Char} (h : '\n' ∉ l) :
    countNewlines l = 0 := by
  unfold countNewlines
  rw [List.length_eq_zero, List.filter_eq_nil_iff]
  intro a ha
  simp only [decide_eq_true_eq]
  intro hEq
  exact h (hEq ▸ ha)

theorem eventTypeRu_no_newline {et : List Char} (h : '\n' ∉ et) :
    '\n' ∉ eventTypeRu et := by
  unfold eventTypeRu
  split_ifs <;> first | decide | exact h

end Signals

/-- C8 counterexample: a URL containing a newline produces a seven-line
message (six newline characters), so "exactly six newline-separated lines
for every … URL" fails — the URL, region and event-type fields are
interpolated verbatim. -/
theorem format_signal_message_counterexample :
    Signals.countNewlines
      (Signals.formatSignalMessage "accident".data 4 none "water".data
        [] [] ['a', '\n', 'b']) = 6 := by
  decide

/-- C8 (amended): the essence field is at most 200 characters after
formatting and the why field at most 300, for every input; and the message
consists of exactly six newline-separated lines (five newline characters)
provided the event type, the region and the URL contain no newline
themselves (the truncated fields never do). -/
theorem format_signal_message_bounds (eventType : List Char) (urgency : Int)
    (region : Option (List Char)) (objectType : List Char)
    (title : List Char) (why : List Char) (url : List Char)
    (hev : '\n' ∉ eventType)
    (hreg : ∀ r, region = some r → '\n' ∉ r)
    (hurl : '\n' ∉ url) :
    Signals.countNewlines (Signals.formatSignalMessage eventType urgency region
        objectType title why url) = 5 ∧
    (Signals.truncateField title 200).length ≤ 200 ∧
    (Signals.truncateField why 300).length ≤ 300 := by
  refine ⟨?_, Signals.truncateField_length_le title 200 (by norm_num),
    Signals.truncateField_length_le why 300 (by norm_num)⟩
  unfold Signals.formatSignalMessage
  simp only [Signals.countNewlines_append]
  have hev2 := Signals.countNewlines_eq_zero (Signals.eventTypeRu_no_newline hev)
  have hurg := Signals.countNewlines_eq_zero (Signals.intToStr_no_newline urgency)
  have htitle := Signals.countNewlines_eq_zero
    (Signals.newline_not_mem_truncateField title 200)
  have hwhy := Signals.countNewlines_eq_zero
    (Signals.newline_not_mem_truncateField why 300)
  have hurl2 := Signals.countNewlines_eq_zero hurl
  have hsphere : Signals.countNewlines (Signals.mapObjectToSphere objectType) = 0 := by
    unfold Signals.mapObjectToSphere
    split <;> decide
  cases region with
  | none =>
    dsimp only
    rw [hev2, hurg, htitle, hwhy, hurl2, hsphere]
    decide
  | some r =>
    dsimp only
    by_cases hre : r.isEmpty
    · rw [if_pos hre, hev2, hurg, htitle, hwhy, hurl2, hsphere]
      decide
    · rw [if_neg hre, hev2, hurg, htitle, hwhy, hurl2, hsphere,
        Signals.countNewlines_eq_zero (hreg r rfl)]
      decide

/-- Witness for C8 (amended) at a concrete signal: known event type, a
present region and a clean URL give exactly five newline characters. -/
theorem format_signal_message_bounds_witness :
    Signals.countNewlines
      (Signals.formatSignalMessage "accident".data 4 (some "Area 1".data)
        "heat".data "t t".data "w".data "http://x".data) = 5 := by
  exact (format_signal_message_bounds "accident".data 4 (some "Area 1".data)
    "heat".data "t t".data "w".data "http://x".data (by decide)
    (by intro r hr; cases hr; decide) (by decide)).1

namespace Broadcast

/-- Outcome of one `bot.send_message` attempt, the internal classification
of the aiogram exceptions handled by `Broadcaster.broadcast`. -/
inductive SendOutcome
  | ok
  | forbidden
  | badRequest (message : List Char)
  | retryAfter (seconds : Nat)
  | otherError
  deriving Repr, DecidableEq

/-- An active subscriber together with the outcomes its chat produces on
successive delivery attempts. -/
structure Subscriber where
  chatId : Int
  behavior : List SendOutcome
  deriving Repr, DecidableEq

/-- Outcome of the given (0-based) attempt for this subscriber. -/
def outcomeAt (s : Subscriber) (attempt : Nat) : SendOutcome :=
  s.behavior.getD attempt SendOutcome.ok

/-- Totals accumulated by `Broadcaster.broadcast`: sent / failed counters,
the chat ids collected for deactivation, and a ledger of how many send
attempts each subscriber received (in order). -/
structure BroadcastTotals where
  sent : Nat
  failed : Nat
  deactivated : List Int
  attempts : List (Int × Nat)
  deriving Repr, DecidableEq

/-- `"chat not found" in str(e).lower()`. -/
def isChatNotFound (msg : List Char) : Bool :=
  pyContains "chat not found".data (pyLower msg)

/-- One loop iteration of `Broadcaster.broadcast`: success counts as sent;
`TelegramForbiddenError` deactivates and counts as failed;
`TelegramBadRequest` counts as failed and deactivates only on
"chat not found"; `TelegramRetryAfter` sleeps and retries once, the retry
counting as sent on success and failed on any exception (with no
deactivation); any other exception counts as failed. -/
def broadcastStep (acc : BroadcastTotals) (sub : Subscriber) : BroadcastTotals :=
  match outcomeAt sub 0 with
  | .ok =>
    { acc with sent := acc.sent + 1, attempts := acc.attempts ++ [(sub.chatId, 1)] }
  | .forbidden =>
    { acc with
        failed := acc.failed + 1
        deactivated := acc.deactivated ++ [sub.chatId]
        attempts := acc.attempts ++ [(sub.chatId, 1)] }
  | .badRequest msg =>
    { acc with
        failed := acc.failed + 1
        deactivated :=
          if isChatNotFound msg then acc.deactivated ++ [sub.chatId] else acc.deactivated
        attempts := acc.attempts ++ [(sub.chatId, 1)] }
  | .retryAfter _ =>
    match outcomeAt sub 1 with
    | .ok =>
      { acc with sent := acc.sent + 1, attempts := acc.attempts ++ [(sub.chatId, 2)] }
    | _ =>
      { acc with failed := acc.failed + 1, attempts := acc.attempts ++ [(sub.chatId, 2)] }
  | .otherError =>
    { acc with failed := acc.failed + 1, attempts := acc.attempts ++ [(sub.chatId, 1)] }

/-- `Broadcaster.broadcast` over the active subscriber list (the empty
list short-circuits to `(0, 0)`, which coincides with the fold). -/
def broadcast (subs : List Subscriber) : BroadcastTotals :=
  subs.foldl broadcastStep { sent := 0, failed := 0, deactivated := [], attempts := [] }

/-- Number of attempts the loop gives a subscriber: one, plus one more
when the first attempt raised a flood wait. -/
def attemptsOf (s : Subscriber) : Nat :=
  match outcomeAt s 0 with
  | .retryAfter _ => 2
  | _ => 1

/-- The deactivation condition actually applied by the code: the first
attempt raised `forbidden`, or a bad request whose text contains
"chat not found". -/
def deactCondition (s : Subscriber) : Bool :=
  match outcomeAt s 0 with
  | .forbidden => true
  | .badRequest m => isChatNotFound m
  | _ => false

/-- The outcomes a subscriber's attempts actually produce during the
broadcast (the first outcome, plus the retry outcome after a flood
wait). -/
def outcomesUsed (s : Subscriber) : List SendOutcome :=
  match outcomeAt s 0 with
  | .retryAfter n => [SendOutcome.retryAfter n, outcomeAt s 1]
  | o => [o]

/-- The deactivation set as the claim words it: subscribers whose send (any
attempt) raised a forbidden error or a "chat not found" bad request. -/
def claimDeactivated (subs : List Subscriber) : List Int :=
  (subs.filter (fun s => (outcomesUsed s).any (fun o =>
    match o with
    | .forbidden => true
    | .badRequest m => isChatNotFound m
    | _ => false))).map Subscriber.chatId

theorem broadcastStep_counts (acc : BroadcastTotals) (sub : Subscriber) :
    (broadcastStep acc sub).sent + (broadcastStep acc sub).failed
      = acc.sent + acc.failed + 1 ∧
    (broadcastStep acc sub).attempts = acc.attempts ++ [(sub.chatId, attemptsOf sub)] ∧
    (broadcastStep acc sub).deactivated
      = acc.deactivated ++ (if deactCondition sub then [sub.chatId] else []) := by
  unfold broadcastStep attemptsOf deactCondition
  cases h0 : outcomeAt sub 0 with
  | ok => exact ⟨by dsimp only; omega, by dsimp only, by dsimp only; simp⟩
  | forbidden => exact ⟨by dsimp only; omega, by dsimp only, by dsimp only; simp⟩
  | badRequest msg =>
    refine ⟨by dsimp only; omega, by dsimp only, ?_⟩
    dsimp only
    by_cases hm : isChatNotFound msg
    · rw [if_pos hm, if_pos hm]
    · rw [if_neg hm, if_neg hm]
      simp
  | retryAfter n =>
    cases h1 : outcomeAt sub 1 with
    | ok => exact ⟨by dsimp only; omega, by dsimp only, by dsimp only; simp⟩
    | forbidden => exact ⟨by dsimp only; omega, by dsimp only, by dsimp only; simp⟩
    | badRequest m => exact ⟨by dsimp only; omega, by dsimp only, by dsimp only; simp⟩
    | retryAfter m => exact ⟨by dsimp only; omega, by dsimp only, by dsimp only; simp⟩
    | otherError => exact ⟨by dsimp only; omega, by dsimp only, by dsimp only; simp⟩
  | otherError => exact ⟨by dsimp only; omega, by dsimp only, by dsimp only; simp⟩

theorem broadcast_foldl (subs : List Subscriber) : ∀ acc : BroadcastTotals,
    (subs.foldl broadcastStep acc).sent + (subs.foldl broadcastStep acc).failed
      = acc.sent + acc.failed + subs.length ∧
    (subs.foldl broadcastStep acc).attempts
      = acc.attempts ++ subs.map (fun s => (s.chatId, attemptsOf s)) ∧
    (subs.foldl broadcastStep acc).deactivated
      = acc.deactivated ++ (subs.filter deactCondition).map Subscriber.chatId := by
  induction subs with
  | nil => intro acc; simp
  | cons a rest ih =>
    intro acc
    rw [List.foldl_cons]
    obtain ⟨ih1, ih2, ih3⟩ := ih (broadcastStep acc a)
    obtain ⟨s1, s2, s3⟩ := broadcastStep_counts acc a
    refine ⟨by rw [ih1, s1]; simp; omega, ?_, ?_⟩
    · rw [ih2, s2]
      simp
    · rw [ih3, s3]
      by_cases hd : deactCondition a
      · rw [if_pos hd]
        simp [List.filter_cons, hd]
      · rw [if_neg hd]
        simp [List.filter_cons, hd]

end Broadcast

/-- C9 counterexample: a subscriber whose first attempt raises a flood
wait and whose retry raises a forbidden error is not deactivated by the
code (the retry's exceptions are all swallowed as generic failures), while
the claim's reading of "whose send raised a forbidden error" includes it. -/
theorem broadcast_retry_forbidden_counterexample :
    (Broadcast.broadcast [⟨7, [.retryAfter 1, .forbidden]⟩]).deactivated = [] ∧
    Broadcast.claimDeactivated [⟨7, [.retryAfter 1, .forbidden]⟩] = [7] := by
  constructor
  · rfl
  · rfl

/-- C9 (amended): for every list of n active subscribers, the broadcast
loop attempts delivery to each subscriber exactly once — plus exactly one
extra attempt for a recipient whose first attempt raised a flood wait —
no per-recipient failure aborts the loop (the attempt ledger covers every
subscriber in order), the returned counters satisfy sent + failed = n, and
exactly those subscribers whose first attempt raised a forbidden error or
a "chat not found" bad request are marked inactive afterwards (a forbidden
error on the flood-wait retry is swallowed without deactivation). -/
theorem broadcast_invariants (subs : List Broadcast.Subscriber) :
    (Broadcast.broadcast subs).sent + (Broadcast.broadcast subs).failed
      = subs.length ∧
    (Broadcast.broadcast subs).attempts
      = subs.map (fun s => (s.chatId, Broadcast.attemptsOf s)) ∧
    (∀ s ∈ subs, Broadcast.attemptsOf s ≤ 2 ∧ 1 ≤ Broadcast.attemptsOf s) ∧
    (Broadcast.broadcast subs).deactivated
      = (subs.filter Broadcast.deactCondition).map Broadcast.Subscriber.chatId := by
  obtain ⟨h1, h2, h3⟩ := Broadcast.broadcast_foldl subs
    { sent := 0, failed := 0, deactivated := [], attempts := [] }
  refine ⟨by simpa using h1, by simpa using h2, ?_, by simpa using h3⟩
  intro s hs
  unfold Broadcast.attemptsOf
  cases Broadcast.outcomeAt s 0 with
  | ok => exact ⟨by decide, by decide⟩
  | forbidden => exact ⟨by decide, by decide⟩
  | badRequest m => exact ⟨by show (1 : Nat) ≤ 2; decide, by show (1 : Nat) ≤ 1; decide⟩
  | retryAfter n => exact ⟨by show (2 : Nat) ≤ 2; decide, by show (1 : Nat) ≤ 2; decide⟩
  | otherError => exact ⟨by decide, by decide⟩

namespace Dedup

/-- Word characters of the regex `\w` on the ranges this program
processes: ASCII alphanumerics, underscore, and the Cyrillic block. -/
def isWordChar (c : Char) : Bool :=
  c.isAlphanum || c = '_' || (Char.ofNat 0x400 ≤ c && c ≤ Char.ofNat 0x4FF)

/-- `re.sub(r'[^\w\s]', '', text.lower())`: lowercase, then delete every
character that is neither a word character nor whitespace. -/
def cleanForSimhash (text : List Char) : List Char :=
  (pyLower text).filter (fun c => isWordChar c || isPySpace c)

/-- Helper for Python `str.split()` (current word accumulated reversed). -/
def splitWsGo : List Char → List Char → List (List Char)
  | [], cur => if cur.isEmpty then [] else [cur.reverse]
  | c :: rest, cur =>
    if isPySpace c then
      if cur.isEmpty then splitWsGo rest [] else cur.reverse :: splitWsGo rest []
    else splitWsGo rest (c :: cur)

/-- Python `str.split()`: whitespace-separated words, no empties. -/
def splitWs (l : List Char) : List (List Char) := splitWsGo l []

/-- `[w for w in clean.split() if len(w) > 2]`. -/
def simhashWords (text : List Char) : List (List Char) :=
  (splitWs (cleanForSimhash text)).filter (fun w => 2 < w.length)

/-- Hexadecimal digit character (lowercase, as Python `hex`). -/
def hexChar (d : Nat) : Char :=
  if d < 10 then Char.ofNat ('0'.toNat + d) else Char.ofNat ('a'.toNat + d - 10)

/-- Hex digits of a natural number, most significant first
(fuel-structured). -/
def natToHexGo : Nat → Nat → List Char → List Char
  | _, 0, acc => acc
  | 0, _, acc => acc
  | fuel + 1, n + 1, acc => natToHexGo fuel ((n + 1) / 16) (hexChar ((n + 1) % 16) :: acc)

/-- Python `hex(n)[2:]` for a natural number. -/
def natToHex (n : Nat) : List Char := if n = 0 then ['0'] else natToHexGo n n []

/-- `compute_simhash` from `dedup.py`.  Empty text, or a text with no token
longer than two characters, yields the sentinel hash `"0"`; otherwise the
64-bit fingerprint of the token list is rendered in hex.  The fingerprint
function itself (the external `simhash` library, or the builtin-`hash`
fallback) is abstracted as the parameter `hashFn`, masked to 64 bits as
both implementations are. -/
def computeSimhash (hashFn : List (List Char) → Nat) (text : List Char) : List Char :=
  if text.isEmpty then ['0']
  else if (simhashWords text).isEmpty then ['0']
  else natToHex (hashFn (simhashWords text) % 2 ^ 64)

/-- `create_dedup_text`: `f"{title} {text[:max_text_chars]}".strip()`. -/
def createDedupText (title text : List Char) (maxTextChars : Nat) : List Char :=
  pyStrip (title ++ [' '] ++ text.take maxTextChars)

/-- The scan loop of `is_duplicate_by_simhash`: skip empty or sentinel
stored hashes, return the first stored id within the threshold. -/
def isDuplicateScan (newHash : List Char) (threshold : Nat) :
    List (Int × List Char) → Option Int
  | [] => none
  | (newsId, existingHash) :: rest =>
    if existingHash.isEmpty || existingHash = ['0'] then
      isDuplicateScan newHash threshold rest
    else if hammingDistance newHash existingHash ≤ threshold then some newsId
    else isDuplicateScan newHash threshold rest

/-- `is_duplicate_by_simhash`: an empty or sentinel new hash is never a
duplicate; otherwise scan the cached `(news_id, simhash)` pairs. -/
def isDuplicateBySimhash (newHash : List Char)
    (existingHashes : List (Int × List Char)) (threshold : Nat) : Option Int :=
  if newHash.isEmpty || newHash = ['0'] then none
  else isDuplicateScan newHash threshold existingHashes

end Dedup

/-- C10: an item whose combined title plus first-400-characters-of-text
has no token longer than two characters gets the sentinel simhash `"0"`;
a `"0"` new hash is never reported as a duplicate of anything; and any
reported duplicate comes from a stored entry that is neither empty nor the
sentinel `"0"` and lies within the Hamming threshold — so content-free
items always bypass near-duplicate detection, in both directions. -/
theorem simhash_sentinel_bypass (title text : List Char)
    (hashFn : List (List Char) → Nat)
    (hshort : ∀ w ∈ Dedup.splitWs (Dedup.cleanForSimhash
        (Dedup.createDedupText title text 400)), w.length ≤ 2) :
    Dedup.computeSimhash hashFn (Dedup.createDedupText title text 400) = ['0'] ∧
    (∀ existing threshold,
      Dedup.isDuplicateBySimhash ['0'] existing threshold = none) ∧
    (∀ (h : List Char) existing threshold i,
      Dedup.isDuplicateBySimhash h existing threshold = some i →
      ∃ hs, (i, hs) ∈ existing ∧ hs ≠ [] ∧ hs ≠ ['0'] ∧
        Dedup.hammingDistance h hs ≤ threshold) := by
  refine ⟨?_, ?_, ?_⟩
  · unfold Dedup.computeSimhash
    by_cases hemp : (Dedup.createDedupText title text 400).isEmpty
    · rw [if_pos hemp]
    · rw [if_neg hemp, if_pos ?_]
      unfold Dedup.simhashWords
      rw [List.isEmpty_iff, List.filter_eq_nil_iff]
      intro w hw
      simp only [decide_eq_true_eq, not_lt]
      exact hshort w hw
  · intro existing threshold
    unfold Dedup.isDuplicateBySimhash
    rw [if_pos (by decide)]
  · intro h existing threshold i hfound
    unfold Dedup.isDuplicateBySimhash at hfound
    split at hfound
    · exact absurd hfound (by simp)
    · induction existing with
      | nil => exact absurd hfound (by simp [Dedup.isDuplicateScan])
      | cons e rest ih =>
        obtain ⟨eid, ehash⟩ := e
        unfold Dedup.isDuplicateScan at hfound
        split at hfound
        · obtain ⟨hs, hmem, hne, hnz, hd⟩ := ih hfound
          exact ⟨hs, List.mem_cons_of_mem _ hmem, hne, hnz, hd⟩
        · rename_i hguard
          split at hfound
          · rename_i hdist
            obtain rfl : eid = i := by
              injection hfound
            refine ⟨ehash, List.mem_cons_self _ _, ?_, ?_, hdist⟩
            · intro hcon
              exact hguard (by simp [hcon])
            · intro hcon
              exact hguard (by simp [hcon])
          · obtain ⟨hs, hmem, hne, hnz, hd⟩ := ih hfound
            exact ⟨hs, List.mem_cons_of_mem _ hmem, hne, hnz, hd⟩

/-- Witness for C10 at concrete inputs: the content-free item "ab cd" maps
to the sentinel hash and the sentinel is not matched against a cached
entry. -/
theorem simhash_sentinel_bypass_witness :
    Dedup.computeSimhash (fun _ => 7)
      (Dedup.createDedupText "ab cd".data "".data 400) = ['0'] ∧
    Dedup.isDuplicateBySimhash ['0'] [(3, "f".data)] 3 = none := by
  have h := simhash_sentinel_bypass "ab cd".data "".data (fun _ => 7) (by decide)
  exact ⟨h.1, h.2.1 [(3, "f".data)] 3⟩

namespace UrlNorm

/-- ASCII letter (`url[0].isascii() and url[0].isalpha()`). -/
def isAsciiAlpha (c : Char) : Bool :=
  ('A' ≤ c && c ≤ 'Z') || ('a' ≤ c && c ≤ 'z')

/-- `scheme_chars`: ASCII letters, digits, and `+`, `-`, `.`. -/
def isSchemeChar (c : Char) : Bool :=
  isAsciiAlpha c || ('0' ≤ c && c ≤ '9') || c = '+' || c = '-' || c = '.'

/-- The netloc delimiters of `_splitnetloc` (`'/?#'`). -/
def isNetlocEnd (c : Char) : Bool := c = '/' || c = '?' || c = '#'

/-- `_UNSAFE_URL_BYTES_TO_REMOVE`: `urlsplit` deletes tab, carriage return
and newline from the URL before parsing. -/
def stripUnsafe (l : List Char) : List Char :=
  l.filter (fun c => !(c = '\t' || c = '\r' || c = '\n'))

/-- The scheme detection of `urlsplit`: the text before the first `:` must
be non-empty, start with an ASCII letter, and consist of scheme characters;
the scheme is lowercased, the remainder follows the colon.  Otherwise the
scheme is empty and the URL is unchanged. -/
def splitScheme (l : List Char) : List Char × List Char :=
  let pre := l.takeWhile (fun c => c ≠ ':')
  if pre.length = l.length then ([], l)
  else if 0 < pre.length ∧ isAsciiAlpha (pre.headD ' ') ∧ pre.tail.all isSchemeChar then
    (pyLower pre, l.drop (pre.length + 1))
  else ([], l)

/-- `url.partition('#')` (the fragment split; everything after the first
`#`, empty when there is none). -/
def splitFragment (l : List Char) : List Char × List Char :=
  (l.takeWhile (fun c => c ≠ '#'), (l.dropWhile (fun c => c ≠ '#')).drop 1)

/-- `url.split('?', 1)` (the query split). -/
def splitQuery (l : List Char) : List Char × List Char :=
  (l.takeWhile (fun c => c ≠ '?'), (l.dropWhile (fun c => c ≠ '?')).drop 1)

/-- Python `s.split(sep)` helper (current piece accumulated reversed). -/
def splitOnCharGo (sep : Char) : List Char → List Char → List (List Char)
  | [], cur => [cur.reverse]
  | c :: rest, cur =>
    if c = sep then cur.reverse :: splitOnCharGo sep rest []
    else splitOnCharGo sep rest (c :: cur)

/-- Python `s.split(sep)` for a one-character separator (keeps empties). -/
def splitOnChar (sep : Char) (l : List Char) : List (List Char) :=
  splitOnCharGo sep l []

/-- Decimal value of a digit string. -/
def decValue (l : List Char) : Nat :=
  l.foldl (fun acc c => 10 * acc + (c.toNat - '0'.toNat)) 0

/-- One octet of a dotted-quad IPv4 address (`_parse_octet`): one to three
ASCII digits, no leading zero, value at most 255. -/
def octetOk (p : List Char) : Bool :=
  (!p.isEmpty) && p.length ≤ 3 && p.all (fun c => '0' ≤ c && c ≤ '9') &&
  (p.length = 1 || p.headD '0' ≠ '0') && decValue p ≤ 255

/-- A valid dotted-quad IPv4 address (`ipaddress.IPv4Address`). -/
def ipv4Ok (s : List Char) : Bool :=
  let octets := splitOnChar '.' s
  octets.length = 4 && octets.all octetOk

/-- One IPv6 hextet (`_parse_hextet`): one to four hex digits. -/
def hextetOk (p : List Char) : Bool :=
  (!p.isEmpty) && p.length ≤ 4 && p.all Dedup.isHexDigitChar

/-- The colon-structure validation of `IPv6Address._ip_int_from_string`,
applied to the `':'`-split parts after the embedded-IPv4 suffix (if any)
has been replaced by two stand-in hextets: at most one empty part strictly
inside; an empty first (last) part only directly before (after) the skip;
without a skip exactly eight valid hextets, with one at most nine parts
and at least one skipped group. -/
def ipv6StructOk (parts : List (List Char)) : Bool :=
  let n := parts.length
  let middle := (parts.drop 1).dropLast
  let emptyMiddle := middle.countP (fun p => p.isEmpty)
  if 1 < emptyMiddle then false
  else if emptyMiddle = 1 then
    let k := 1 + middle.findIdx (fun p => p.isEmpty)
    let b0 := (parts.headD []).isEmpty
    let bl := (parts.getLastD []).isEmpty
    decide (n ≤ 9) &&
    (!b0 || decide (k = 1)) &&
    (!bl || decide (k = n - 2)) &&
    decide ((k - (if b0 then 1 else 0)) + ((n - k - 1) - (if bl then 1 else 0)) ≤ 7) &&
    parts.all (fun p => p.isEmpty || hextetOk p)
  else
    decide (n = 8) && parts.all hextetOk

/-- A valid textual IPv6 address (without scope). -/
def ipv6AddrOk (addr : List Char) : Bool :=
  let parts0 := splitOnChar ':' addr
  if parts0.length < 3 then false
  else
    let lastP := parts0.getLastD []
    if '.' ∈ lastP then
      ipv4Ok lastP && ipv6StructOk (parts0.dropLast ++ [['0'], ['0']])
    else ipv6StructOk parts0

/-- `IPv6Address` with an optional `%scope` (non-empty, no `%`). -/
def isIPv6 (s : List Char) : Bool :=
  let addr := s.takeWhile (fun c => c ≠ '%')
  let rest := s.dropWhile (fun c => c ≠ '%')
  match rest with
  | [] => ipv6AddrOk addr
  | _ :: scope => (!scope.isEmpty) && scope.all (fun c => c ≠ '%') && ipv6AddrOk addr

/-- The IPvFuture shape accepted by `_check_bracketed_host`
(`\Av[hex]+\..+\Z`, case-insensitive, `.` not matching a newline). -/
def ipvFutureOk (hostname : List Char) : Bool :=
  match hostname with
  | 'v' :: rest =>
    let hexs := rest.takeWhile Dedup.isHexDigitChar
    let after := rest.dropWhile Dedup.isHexDigitChar
    (!hexs.isEmpty) &&
    (match after with
     | '.' :: tail => (!tail.isEmpty) && tail.all (fun c => c ≠ '\n')
     | _ => false)
  | _ => false

/-- The text between the first `[` and the following `]` of the netloc
(`netloc.partition('[')[2].partition(']')[0]`). -/
def hostnameOf (netloc : List Char) : List Char :=
  ((netloc.dropWhile (fun c => c ≠ '[')).drop 1).takeWhile (fun c => c ≠ ']')

/-- `_check_bracketed_host`: a lowercase-`v` IPvFuture literal, or a valid
IPv6 address (a bracketed IPv4 address or anything else is rejected). -/
def checkBracketedHost (hostname : List Char) : Bool :=
  match hostname with
  | 'v' :: _ => ipvFutureOk hostname
  | _ => isIPv6 hostname

/-- The component record produced by `urlsplit`. -/
structure SplitResult where
  scheme : List Char
  netloc : List Char
  path : List Char
  query : List Char
  fragment : List Char
  deriving Repr, DecidableEq

/-- `urlsplit` (with `allow_fragments=True`): strip the unsafe bytes, split
the scheme, take the netloc after a leading `//` up to the first `/?#`,
validate its brackets and any bracketed host, then split the fragment and
the query.  A `ValueError` becomes `Except.error`.  (The `_checknetloc`
NFKC check, which can only fire on netlocs that are unstable under NFKC
normalization, is not modelled: the model treats such exotic netlocs as
accepted.) -/
def urlsplitE (url : List Char) : Except (List Char) SplitResult :=
  let u := stripUnsafe url
  let sr := splitScheme u
  let nr : List Char × List Char :=
    match sr.2 with
    | '/' :: '/' :: r =>
      (r.takeWhile (fun c => !isNetlocEnd c), r.dropWhile (fun c => !isNetlocEnd c))
    | _ => ([], sr.2)
  let netloc := nr.1
  if ('[' ∈ netloc ∧ ']' ∉ netloc) ∨ (']' ∈ netloc ∧ '[' ∉ netloc) then
    Except.error "Invalid IPv6 URL".data
  else if '[' ∈ netloc ∧ ¬ checkBracketedHost (hostnameOf netloc) = true then
    Except.error "invalid bracketed host".data
  else
    let fr := splitFragment nr.2
    let qr := splitQuery fr.1
    Except.ok ⟨sr.1, netloc, qr.1, qr.2, fr.2⟩

/-- First index of `c` in `l` (`str.find`), if any. -/
def idxOfChar (c : Char) (l : List Char) : Option Nat :=
  let k := (l.takeWhile (fun x => x ≠ c)).length
  if k = l.length then none else some k

/-- The part of `l` after its last `/` (empty if `l` ends in `/`). -/
def afterLastSlash (l : List Char) : List Char :=
  (l.reverse.takeWhile (fun c => c ≠ '/')).reverse

/-- `_splitparams`: split the path parameters at the first `;` that occurs
at or after the last `/` (or anywhere when the path has no `/`). -/
def splitParams (url : List Char) : List Char × List Char :=
  if '/' ∈ url then
    match idxOfChar ';' (afterLastSlash url) with
    | none => (url, [])
    | some j =>
      (url.take (url.length - (afterLastSlash url).length + j),
       url.drop (url.length - (afterLastSlash url).length + j + 1))
  else
    match idxOfChar ';' url with
    | none => (url, [])
    | some i => (url.take i, url.drop (i + 1))

/-- The component record produced by `urlparse`. -/
structure ParseResult where
  scheme : List Char
  netloc : List Char
  path : List Char
  params : List Char
  query : List Char
  fragment : List Char
  deriving Repr, DecidableEq

/-- `urlparse`: `urlsplit` plus the path-parameter split. -/
def urlparseE (url : List Char) : Except (List Char) ParseResult :=
  (urlsplitE url).map fun r =>
    ⟨r.scheme, r.netloc, (splitParams r.path).1, (splitParams r.path).2,
      r.query, r.fragment⟩

/-- UTF-8 encoding of one code point (bytes as `Nat < 256`). -/
def utf8Encode (c : Char) : List Nat :=
  let n := c.toNat
  if n < 0x80 then [n]
  else if n < 0x800 then [0xC0 + n / 0x40, 0x80 + n % 0x40]
  else if n < 0x10000 then
    [0xE0 + n / 0x1000, 0x80 + n / 0x40 % 0x40, 0x80 + n % 0x40]
  else
    [0xF0 + n / 0x40000, 0x80 + n / 0x1000 % 0x40, 0x80 + n / 0x40 % 0x40,
     0x80 + n % 0x40]

/-- UTF-8 encoding of a string. -/
def utf8EncodeStr (l : List Char) : List Nat := (l.map utf8Encode).flatten

/-- A UTF-8 continuation byte. -/
def isCont (b : Nat) : Bool := 0x80 ≤ b && b ≤ 0xBF

/-- U+FFFD, the replacement character of `errors='replace'`. -/
def replChar : Char := Char.ofNat 0xFFFD

/-- Lower bound of the first continuation byte of a three-byte lead. -/
def cont1LoFor3 (b : Nat) : Nat := if b = 0xE0 then 0xA0 else 0x80

/-- Upper bound of the first continuation byte of a three-byte lead. -/
def cont1HiFor3 (b : Nat) : Nat := if b = 0xED then 0x9F else 0xBF

/-- Lower bound of the first continuation byte of a four-byte lead. -/
def cont1LoFor4 (b : Nat) : Nat := if b = 0xF0 then 0x90 else 0x80

/-- Upper bound of the first continuation byte of a four-byte lead. -/
def cont1HiFor4 (b : Nat) : Nat := if b = 0xF4 then 0x8F else 0xBF

/-- UTF-8 decoding with `errors='replace'`, fuel-structured (the fuel is
the byte count): each maximal subpart of an ill-formed sequence yields one
U+FFFD (the W3C/Unicode practice CPython's decoder follows). -/
def utf8DecodeGo : Nat → List Nat → List Char
  | _, [] => []
  | 0, _ => []
  | fuel + 1, b :: rest =>
    if b < 0x80 then Char.ofNat b :: utf8DecodeGo fuel rest
    else if 0xC2 ≤ b && b ≤ 0xDF then
      match rest with
      | [] => [replChar]
      | b1 :: rest1 =>
        if isCont b1 then
          Char.ofNat ((b - 0xC0) * 0x40 + (b1 - 0x80)) :: utf8DecodeGo fuel rest1
        else replChar :: utf8DecodeGo fuel rest
    else if 0xE0 ≤ b && b ≤ 0xEF then
      match rest with
      | [] => [replChar]
      | b1 :: rest1 =>
        if cont1LoFor3 b ≤ b1 && b1 ≤ cont1HiFor3 b then
          match rest1 with
          | [] => [replChar]
          | b2 :: rest2 =>
            if isCont b2 then
              Char.ofNat ((b - 0xE0) * 0x1000 + (b1 - 0x80) * 0x40 + (b2 - 0x80))
                :: utf8DecodeGo fuel rest2
            else replChar :: utf8DecodeGo fuel rest1
        else replChar :: utf8DecodeGo fuel rest
    else if 0xF0 ≤ b && b ≤ 0xF4 then
      match rest with
      | [] => [replChar]
      | b1 :: rest1 =>
        if cont1LoFor4 b ≤ b1 && b1 ≤ cont1HiFor4 b then
          match rest1 with
          | [] => [replChar]
          | b2 :: rest2 =>
            if isCont b2 then
              match rest2 with
              | [] => [replChar]
              | b3 :: rest3 =>
                if isCont b3 then
                  Char.ofNat ((b - 0xF0) * 0x40000 + (b1 - 0x80) * 0x1000 +
                    (b2 - 0x80) * 0x40 + (b3 - 0x80)) :: utf8DecodeGo fuel rest3
                else replChar :: utf8DecodeGo fuel rest2
            else replChar :: utf8DecodeGo fuel rest1
        else replChar :: utf8DecodeGo fuel rest
    else replChar :: utf8DecodeGo fuel rest

/-- UTF-8 decoding with `errors='replace'`. -/
def utf8Decode (l : List Nat) : List Char := utf8DecodeGo l.length l

/-- The always-safe bytes of `urllib.parse.quote` with `safe=''`: ASCII
letters, digits, `_`, `.`, `-`, `~`. -/
def safeByte (b : Nat) : Bool :=
  (0x41 ≤ b && b ≤ 0x5A) || (0x61 ≤ b && b ≤ 0x7A) || (0x30 ≤ b && b ≤ 0x39) ||
  b = 0x5F || b = 0x2E || b = 0x2D || b = 0x7E

/-- Uppercase hex digit character (as `quote` emits). -/
def hexUpperChar (d : Nat) : Char :=
  if d < 10 then Char.ofNat (0x30 + d) else Char.ofNat (0x41 + d - 10)

/-- `quote_plus` byte-wise: the space byte becomes `+`, safe bytes stay,
everything else becomes `%XX` (uppercase). -/
def quotePlusByte (b : Nat) : List Char :=
  if b = 0x20 then ['+']
  else if safeByte b then [Char.ofNat b]
  else ['%', hexUpperChar (b / 16), hexUpperChar (b % 16)]

/-- `urllib.parse.quote_plus` with `safe=''` over the UTF-8 bytes. -/
def quotePlus (s : List Char) : List Char :=
  ((utf8EncodeStr s).map quotePlusByte).flatten

/-- The `'+'` → `' '` replacement of `parse_qsl`. -/
def plusToSpace (l : List Char) : List Char :=
  l.map (fun c => if c = '+' then ' ' else c)

/-- `unquote_to_bytes`, fuel-structured: `%XX` with two hex digits becomes
the byte, any other character contributes its UTF-8 bytes (a lone or
ill-formed `%` stays literal). -/
def unquotBytesGo : Nat → List Char → List Nat
  | _, [] => []
  | 0, _ => []
  | fuel + 1, '%' :: rest =>
    match rest with
    | c1 :: c2 :: rest2 =>
      if Dedup.isHexDigitChar c1 && Dedup.isHexDigitChar c2 then
        (Dedup.hexDigitVal c1 * 16 + Dedup.hexDigitVal c2) :: unquotBytesGo fuel rest2
      else utf8Encode '%' ++ unquotBytesGo fuel rest
    | _ => utf8Encode '%' ++ unquotBytesGo fuel rest
  | fuel + 1, c :: rest => utf8Encode c ++ unquotBytesGo fuel rest

/-- `unquote_to_bytes` over a whole string. -/
def unquotBytes (l : List Char) : List Nat := unquotBytesGo l.length l

/-- `urllib.parse.unquote` with `errors='replace'`. -/
def pyUnquote (s : List Char) : List Char := utf8Decode (unquotBytes s)

/-- One field of `parse_qsl` with `keep_blank_values=False`: empty fields
and fields without `=` or with an empty raw value are dropped; name and
value get `+` → space then percent-decoding. -/
def fieldToPair (field : List Char) : Option (List Char × List Char) :=
  if field.isEmpty then none
  else
    let name := field.takeWhile (fun c => c ≠ '=')
    if name.length = field.length then none
    else
      let value := field.drop (name.length + 1)
      if value.isEmpty then none
      else some (pyUnquote (plusToSpace name), pyUnquote (plusToSpace value))

/-- `parse_qsl(qs, keep_blank_values=False)` (separator `&`). -/
def parseQsl (qs : List Char) : List (List Char × List Char) :=
  if qs.isEmpty then [] else (splitOnChar '&' qs).filterMap fieldToPair

/-- Appending one `(name, value)` pair into the insertion-ordered grouped
dictionary of `parse_qs`. -/
def insertPair : List (List Char × List (List Char)) → List Char × List Char →
    List (List Char × List (List Char))
  | [], kv => [(kv.1, [kv.2])]
  | (k, vs) :: rest, kv =>
    if k = kv.1 then (k, vs ++ [kv.2]) :: rest else (k, vs) :: insertPair rest kv

/-- `parse_qs(qs, keep_blank_values=False)` as an insertion-ordered
association list. -/
def parseQs (qs : List Char) : List (List Char × List (List Char)) :=
  (parseQsl qs).foldl insertPair []

/-- `urlencode(d, doseq=True)` with `quote_via=quote_plus`. -/
def urlencodePairs (d : List (List Char × List (List Char))) : List Char :=
  List.intercalate ['&']
    ((d.map (fun kv => kv.2.map (fun v => quotePlus kv.1 ++ '=' :: quotePlus v))).flatten)

/-- `uses_netloc`: the schemes for which `urlunsplit` restores a `//`
even with an empty netloc (the empty entry is unreachable behind the
truthiness test on the scheme). -/
def usesNetloc : List (List Char) :=
  ["".data, "ftp".data, "http".data, "gopher".data, "nntp".data, "telnet".data,
   "imap".data, "wais".data, "file".data, "mms".data, "https".data, "shttp".data,
   "snews".data, "prospero".data, "rtsp".data, "rtsps".data, "rtspu".data,
   "rsync".data, "svn".data, "svn+ssh".data, "sftp".data, "nfs".data, "git".data,
   "git+ssh".data, "ws".data, "wss".data]

/-- `urlunsplit` with an empty fragment: restore the `//` when the netloc
is non-empty, or when the scheme is a `uses_netloc` scheme and the path
does not already start with `//`; insert a `/` before a relative path;
then the scheme and the query. -/
def urlunsplitStr (scheme netloc url query : List Char) : List Char :=
  let url1 :=
    if !netloc.isEmpty ||
        (!scheme.isEmpty && usesNetloc.contains scheme &&
          !(url.take 2 = ['/', '/'] : Bool)) then
      '/' :: '/' :: (netloc ++
        (if !url.isEmpty && url.headD ' ' ≠ '/' then '/' :: url else url))
    else url
  let url2 := if scheme.isEmpty then url1 else scheme ++ ':' :: url1
  if query.isEmpty then url2 else url2 ++ '?' :: query

/-- `urlunparse` with an empty fragment: re-attach the path parameters
with `;`, then `urlunsplit`. -/
def urlunparseStr (scheme netloc url params query : List Char) : List Char :=
  urlunsplitStr scheme netloc (if params.isEmpty then url else url ++ ';' :: params)
    query

/-- `DEFAULT_PARAMS_TO_REMOVE` from `urlnorm.py`. -/
def trackingParams : List (List Char) :=
  ["utm_source".data, "utm_medium".data, "utm_campaign".data, "utm_term".data,
   "utm_content".data, "yclid".data, "gclid".data, "fbclid".data, "ref".data,
   "from".data, "source".data, "rss".data, "tg".data, "share".data,
   "partner".data, "erid".data, "ysclid".data, "rs".data, "_openstat".data]

/-- `k.lower() in params_lower` for the default tracking set. -/
def isTracking (k : List Char) : Bool :=
  (trackingParams.map pyLower).contains (pyLower k)

/-- `path.rstrip("/")`. -/
def rstripSlash (l : List Char) : List Char :=
  (l.reverse.dropWhile (fun c => c = '/')).reverse

/-- `normalize_url` from `urlnorm.py` (with the default tracking set):
parse, drop tracking query parameters (case-insensitively), re-encode the
query, lowercase the netloc, strip a trailing slash from a non-root path,
drop the fragment, and reassemble; any parse error returns the input
unchanged. -/
def normalizeUrl (url : List Char) : List Char :=
  if url.isEmpty then []
  else
    match urlparseE url with
    | Except.error _ => url
    | Except.ok p =>
      let filtered := (parseQs p.query).filter (fun kv => !isTracking kv.1)
      let newQuery := if filtered.isEmpty then [] else urlencodePairs filtered
      urlunparseStr p.scheme (pyLower p.netloc)
        (if p.path = ['/'] then p.path else rstripSlash p.path) p.params newQuery

end UrlNorm

namespace UrlNorm

theorem charToNat_ofNat {n : Nat} (h : n < 0xD800) : (Char.ofNat n).toNat = n := by
  rw [Char.ofNat, dif_pos (Or.inl h)]
  rfl

theorem charToNat_inj {a b : Char} (h : a.toNat = b.toNat) : a = b := by
  have h2 := congrArg Char.ofNat h
  rwa [Char.ofNat_toNat, Char.ofNat_toNat] at h2

theorem charEq_iff {a b : Char} : a = b ↔ a.toNat = b.toNat :=
  ⟨fun h => h ▸ rfl, charToNat_inj⟩

theorem charLe_iff {a b : Char} : a ≤ b ↔ a.toNat ≤ b.toNat := Iff.rfl

theorem pyToLower_toNat (c : Char) :
    (pyToLower c).toNat =
      if 0x41 ≤ c.toNat ∧ c.toNat ≤ 0x5A then c.toNat + 32
      else if 0x410 ≤ c.toNat ∧ c.toNat ≤ 0x42F then c.toNat + 32
      else if c.toNat = 0x401 then 0x451
      else c.toNat := by
  unfold pyToLower
  by_cases h1 : 0x41 ≤ c.toNat ∧ c.toNat ≤ 0x5A
  · rw [if_pos h1, if_pos ⟨h1.1, h1.2⟩]
    exact charToNat_ofNat (by omega)
  · rw [if_neg h1, if_neg (fun h => h1 ⟨h.1, h.2⟩)]
    by_cases h2 : 0x410 ≤ c.toNat ∧ c.toNat ≤ 0x42F
    · rw [if_pos h2,
        if_pos (⟨by rw [charLe_iff, charToNat_ofNat (by norm_num)]; exact h2.1,
          by rw [charLe_iff, charToNat_ofNat (by norm_num)]; exact h2.2⟩ :
          Char.ofNat 0x410 ≤ c ∧ c ≤ Char.ofNat 0x42F)]
      exact charToNat_ofNat (by omega)
    · rw [if_neg h2, if_neg (fun h => h2
        ⟨by have := charLe_iff.mp h.1; rwa [charToNat_ofNat (by norm_num)] at this,
         by have := charLe_iff.mp h.2; rwa [charToNat_ofNat (by norm_num)] at this⟩)]
      by_cases h3 : c.toNat = 0x401
      · rw [if_pos h3, if_pos (charToNat_inj (by rw [charToNat_ofNat (by norm_num)]; exact h3))]
        exact charToNat_ofNat (by norm_num)
      · rw [if_neg h3, if_neg (fun h => h3
          (by rw [charEq_iff, charToNat_ofNat (by norm_num)] at h; exact h))]

theorem pyToLower_idem (c : Char) : pyToLower (pyToLower c) = pyToLower c := by
  apply charToNat_inj
  have hOuter := pyToLower_toNat (pyToLower c)
  have hInner := pyToLower_toNat c
  rw [hOuter, hInner]
  split_ifs <;> omega

theorem pyLower_idem (l : List Char) : pyLower (pyLower l) = pyLower l := by
  unfold pyLower
  rw [List.map_map]
  apply List.map_congr_left
  intro c _
  exact pyToLower_idem c

/-- `pyToLower` maps `X` to itself and nothing else to `X`, for any `X`
outside the ranges that lowercasing produces or consumes. -/
theorem pyToLower_eq_special {X : Char}
    (hX : ¬(0x41 ≤ X.toNat ∧ X.toNat ≤ 0x5A) ∧ ¬(0x61 ≤ X.toNat ∧ X.toNat ≤ 0x7A) ∧
      ¬(0x401 ≤ X.toNat ∧ X.toNat ≤ 0x42F) ∧ ¬(0x430 ≤ X.toNat ∧ X.toNat ≤ 0x44F) ∧
      X.toNat ≠ 0x451) (c : Char) :
    pyToLower c = X ↔ c = X := by
  rw [charEq_iff, charEq_iff, pyToLower_toNat]
  obtain ⟨x1, x2, x3, x4, x5⟩ := hX
  split_ifs with h1 h2 h3 <;> omega

theorem takeWhile_all {p : Char → Bool} {l : List Char} (h : ∀ c ∈ l, p c = true) :
    l.takeWhile p = l :=
  List.takeWhile_eq_self_iff.mpr h

theorem dropWhile_all {p : Char → Bool} {l : List Char} (h : ∀ c ∈ l, p c = true) :
    l.dropWhile p = [] :=
  List.dropWhile_eq_nil_iff.mpr h

theorem takeWhile_break {p : Char → Bool} {A : List Char} {a : Char} {B : List Char}
    (hA : ∀ c ∈ A, p c = true) (ha : p a = false) :
    (A ++ a :: B).takeWhile p = A := by
  induction A with
  | nil => simp [List.takeWhile_cons, ha]
  | cons x xs ih =>
    have hx : p x = true := hA x (by simp)
    simp only [List.cons_append, List.takeWhile_cons, hx, if_true]
    rw [ih (fun c hc => hA c (by simp [hc]))]

theorem dropWhile_break {p : Char → Bool} {A : List Char} {a : Char} {B : List Char}
    (hA : ∀ c ∈ A, p c = true) (ha : p a = false) :
    (A ++ a :: B).dropWhile p = a :: B := by
  induction A with
  | nil => simp [List.dropWhile_cons, ha]
  | cons x xs ih =>
    have hx : p x = true := hA x (by simp)
    simp only [List.cons_append, List.dropWhile_cons, hx, if_true]
    exact ih (fun c hc => hA c (by simp [hc]))

theorem exists_first_failure {p : Char → Bool} {A : List Char}
    (h : ¬ ∀ c ∈ A, p c = true) :
    ∃ A₁ a A₂, A = A₁ ++ a :: A₂ ∧ (∀ c ∈ A₁, p c = true) ∧ p a = false := by
  induction A with
  | nil => exact absurd (by simp) h
  | cons x xs ih =>
    by_cases hx : p x = true
    · have h' : ¬ ∀ c ∈ xs, p c = true := fun hall => h (by
        intro c hc
        rcases List.mem_cons.mp hc with rfl | hc'
        · exact hx
        · exact hall c hc')
      obtain ⟨A₁, a, A₂, heq, h1, h2⟩ := ih h'
      exact ⟨x :: A₁, a, A₂, by rw [heq]; rfl,
        fun c hc => by rcases List.mem_cons.mp hc with rfl | hc' <;> [exact hx; exact h1 c hc'], h2⟩
    · exact ⟨[], x, xs, rfl, by simp, Bool.not_eq_true _ ▸ (by simpa using hx)⟩

theorem splitFragment_no_hash {l : List Char} (h : '#' ∉ l) : splitFragment l = (l, []) := by
  unfold splitFragment
  rw [takeWhile_all (p := fun c => c ≠ '#'), dropWhile_all (p := fun c => c ≠ '#')] <;>
    first
    | rfl
    | (intro c hc; simp only [ne_eq, decide_eq_true_eq]; exact fun e => h (e ▸ hc))

theorem splitQuery_no_q {l : List Char} (h : '?' ∉ l) : splitQuery l = (l, []) := by
  unfold splitQuery
  rw [takeWhile_all (p := fun c => c ≠ '?'), dropWhile_all (p := fun c => c ≠ '?')] <;>
    first
    | rfl
    | (intro c hc; simp only [ne_eq, decide_eq_true_eq]; exact fun e => h (e ▸ hc))

theorem splitFragment_split {A B : List Char} (h : '#' ∉ A) :
    splitFragment (A ++ '#' :: B) = (A, B) := by
  unfold splitFragment
  rw [takeWhile_break (p := fun c => c ≠ '#')
        (fun c hc => by simp only [ne_eq, decide_eq_true_eq]; exact fun e => h (e ▸ hc))
        (by simp),
      dropWhile_break (p := fun c => c ≠ '#')
        (fun c hc => by simp only [ne_eq, decide_eq_true_eq]; exact fun e => h (e ▸ hc))
        (by simp)]
  rfl

theorem splitQuery_split {A B : List Char} (h : '?' ∉ A) :
    splitQuery (A ++ '?' :: B) = (A, B) := by
  unfold splitQuery
  rw [takeWhile_break (p := fun c => c ≠ '?')
        (fun c hc => by simp only [ne_eq, decide_eq_true_eq]; exact fun e => h (e ▸ hc))
        (by simp),
      dropWhile_break (p := fun c => c ≠ '?')
        (fun c hc => by simp only [ne_eq, decide_eq_true_eq]; exact fun e => h (e ▸ hc))
        (by simp)]
  rfl

theorem idxOfChar_none {c : Char} {l : List Char} (h : c ∉ l) : idxOfChar c l = none := by
  unfold idxOfChar
  rw [takeWhile_all (p := fun x => x ≠ c)
    (fun x hx => by simp only [ne_eq, decide_eq_true_eq]; exact fun e => h (e ▸ hx))]
  simp

theorem afterLastSlash_subset {c : Char} {l : List Char} (h : c ∈ afterLastSlash l) :
    c ∈ l := by
  unfold afterLastSlash at h
  rw [List.mem_reverse] at h
  have := (List.takeWhile_sublist (fun c => c ≠ '/')).subset h
  rwa [List.mem_reverse] at this

theorem afterLastSlash_no_slash (l : List Char) : '/' ∉ afterLastSlash l := by
  unfold afterLastSlash
  intro h
  rw [List.mem_reverse] at h
  have := List.mem_takeWhile_imp h
  simp at this

theorem splitParams_no_semi {x : List Char} (h : ';' ∉ x) : splitParams x = (x, []) := by
  unfold splitParams
  by_cases hs : '/' ∈ x
  · rw [if_pos hs, idxOfChar_none (fun hc => h (afterLastSlash_subset hc))]
  · rw [if_neg hs, idxOfChar_none h]

theorem rstripSlash_decomp (l : List Char) :
    ∃ k, l = rstripSlash l ++ List.replicate k '/' := by
  refine ⟨(l.reverse.takeWhile (fun c => c = '/')).length, ?_⟩
  have h1 : l.reverse.takeWhile (fun c => c = '/') =
      List.replicate (l.reverse.takeWhile (fun c => c = '/')).length '/' := by
    apply List.eq_replicate_of_mem
    intro c hc
    have := List.mem_takeWhile_imp hc
    simpa using this
  calc l = l.reverse.reverse := (List.reverse_reverse l).symm
    _ = (l.reverse.takeWhile (fun c => c = '/') ++
          l.reverse.dropWhile (fun c => c = '/')).reverse := by
        rw [List.takeWhile_append_dropWhile]
    _ = rstripSlash l ++ (l.reverse.takeWhile (fun c => c = '/')).reverse := by
        rw [List.reverse_append]; rfl
    _ = _ := by
        congr 1
        conv_lhs => rw [h1]
        rw [List.reverse_replicate]

theorem mem_rstripSlash {c : Char} {l : List Char} (h : c ∈ rstripSlash l) : c ∈ l := by
  obtain ⟨k, hk⟩ := rstripSlash_decomp l
  rw [hk]
  exact List.mem_append_left _ h

theorem dropWhile_head_false {p : Char → Bool} :
    ∀ {l : List Char} {x : Char} {xs : List Char}, l.dropWhile p = x :: xs → p x = false := by
  intro l
  induction l with
  | nil => intro x xs h; simp [List.dropWhile] at h
  | cons y ys ih =>
    intro x xs h
    rw [List.dropWhile_cons] at h
    by_cases hy : p y = true
    · rw [if_pos hy] at h; exact ih h
    · rw [if_neg hy] at h
      cases h
      exact Bool.eq_false_iff.mpr hy

theorem rstripSlash_getLast (l : List Char) : (rstripSlash l).getLast? ≠ some '/' := by
  unfold rstripSlash
  rw [List.getLast?_reverse]
  intro h
  cases hd : l.reverse.dropWhile (fun c => c = '/') with
  | nil => rw [hd] at h; simp at h
  | cons x xs =>
    rw [hd] at h
    simp only [List.head?_cons, Option.some_inj] at h
    have := dropWhile_head_false hd
    rw [h] at this
    simp at this

theorem rstripSlash_eq_self {l : List Char} (h : l.getLast? ≠ some '/') :
    rstripSlash l = l := by
  unfold rstripSlash
  cases hrev : l.reverse with
  | nil =>
    have : l = [] := by
      have := congrArg List.reverse hrev
      rwa [List.reverse_reverse] at this
    rw [this]; rfl
  | cons x xs =>
    have hx : x ≠ '/' := by
      intro hx
      apply h
      rw [← List.head?_reverse, hrev, hx]
      rfl
    rw [List.dropWhile_cons, if_neg (by simpa using hx), ← hrev, List.reverse_reverse]

theorem rstripSlash_idem (l : List Char) : rstripSlash (rstripSlash l) = rstripSlash l :=
  rstripSlash_eq_self (rstripSlash_getLast l)

theorem rstripSlash_cons_slash {l : List Char} (hne : l ≠ [])
    (hfix : rstripSlash l = l) : rstripSlash ('/' :: l) = '/' :: l := by
  apply rstripSlash_eq_self
  have h1 : l.getLast? ≠ some '/' := by rw [← hfix]; exact rstripSlash_getLast l
  cases l with
  | nil => exact absurd rfl hne
  | cons y ys => rw [List.getLast?_cons_cons]; exact h1

theorem char_valid (c : Char) :
    c.toNat < 0xD800 ∨ (0xE000 ≤ c.toNat ∧ c.toNat < 0x110000) := by
  have h := c.valid
  unfold UInt32.isValidChar Nat.isValidChar at h
  exact h

theorem charToNat_ofNat_hi {n : Nat} (h1 : 0xE000 ≤ n) (h2 : n < 0x110000) :
    (Char.ofNat n).toNat = n := by
  rw [Char.ofNat, dif_pos (Or.inr ⟨h1, h2⟩)]
  rfl

theorem utf8Encode_lt {c : Char} : ∀ b ∈ utf8Encode c, b < 0x100 := by
  intro b hb
  have hv := char_valid c
  simp only [utf8Encode] at hb
  split_ifs at hb with h1 h2 h3 <;> simp only [List.mem_cons, List.not_mem_nil, or_false] at hb <;>
    rcases hb with rfl | hb <;> omega

theorem utf8EncodeStr_lt {s : List Char} : ∀ b ∈ utf8EncodeStr s, b < 0x100 := by
  intro b hb
  unfold utf8EncodeStr at hb
  rw [List.mem_flatten] at hb
  obtain ⟨l, hl, hbl⟩ := hb
  rw [List.mem_map] at hl
  obtain ⟨c, _, rfl⟩ := hl
  exact utf8Encode_lt b hbl

theorem utf8DecodeGo_one {b : Nat} (hb : b < 0x80) (f : Nat) (rest : List Nat) :
    utf8DecodeGo (f + 1) (b :: rest) = Char.ofNat b :: utf8DecodeGo f rest := by
  simp only [utf8DecodeGo]
  rw [if_pos hb]

theorem utf8DecodeGo_two {b b1 : Nat} (hb : 0xC2 ≤ b ∧ b ≤ 0xDF)
    (hb1 : 0x80 ≤ b1 ∧ b1 ≤ 0xBF) (f : Nat) (rest : List Nat) :
    utf8DecodeGo (f + 1) (b :: b1 :: rest) =
      Char.ofNat ((b - 0xC0) * 0x40 + (b1 - 0x80)) :: utf8DecodeGo f rest := by
  simp only [utf8DecodeGo]
  rw [if_neg (by omega),
    if_pos (by simp only [Bool.and_eq_true, decide_eq_true_eq]; omega)]
  simp only [isCont, Bool.and_eq_true, decide_eq_true_eq]
  rw [if_pos (by omega)]

theorem utf8DecodeGo_three {b b1 b2 : Nat} (hb : 0xE0 ≤ b ∧ b ≤ 0xEF)
    (hb1 : cont1LoFor3 b ≤ b1 ∧ b1 ≤ cont1HiFor3 b)
    (hb2 : 0x80 ≤ b2 ∧ b2 ≤ 0xBF) (f : Nat) (rest : List Nat) :
    utf8DecodeGo (f + 1) (b :: b1 :: b2 :: rest) =
      Char.ofNat ((b - 0xE0) * 0x1000 + (b1 - 0x80) * 0x40 + (b2 - 0x80))
        :: utf8DecodeGo f rest := by
  simp only [utf8DecodeGo]
  rw [if_neg (by omega),
    if_neg (by simp only [Bool.and_eq_true, decide_eq_true_eq]; omega),
    if_pos (by simp only [Bool.and_eq_true, decide_eq_true_eq]; omega)]
  rw [if_pos (by simp only [Bool.and_eq_true, decide_eq_true_eq]; exact hb1)]
  simp only [isCont, Bool.and_eq_true, decide_eq_true_eq]
  rw [if_pos (by omega)]

theorem utf8DecodeGo_four {b b1 b2 b3 : Nat} (hb : 0xF0 ≤ b ∧ b ≤ 0xF4)
    (hb1 : cont1LoFor4 b ≤ b1 ∧ b1 ≤ cont1HiFor4 b)
    (hb2 : 0x80 ≤ b2 ∧ b2 ≤ 0xBF) (hb3 : 0x80 ≤ b3 ∧ b3 ≤ 0xBF)
    (f : Nat) (rest : List Nat) :
    utf8DecodeGo (f + 1) (b :: b1 :: b2 :: b3 :: rest) =
      Char.ofNat ((b - 0xF0) * 0x40000 + (b1 - 0x80) * 0x1000 +
        (b2 - 0x80) * 0x40 + (b3 - 0x80)) :: utf8DecodeGo f rest := by
  simp only [utf8DecodeGo]
  rw [if_neg (by omega),
    if_neg (by simp only [Bool.and_eq_true, decide_eq_true_eq]; omega),
    if_neg (by simp only [Bool.and_eq_true, decide_eq_true_eq]; omega),
    if_pos (by simp only [Bool.and_eq_true, decide_eq_true_eq]; omega)]
  rw [if_pos (by simp only [Bool.and_eq_true, decide_eq_true_eq]; exact hb1)]
  simp only [isCont, Bool.and_eq_true, decide_eq_true_eq]
  rw [if_pos (by omega), if_pos (by omega)]

theorem utf8DecodeGo_encodeStr :
    ∀ (s : List Char) (f : Nat), (utf8EncodeStr s).length ≤ f →
      utf8DecodeGo f (utf8EncodeStr s) = s := by
  intro s
  induction s with
  | nil => intro f _; cases f <;> rfl
  | cons c s' ih =>
    intro f hf
    have hsplit : utf8EncodeStr (c :: s') = utf8Encode c ++ utf8EncodeStr s' := by
      simp [utf8EncodeStr]
    rw [hsplit] at hf ⊢
    have hv := char_valid c
    by_cases h1 : c.toNat < 0x80
    · have he : utf8Encode c = [c.toNat] := by unfold utf8Encode; rw [if_pos h1]
      rw [he] at hf ⊢
      obtain ⟨f', rfl⟩ : ∃ f', f = f' + 1 :=
        ⟨f - 1, by simp [List.length_append] at hf; omega⟩
      rw [List.singleton_append, utf8DecodeGo_one h1, Char.ofNat_toNat,
        ih f' (by simp [List.length_append] at hf; omega)]
    · by_cases h2 : c.toNat < 0x800
      · have he : utf8Encode c = [0xC0 + c.toNat / 0x40, 0x80 + c.toNat % 0x40] := by
          unfold utf8Encode
          rw [if_neg h1, if_pos h2]
        rw [he] at hf ⊢
        obtain ⟨f', rfl⟩ : ∃ f', f = f' + 1 :=
          ⟨f - 1, by simp [List.length_append] at hf; omega⟩
        rw [List.cons_append, List.cons_append, List.nil_append,
          utf8DecodeGo_two (by omega) (by omega)]
        have hval : (0xC0 + c.toNat / 0x40 - 0xC0) * 0x40 + (0x80 + c.toNat % 0x40 - 0x80)
            = c.toNat := by omega
        rw [hval, Char.ofNat_toNat, ih f' (by simp [List.length_append] at hf; omega)]
      · by_cases h3 : c.toNat < 0x10000
        · have he : utf8Encode c = [0xE0 + c.toNat / 0x1000,
              0x80 + c.toNat / 0x40 % 0x40, 0x80 + c.toNat % 0x40] := by
            unfold utf8Encode
            rw [if_neg h1, if_neg h2, if_pos h3]
          rw [he] at hf ⊢
          obtain ⟨f', rfl⟩ : ∃ f', f = f' + 1 :=
            ⟨f - 1, by simp [List.length_append] at hf; omega⟩
          rw [List.cons_append, List.cons_append, List.cons_append, List.nil_append,
            utf8DecodeGo_three (by omega)
              (by unfold cont1LoFor3 cont1HiFor3; split_ifs <;> omega)
              (by omega)]
          have hval : (0xE0 + c.toNat / 0x1000 - 0xE0) * 0x1000 +
              (0x80 + c.toNat / 0x40 % 0x40 - 0x80) * 0x40 +
              (0x80 + c.toNat % 0x40 - 0x80) = c.toNat := by omega
          rw [hval, Char.ofNat_toNat, ih f' (by simp [List.length_append] at hf; omega)]
        · have he : utf8Encode c = [0xF0 + c.toNat / 0x40000,
              0x80 + c.toNat / 0x1000 % 0x40, 0x80 + c.toNat / 0x40 % 0x40,
              0x80 + c.toNat % 0x40] := by
            unfold utf8Encode
            rw [if_neg h1, if_neg h2, if_neg h3]
          rw [he] at hf ⊢
          obtain ⟨f', rfl⟩ : ∃ f', f = f' + 1 :=
            ⟨f - 1, by simp [List.length_append] at hf; omega⟩
          rw [List.cons_append, List.cons_append, List.cons_append, List.cons_append,
            List.nil_append,
            utf8DecodeGo_four (by omega)
              (by unfold cont1LoFor4 cont1HiFor4; split_ifs <;> omega)
              (by omega) (by omega)]
          have hval : (0xF0 + c.toNat / 0x40000 - 0xF0) * 0x40000 +
              (0x80 + c.toNat / 0x1000 % 0x40 - 0x80) * 0x1000 +
              (0x80 + c.toNat / 0x40 % 0x40 - 0x80) * 0x40 +
              (0x80 + c.toNat % 0x40 - 0x80) = c.toNat := by omega
          rw [hval, Char.ofNat_toNat, ih f' (by simp [List.length_append] at hf; omega)]

theorem utf8Decode_encodeStr (s : List Char) : utf8Decode (utf8EncodeStr s) = s :=
  utf8DecodeGo_encodeStr s _ le_rfl

theorem hexUpperChar_toNat {d : Nat} (hd : d < 16) :
    (hexUpperChar d).toNat = if d < 10 then 0x30 + d else 0x37 + d := by
  unfold hexUpperChar
  split_ifs with h
  · exact charToNat_ofNat (by omega)
  · rw [charToNat_ofNat (by omega)]
    omega

theorem hexUpperChar_isHex {d : Nat} (hd : d < 16) :
    Dedup.isHexDigitChar (hexUpperChar d) = true := by
  have ht := hexUpperChar_toNat hd
  simp only [Dedup.isHexDigitChar, decide_eq_true_eq, charLe_iff]
  have e0 : ('0' : Char).toNat = 48 := rfl
  have e9 : ('9' : Char).toNat = 57 := rfl
  have eA : ('A' : Char).toNat = 65 := rfl
  have eF : ('F' : Char).toNat = 70 := rfl
  rw [e0, e9, eA, eF]
  split_ifs at ht <;> omega

theorem hexDigitVal_hexUpperChar {d : Nat} (hd : d < 16) :
    Dedup.hexDigitVal (hexUpperChar d) = d := by
  have ht := hexUpperChar_toNat hd
  have e0 : ('0' : Char).toNat = 48 := rfl
  have e9 : ('9' : Char).toNat = 57 := rfl
  have ea : ('a' : Char).toNat = 97 := rfl
  have eA : ('A' : Char).toNat = 65 := rfl
  have eF : ('F' : Char).toNat = 70 := rfl
  unfold Dedup.hexDigitVal
  by_cases h10 : d < 10
  · rw [if_pos ⟨charLe_iff.mpr (by rw [ht, if_pos h10, e0]; omega),
      charLe_iff.mpr (by rw [ht, if_pos h10, e9]; omega)⟩, ht, if_pos h10, e0]
    omega
  · rw [if_neg (fun h => by
        have h2 := charLe_iff.mp h.2
        rw [ht, if_neg h10, e9] at h2
        omega),
      if_neg (fun h => by
        have h2 := charLe_iff.mp h.1
        rw [ht, if_neg h10, ea] at h2
        omega),
      if_pos ⟨charLe_iff.mpr (by rw [ht, if_neg h10, eA]; omega),
        charLe_iff.mpr (by rw [ht, if_neg h10, eF]; omega)⟩, ht, if_neg h10, eA]
    omega

theorem unquotBytesGo_nil (f : Nat) : unquotBytesGo f [] = [] := by
  cases f <;> rfl

theorem unquotBytesGo_other {c : Char} (hc : c ≠ '%') (f : Nat) (rest : List Char) :
    unquotBytesGo (f + 1) (c :: rest) = utf8Encode c ++ unquotBytesGo f rest := by
  rw [unquotBytesGo.eq_def]
  split <;> simp_all

theorem unquotBytesGo_percent {c1 c2 : Char} (h1 : Dedup.isHexDigitChar c1 = true)
    (h2 : Dedup.isHexDigitChar c2 = true) (f : Nat) (rest : List Char) :
    unquotBytesGo (f + 1) ('%' :: c1 :: c2 :: rest) =
      (Dedup.hexDigitVal c1 * 16 + Dedup.hexDigitVal c2) :: unquotBytesGo f rest := by
  simp only [unquotBytesGo]
  rw [if_pos (by rw [h1, h2]; rfl)]

theorem plusToSpace_append (a b : List Char) :
    plusToSpace (a ++ b) = plusToSpace a ++ plusToSpace b :=
  List.map_append _ a b

theorem safeByte_facts {b : Nat} (h : safeByte b = true) :
    0x21 ≤ b ∧ b ≤ 0x7E ∧ b ≠ 0x2B ∧ b ≠ 0x25 ∧ b ≠ 0x20 := by
  simp only [safeByte, Bool.or_eq_true, Bool.and_eq_true, decide_eq_true_eq] at h
  omega

theorem unquot_quote_byte :
    ∀ (bs : List Nat), (∀ b ∈ bs, b < 0x100) → ∀ f : Nat,
      (plusToSpace ((bs.map quotePlusByte).flatten)).length ≤ f →
      unquotBytesGo f (plusToSpace ((bs.map quotePlusByte).flatten)) = bs := by
  intro bs
  induction bs with
  | nil =>
    intro _ f _
    have h : plusToSpace (([] : List Nat).map quotePlusByte).flatten = [] := rfl
    rw [h, unquotBytesGo_nil]
  | cons b bs' ih =>
    intro hlt f hf
    have hb : b < 0x100 := hlt b (by simp)
    have hlt' : ∀ x ∈ bs', x < 0x100 := fun x hx => hlt x (by simp [hx])
    have hsplit : (((b :: bs').map quotePlusByte).flatten : List Char) =
        quotePlusByte b ++ (bs'.map quotePlusByte).flatten := by simp
    rw [hsplit, plusToSpace_append] at hf ⊢
    by_cases h20 : b = 0x20
    · subst h20
      have hq : plusToSpace (quotePlusByte 0x20) = [' '] := rfl
      rw [hq] at hf ⊢
      obtain ⟨f', rfl⟩ : ∃ f', f = f' + 1 :=
        ⟨f - 1, by simp [List.length_append] at hf; omega⟩
      rw [List.singleton_append, unquotBytesGo_other (by decide) f',
        ih hlt' f' (by simp [List.length_append] at hf; omega)]
      rfl
    · by_cases hsafe : safeByte b = true
      · obtain ⟨hlo, hhi, hnp, hnpc, _⟩ := safeByte_facts hsafe
        have hq : quotePlusByte b = [Char.ofNat b] := by
          unfold quotePlusByte
          rw [if_neg h20, if_pos hsafe]
        have htn : (Char.ofNat b).toNat = b := charToNat_ofNat (by omega)
        have hneq : Char.ofNat b ≠ '+' := by
          intro h
          rw [charEq_iff] at h
          rw [htn] at h
          exact hnp (by rw [h]; rfl)
        have hneqp : Char.ofNat b ≠ '%' := by
          intro h
          rw [charEq_iff] at h
          rw [htn] at h
          exact hnpc (by rw [h]; rfl)
        have hpt : plusToSpace (quotePlusByte b) = [Char.ofNat b] := by
          rw [hq]
          simp only [plusToSpace, List.map_cons, List.map_nil, if_neg hneq]
        rw [hpt] at hf ⊢
        obtain ⟨f', rfl⟩ : ∃ f', f = f' + 1 :=
          ⟨f - 1, by simp [List.length_append] at hf; omega⟩
        rw [List.singleton_append, unquotBytesGo_other hneqp f',
          ih hlt' f' (by simp [List.length_append] at hf; omega)]
        have henc : utf8Encode (Char.ofNat b) = [b] := by
          simp only [utf8Encode, htn, if_pos (show b < 0x80 by omega)]
        rw [henc]
        rfl
      · have hq : quotePlusByte b = ['%', hexUpperChar (b / 16), hexUpperChar (b % 16)] := by
          unfold quotePlusByte
          rw [if_neg h20, if_neg hsafe]
        have hd1 : b / 16 < 16 := by omega
        have hd2 : b % 16 < 16 := by omega
        have hx1 : hexUpperChar (b / 16) ≠ '+' := by
          intro h
          rw [charEq_iff, hexUpperChar_toNat hd1] at h
          have : ('+' : Char).toNat = 43 := rfl
          rw [this] at h
          split_ifs at h <;> omega
        have hx2 : hexUpperChar (b % 16) ≠ '+' := by
          intro h
          rw [charEq_iff, hexUpperChar_toNat hd2] at h
          have : ('+' : Char).toNat = 43 := rfl
          rw [this] at h
          split_ifs at h <;> omega
        have hpt : plusToSpace (quotePlusByte b) =
            ['%', hexUpperChar (b / 16), hexUpperChar (b % 16)] := by
          rw [hq]
          simp only [plusToSpace, List.map_cons, List.map_nil, if_neg hx1, if_neg hx2,
            if_neg (show ('%' : Char) ≠ '+' by decide)]
        rw [hpt] at hf ⊢
        obtain ⟨f', rfl⟩ : ∃ f', f = f' + 1 :=
          ⟨f - 1, by simp [List.length_append] at hf; omega⟩
        rw [show (['%', hexUpperChar (b / 16), hexUpperChar (b % 16)] ++
            plusToSpace ((bs'.map quotePlusByte).flatten)) =
            '%' :: hexUpperChar (b / 16) :: hexUpperChar (b % 16) ::
              plusToSpace ((bs'.map quotePlusByte).flatten) from rfl,
          unquotBytesGo_percent (hexUpperChar_isHex hd1) (hexUpperChar_isHex hd2) f',
          hexDigitVal_hexUpperChar hd1, hexDigitVal_hexUpperChar hd2,
          ih hlt' f' (by simp [List.length_append] at hf; omega)]
        congr 1
        omega

theorem unquotBytes_quotePlus (s : List Char) :
    unquotBytes (plusToSpace (quotePlus s)) = utf8EncodeStr s := by
  unfold unquotBytes quotePlus
  exact unquot_quote_byte (utf8EncodeStr s) (fun b hb => utf8EncodeStr_lt b hb) _ le_rfl

theorem pyUnquote_quotePlus (s : List Char) : pyUnquote (plusToSpace (quotePlus s)) = s := by
  unfold pyUnquote
  rw [unquotBytes_quotePlus, utf8Decode_encodeStr]

theorem mem_quotePlus {c : Char} {s : List Char} (h : c ∈ quotePlus s) :
    c = '+' ∨ c = '%' ∨ safeByte c.toNat = true := by
  unfold quotePlus at h
  rw [List.mem_flatten] at h
  obtain ⟨l, hl, hcl⟩ := h
  rw [List.mem_map] at hl
  obtain ⟨b, hb, rfl⟩ := hl
  have hblt : b < 0x100 := utf8EncodeStr_lt b hb
  unfold quotePlusByte at hcl
  split_ifs at hcl with h20 hsafe
  · left
    simpa using hcl
  · right; right
    simp only [List.mem_singleton] at hcl
    obtain ⟨hlo, hhi, _, _, _⟩ := safeByte_facts hsafe
    rw [hcl, charToNat_ofNat (by omega)]
    exact hsafe
  · simp only [List.mem_cons, List.not_mem_nil, or_false] at hcl
    rcases hcl with rfl | rfl | rfl
    · right; left; rfl
    · right; right
      rw [hexUpperChar_toNat (by omega)]
      simp only [safeByte, Bool.or_eq_true, Bool.and_eq_true, decide_eq_true_eq]
      split_ifs <;> omega
    · right; right
      rw [hexUpperChar_toNat (by omega)]
      simp only [safeByte, Bool.or_eq_true, Bool.and_eq_true, decide_eq_true_eq]
      split_ifs <;> omega

theorem quotePlus_not_special {c : Char} {s : List Char} (h : c ∈ quotePlus s) :
    c ≠ '&' ∧ c ≠ '=' ∧ c ≠ '#' ∧ c ≠ '?' ∧ c ≠ ';' ∧ c ≠ ':' ∧ c ≠ '/' ∧
      c ≠ '\t' ∧ c ≠ '\r' ∧ c ≠ '\n' := by
  have hm := mem_quotePlus h
  refine ⟨?_, ?_, ?_, ?_, ?_, ?_, ?_, ?_, ?_, ?_⟩ <;>
    (intro he
     subst he
     rcases hm with h' | h' | h' <;> exact absurd h' (by decide))

theorem utf8Encode_ne_nil (c : Char) : utf8Encode c ≠ [] := by
  simp only [utf8Encode]
  split_ifs <;> simp

theorem quotePlusByte_ne_nil (b : Nat) : quotePlusByte b ≠ [] := by
  unfold quotePlusByte
  split_ifs <;> simp

theorem utf8EncodeStr_cons (c : Char) (s : List Char) :
    utf8EncodeStr (c :: s) = utf8Encode c ++ utf8EncodeStr s := by
  simp [utf8EncodeStr]

theorem quotePlus_ne_nil {s : List Char} (h : s ≠ []) : quotePlus s ≠ [] := by
  cases s with
  | nil => exact absurd rfl h
  | cons c s' =>
    unfold quotePlus
    rw [utf8EncodeStr_cons]
    cases he : utf8Encode c with
    | nil => exact absurd he (utf8Encode_ne_nil c)
    | cons b bs =>
      simp only [List.cons_append, List.map_cons, List.flatten_cons]
      intro hcontra
      rw [List.append_eq_nil] at hcontra
      exact quotePlusByte_ne_nil b hcontra.1

theorem unquotBytes_ne_nil {l : List Char} (h : l ≠ []) : unquotBytes l ≠ [] := by
  cases l with
  | nil => exact absurd rfl h
  | cons c rest =>
    unfold unquotBytes
    rw [List.length_cons]
    by_cases hc : c = '%'
    · subst hc
      rcases rest with _ | ⟨c1, rest1⟩
      · decide
      · rcases rest1 with _ | ⟨c2, rest2⟩
        · simp only [List.length_cons, unquotBytesGo]
          intro hcon
          rw [show utf8Encode '%' = [37] from rfl] at hcon
          simp at hcon
        · simp only [List.length_cons, unquotBytesGo]
          split_ifs
          · simp
          · intro hcon
            rw [show utf8Encode '%' = [37] from rfl] at hcon
            simp at hcon
    · rw [unquotBytesGo_other hc]
      cases he : utf8Encode c with
      | nil => exact absurd he (utf8Encode_ne_nil c)
      | cons b bs => simp

theorem utf8DecodeGo_cons_ne_nil : ∀ (f b : Nat) (rest : List Nat),
    utf8DecodeGo (f + 1) (b :: rest) ≠ [] := by
  intro f b rest
  rw [utf8DecodeGo.eq_def]
  split
  · simp_all
  · simp_all
  · rename_i heq
    rw [List.cons.injEq] at heq
    obtain ⟨rfl, rfl⟩ := heq
    split_ifs <;>
      first
      | exact List.cons_ne_nil _ _
      | (cases rest with
         | nil => simp
         | cons b1 rest1 =>
           dsimp only
           split_ifs <;>
             first
             | exact List.cons_ne_nil _ _
             | (cases rest1 with
                | nil => simp
                | cons b2 rest2 =>
                  dsimp only
                  split_ifs <;>
                    first
                    | exact List.cons_ne_nil _ _
                    | (cases rest2 with
                       | nil => simp
                       | cons b3 rest3 =>
                         dsimp only
                         split_ifs <;> exact List.cons_ne_nil _ _)))

theorem utf8Decode_ne_nil {l : List Nat} (h : l ≠ []) : utf8Decode l ≠ [] := by
  cases l with
  | nil => exact absurd rfl h
  | cons b rest =>
    unfold utf8Decode
    rw [List.length_cons]
    exact utf8DecodeGo_cons_ne_nil rest.length b rest

theorem pyUnquote_ne_nil {l : List Char} (h : l ≠ []) : pyUnquote l ≠ [] :=
  utf8Decode_ne_nil (unquotBytes_ne_nil h)

theorem plusToSpace_ne_nil {l : List Char} (h : l ≠ []) : plusToSpace l ≠ [] := by
  cases l with
  | nil => exact absurd rfl h
  | cons c rest => simp [plusToSpace]

theorem splitOnCharGo_no_sep {sep : Char} :
    ∀ {l cur : List Char}, sep ∉ l → splitOnCharGo sep l cur = [cur.reverse ++ l] := by
  intro l
  induction l with
  | nil => intro cur _; simp [splitOnCharGo]
  | cons c rest ih =>
    intro cur hmem
    have hc : ¬ c = sep := fun he => hmem (by simp [he])
    simp only [splitOnCharGo, if_neg hc]
    rw [ih (fun hm => hmem (by simp [hm]))]
    simp

theorem splitOnCharGo_sep {sep : Char} :
    ∀ {A : List Char} (B : List Char) {cur : List Char}, sep ∉ A →
      splitOnCharGo sep (A ++ sep :: B) cur =
        (cur.reverse ++ A) :: splitOnCharGo sep B [] := by
  intro A
  induction A with
  | nil =>
    intro B cur _
    simp [splitOnCharGo]
  | cons a A' ih =>
    intro B cur hmem
    have ha : ¬ a = sep := fun he => hmem (by simp [he])
    simp only [List.cons_append, splitOnCharGo, if_neg ha, List.append_eq]
    rw [ih B (fun hm => hmem (by simp [hm]))]
    simp

theorem splitOnChar_intercalate :
    ∀ (fs : List (List Char)), fs ≠ [] → (∀ f ∈ fs, '&' ∉ f) →
      splitOnChar '&' (List.intercalate ['&'] fs) = fs := by
  intro fs
  induction fs with
  | nil => intro h _; exact absurd rfl h
  | cons f fs' ih =>
    intro _ hfree
    cases fs' with
    | nil =>
      have h1 : List.intercalate ['&'] [f] = f := by simp [List.intercalate]
      rw [h1]
      unfold splitOnChar
      rw [splitOnCharGo_no_sep (hfree f (by simp))]
      simp
    | cons g t =>
      have h1 : List.intercalate ['&'] (f :: g :: t) =
          f ++ '&' :: List.intercalate ['&'] (g :: t) := by
        simp [List.intercalate, List.intersperse]
      rw [h1]
      unfold splitOnChar
      rw [splitOnCharGo_sep _ (hfree f (by simp))]
      have h2 := ih (by simp) (fun x hx => hfree x (by simp [hx]))
      unfold splitOnChar at h2
      rw [h2]
      simp

theorem fieldToPair_encode (k v : List Char) (hv : v ≠ []) :
    fieldToPair (quotePlus k ++ '=' :: quotePlus v) = some (k, v) := by
  have hqv := quotePlus_ne_nil hv
  have hkeq : ∀ c ∈ quotePlus k, (fun c : Char => (c ≠ '=' : Bool)) c = true := by
    intro c hc
    simp only [ne_eq, decide_eq_true_eq]
    exact (quotePlus_not_special hc).2.1
  unfold fieldToPair
  rw [if_neg (by simp)]
  rw [takeWhile_break (p := fun c => (c ≠ '=' : Bool)) hkeq (by simp)]
  rw [if_neg (by
    intro hlen
    rw [List.length_append, List.length_cons] at hlen
    omega)]
  have hdrop : (quotePlus k ++ '=' :: quotePlus v).drop ((quotePlus k).length + 1) =
      quotePlus v := by
    have : quotePlus k ++ '=' :: quotePlus v = (quotePlus k ++ ['=']) ++ quotePlus v := by
      simp
    rw [this, List.drop_left' (by simp)]
  rw [hdrop, if_neg (by simp [List.isEmpty_iff, hqv])]
  rw [pyUnquote_quotePlus, pyUnquote_quotePlus]

theorem filterMap_fieldToPair_flat :
    ∀ (d : List (List Char × List (List Char))), (∀ kv ∈ d, ∀ v ∈ kv.2, v ≠ []) →
      List.filterMap fieldToPair ((d.map (fun kv =>
        kv.2.map (fun v => quotePlus kv.1 ++ '=' :: quotePlus v))).flatten) =
      (d.map (fun kv => kv.2.map (fun v => (kv.1, v)))).flatten := by
  intro d
  induction d with
  | nil => intro _; rfl
  | cons kv d' ih =>
    intro hwf
    simp only [List.map_cons, List.flatten_cons, List.filterMap_append]
    have hgroup : List.filterMap fieldToPair
        (kv.2.map (fun v => quotePlus kv.1 ++ '=' :: quotePlus v)) =
        kv.2.map (fun v => (kv.1, v)) := by
      rw [List.filterMap_map]
      apply List.filterMap_eq_map_iff_forall_eq_some.mpr
      intro v hvmem
      exact fieldToPair_encode kv.1 v (hwf kv (by simp) v hvmem)
    rw [hgroup, ih (fun kv' hkv' => hwf kv' (by simp [hkv']))]

theorem parseQsl_encode (d : List (List Char × List (List Char)))
    (hwf : ∀ kv ∈ d, kv.2 ≠ [] ∧ ∀ v ∈ kv.2, v ≠ []) (hd : d ≠ []) :
    parseQsl (urlencodePairs d) =
      (d.map (fun kv => kv.2.map (fun v => (kv.1, v)))).flatten := by
  have hfieldmem : ∀ f ∈ (d.map (fun kv =>
      kv.2.map (fun v => quotePlus kv.1 ++ '=' :: quotePlus v))).flatten,
      ∃ kv ∈ d, ∃ v ∈ kv.2, f = quotePlus kv.1 ++ '=' :: quotePlus v := by
    intro f hf
    rw [List.mem_flatten] at hf
    obtain ⟨g, hg, hfg⟩ := hf
    rw [List.mem_map] at hg
    obtain ⟨kv, hkv, rfl⟩ := hg
    rw [List.mem_map] at hfg
    obtain ⟨v, hvmem, rfl⟩ := hfg
    exact ⟨kv, hkv, v, hvmem, rfl⟩
  have hfree : ∀ f ∈ (d.map (fun kv =>
      kv.2.map (fun v => quotePlus kv.1 ++ '=' :: quotePlus v))).flatten, '&' ∉ f := by
    intro f hf
    obtain ⟨kv, _, v, _, rfl⟩ := hfieldmem f hf
    intro hc
    rw [List.mem_append, List.mem_cons] at hc
    rcases hc with hc | hc | hc
    · exact (quotePlus_not_special hc).1 rfl
    · exact absurd hc.symm (by decide)
    · exact (quotePlus_not_special hc).1 rfl
  have hfne : (d.map (fun kv =>
      kv.2.map (fun v => quotePlus kv.1 ++ '=' :: quotePlus v))).flatten ≠ [] := by
    cases d with
    | nil => exact absurd rfl hd
    | cons kv d' =>
      obtain ⟨hne, _⟩ := hwf kv (by simp)
      cases hv2 : kv.2 with
      | nil => exact absurd hv2 hne
      | cons v vs =>
        simp only [List.map_cons, List.flatten_cons, hv2]
        intro hcontra
        rw [List.append_eq_nil] at hcontra
        simp at hcontra
  have hqne : List.intercalate ['&'] ((d.map (fun kv =>
      kv.2.map (fun v => quotePlus kv.1 ++ '=' :: quotePlus v))).flatten) ≠ [] := by
    cases hfs : (d.map (fun kv =>
        kv.2.map (fun v => quotePlus kv.1 ++ '=' :: quotePlus v))).flatten with
    | nil => exact absurd hfs hfne
    | cons F0 fs' =>
      have hF0 : F0 ≠ [] := by
        have hm : F0 ∈ (d.map (fun kv =>
            kv.2.map (fun v => quotePlus kv.1 ++ '=' :: quotePlus v))).flatten := by
          rw [hfs]; simp
        obtain ⟨kv, _, v, _, rfl⟩ := hfieldmem F0 hm
        simp
      cases fs' with
      | nil => simpa [List.intercalate] using hF0
      | cons g t =>
        have h1 : List.intercalate ['&'] (F0 :: g :: t) =
            F0 ++ '&' :: List.intercalate ['&'] (g :: t) := by
          simp [List.intercalate, List.intersperse]
        rw [h1]
        intro hcontra
        rw [List.append_eq_nil] at hcontra
        simp at hcontra
  unfold parseQsl urlencodePairs
  rw [if_neg (by simp only [List.isEmpty_iff]; exact hqne)]
  rw [splitOnChar_intercalate _ hfne hfree]
  exact filterMap_fieldToPair_flat d (fun kv hkv => (hwf kv hkv).2)

theorem insertPair_new (acc : List (List Char × List (List Char)))
    (kv : List Char × List Char) (h : kv.1 ∉ acc.map Prod.fst) :
    insertPair acc kv = acc ++ [(kv.1, [kv.2])] := by
  induction acc with
  | nil => rfl
  | cons p rest ih =>
    have hp : ¬ p.1 = kv.1 := fun he => h (by simp [← he])
    cases p with
    | mk k vs =>
      simp only [insertPair, if_neg hp, List.append_eq]
      rw [ih (fun hm => h (by simp [List.mem_map] at hm ⊢; tauto))]
      simp

theorem insertPair_existing {front back : List (List Char × List (List Char))}
    {k : List Char} {vs : List (List Char)} {v : List Char}
    (h : k ∉ front.map Prod.fst) :
    insertPair (front ++ (k, vs) :: back) (k, v) = front ++ (k, vs ++ [v]) :: back := by
  induction front with
  | nil => simp [insertPair]
  | cons p rest ih =>
    have hp : ¬ p.1 = k := fun he => h (by simp [← he])
    cases p with
    | mk k' vs' =>
      simp only [List.cons_append, insertPair, if_neg hp, List.append_eq]
      rw [ih (fun hm => h (by simp [List.mem_map] at hm ⊢; tauto))]

theorem foldl_insert_group {front : List (List Char × List (List Char))}
    {k : List Char} (h : k ∉ front.map Prod.fst) :
    ∀ (vs : List (List Char)) (us : List (List Char)),
      List.foldl insertPair (front ++ [(k, us)]) (vs.map (fun v => (k, v))) =
        front ++ [(k, us ++ vs)] := by
  intro vs
  induction vs with
  | nil => intro us; simp
  | cons v vs' ih =>
    intro us
    simp only [List.map_cons, List.foldl_cons]
    rw [insertPair_existing h, ih (us ++ [v])]
    simp

theorem foldl_insert_groups :
    ∀ (d : List (List Char × List (List Char)))
      (acc : List (List Char × List (List Char))),
      (∀ kv ∈ d, kv.2 ≠ []) → (d.map Prod.fst).Nodup →
      (∀ k ∈ d.map Prod.fst, k ∉ acc.map Prod.fst) →
      List.foldl insertPair acc
        ((d.map (fun kv => kv.2.map (fun v => (kv.1, v)))).flatten) = acc ++ d := by
  intro d
  induction d with
  | nil => intro acc _ _ _; simp
  | cons kv d' ih =>
    intro acc hne hnd hdisj
    cases kv with
    | mk k vs =>
      cases vs with
      | nil => exact absurd rfl (hne (k, []) (by simp))
      | cons v vs' =>
        simp only [List.map_cons, List.flatten_cons]
        rw [List.foldl_append]
        have hk : k ∉ acc.map Prod.fst := hdisj k (by simp)
        have hstep : List.foldl insertPair acc
            ((k, v) :: vs'.map (fun v => (k, v))) = acc ++ [(k, v :: vs')] := by
          simp only [List.foldl_cons]
          rw [insertPair_new acc (k, v) hk]
          rw [foldl_insert_group hk vs' [v]]
          simp
        rw [hstep]
        have hnd' : (d'.map Prod.fst).Nodup := by
          simp only [List.map_cons, List.nodup_cons] at hnd
          exact hnd.2
        have hknotind' : k ∉ d'.map Prod.fst := by
          simp only [List.map_cons, List.nodup_cons] at hnd
          exact hnd.1
        have hdisj' : ∀ k' ∈ d'.map Prod.fst, k' ∉ (acc ++ [(k, v :: vs')]).map Prod.fst := by
          intro k' hk' hmem
          rw [List.map_append, List.mem_append] at hmem
          rcases hmem with hmem | hmem
          · exact hdisj k' (by simp [hk']) hmem
          · simp at hmem
            exact hknotind' (hmem ▸ hk')
        rw [ih (acc ++ [(k, v :: vs')]) (fun kv' hkv' => hne kv' (by simp [hkv']))
          hnd' hdisj']
        simp

theorem parseQs_encode (d : List (List Char × List (List Char)))
    (hne : ∀ kv ∈ d, kv.2 ≠ [])
    (hnestr : ∀ kv ∈ d, ∀ v ∈ kv.2, v ≠ [])
    (hnd : (d.map Prod.fst).Nodup) :
    parseQs (urlencodePairs d) = d := by
  cases hd : d with
  | nil =>
    unfold parseQs parseQsl urlencodePairs
    simp [List.intercalate]
  | cons kv d' =>
    rw [← hd]
    unfold parseQs
    rw [parseQsl_encode d (fun kv' hkv' => ⟨hne kv' hkv', hnestr kv' hkv'⟩)
      (by rw [hd]; simp)]
    have := foldl_insert_groups d [] hne hnd (by simp)
    rw [this]
    simp

theorem insertPair_keys (acc : List (List Char × List (List Char)))
    (kv : List Char × List Char) :
    (insertPair acc kv).map Prod.fst =
      if kv.1 ∈ acc.map Prod.fst then acc.map Prod.fst
      else acc.map Prod.fst ++ [kv.1] := by
  induction acc with
  | nil => simp [insertPair]
  | cons p rest ih =>
    cases p with
    | mk k vs =>
      by_cases hk : k = kv.1
      · simp only [insertPair, if_pos hk, List.map_cons]
        rw [if_pos (by simp [hk])]
      · simp only [insertPair, if_neg hk, List.map_cons, ih]
        by_cases hmem : kv.1 ∈ rest.map Prod.fst
        · rw [if_pos hmem, if_pos (by simp [hmem])]
        · rw [if_neg hmem, if_neg (by simp [hmem]; exact fun h => hk h.symm)]
          simp

theorem insertPair_values {acc : List (List Char × List (List Char))}
    {kv : List Char × List Char}
    (hacc : ∀ p ∈ acc, p.2 ≠ [] ∧ ∀ v ∈ p.2, v ≠ []) (hv : kv.2 ≠ []) :
    ∀ p ∈ insertPair acc kv, p.2 ≠ [] ∧ ∀ v ∈ p.2, v ≠ [] := by
  induction acc with
  | nil =>
    intro p hp
    simp only [insertPair, List.mem_singleton] at hp
    subst hp
    exact ⟨by simp, by simpa using hv⟩
  | cons q rest ih =>
    intro p hp
    cases q with
    | mk k vs =>
      by_cases hk : k = kv.1
      · simp only [insertPair, if_pos hk, List.mem_cons] at hp
        rcases hp with rfl | hp
        · have hq := hacc (k, vs) (by simp)
          refine ⟨by simp, ?_⟩
          intro v hvm
          rw [List.mem_append] at hvm
          rcases hvm with hvm | hvm
          · exact hq.2 v hvm
          · simp at hvm
            exact hvm ▸ hv
        · exact hacc p (by simp [hp])
      · simp only [insertPair, if_neg hk, List.mem_cons] at hp
        rcases hp with rfl | hp
        · exact hacc _ (by simp)
        · exact ih (fun q hq => hacc q (by simp [hq])) p hp

theorem foldl_insertPair_wf :
    ∀ (ps : List (List Char × List Char)) (acc : List (List Char × List (List Char))),
      (∀ p ∈ ps, p.2 ≠ []) →
      ((acc.map Prod.fst).Nodup ∧ ∀ q ∈ acc, q.2 ≠ [] ∧ ∀ v ∈ q.2, v ≠ []) →
      (((ps.foldl insertPair acc).map Prod.fst).Nodup ∧
        ∀ q ∈ ps.foldl insertPair acc, q.2 ≠ [] ∧ ∀ v ∈ q.2, v ≠ []) := by
  intro ps
  induction ps with
  | nil => intro acc _ hacc; exact hacc
  | cons kv ps' ih =>
    intro acc hps hacc
    simp only [List.foldl_cons]
    refine ih (insertPair acc kv) (fun p hp => hps p (by simp [hp])) ⟨?_, ?_⟩
    · rw [insertPair_keys]
      split_ifs with hmem
      · exact hacc.1
      · simp only [List.nodup_append, List.nodup_cons]
        exact ⟨hacc.1, by simp, by simpa using hmem⟩
    · exact insertPair_values hacc.2 (hps kv (by simp))

theorem fieldToPair_some {field : List Char} {kv : List Char × List Char}
    (h : fieldToPair field = some kv) : kv.2 ≠ [] := by
  unfold fieldToPair at h
  split_ifs at h with h1
  simp at h
  obtain ⟨hne1, hlen, hpair⟩ := h
  rw [← hpair]
  apply pyUnquote_ne_nil
  apply plusToSpace_ne_nil
  intro hdrop
  have hlencontra := congrArg List.length hdrop
  rw [List.length_drop] at hlencontra
  simp at hlencontra
  omega

theorem parseQsl_values (qs : List Char) :
    ∀ kv ∈ parseQsl qs, kv.2 ≠ [] := by
  intro kv hkv
  unfold parseQsl at hkv
  split_ifs at hkv with hq
  · simp at hkv
  · rw [List.mem_filterMap] at hkv
    obtain ⟨field, _, hfp⟩ := hkv
    exact fieldToPair_some hfp

theorem parseQs_wf (qs : List Char) :
    ((parseQs qs).map Prod.fst).Nodup ∧
      ∀ q ∈ parseQs qs, q.2 ≠ [] ∧ ∀ v ∈ q.2, v ≠ [] := by
  unfold parseQs
  exact foldl_insertPair_wf (parseQsl qs) [] (parseQsl_values qs) ⟨by simp, by simp⟩

theorem parseQs_nil : parseQs [] = [] := rfl

theorem mem_intercalate_amp {c : Char} :
    ∀ {L : List (List Char)}, c ∈ List.intercalate ['&'] L →
      c = '&' ∨ ∃ f ∈ L, c ∈ f := by
  intro L
  induction L with
  | nil => intro h; simp [List.intercalate] at h
  | cons f L' ih =>
    intro h
    cases L' with
    | nil =>
      rw [show List.intercalate ['&'] [f] = f by simp [List.intercalate]] at h
      exact Or.inr ⟨f, by simp, h⟩
    | cons g t =>
      rw [show List.intercalate ['&'] (f :: g :: t) =
          f ++ '&' :: List.intercalate ['&'] (g :: t) by
        simp [List.intercalate, List.intersperse]] at h
      rw [List.mem_append, List.mem_cons] at h
      rcases h with h | h | h
      · exact Or.inr ⟨f, by simp, h⟩
      · exact Or.inl h
      · rcases ih h with h' | ⟨f', hf', hcf'⟩
        · exact Or.inl h'
        · exact Or.inr ⟨f', by simp [hf'], hcf'⟩

theorem mem_urlencodePairs {c : Char} {d : List (List Char × List (List Char))}
    (h : c ∈ urlencodePairs d) :
    c = '&' ∨ c = '=' ∨ c = '+' ∨ c = '%' ∨ safeByte c.toNat = true := by
  unfold urlencodePairs at h
  rcases mem_intercalate_amp h with h | ⟨f, hf, hcf⟩
  · exact Or.inl h
  · rw [List.mem_flatten] at hf
    obtain ⟨g, hg, hfg⟩ := hf
    rw [List.mem_map] at hg
    obtain ⟨kv, _, rfl⟩ := hg
    rw [List.mem_map] at hfg
    obtain ⟨v, _, rfl⟩ := hfg
    rw [List.mem_append, List.mem_cons] at hcf
    rcases hcf with hcf | hcf | hcf
    · rcases mem_quotePlus hcf with h' | h' | h'
      · exact Or.inr (Or.inr (Or.inl h'))
      · exact Or.inr (Or.inr (Or.inr (Or.inl h')))
      · exact Or.inr (Or.inr (Or.inr (Or.inr h')))
    · exact Or.inr (Or.inl hcf)
    · rcases mem_quotePlus hcf with h' | h' | h'
      · exact Or.inr (Or.inr (Or.inl h'))
      · exact Or.inr (Or.inr (Or.inr (Or.inl h')))
      · exact Or.inr (Or.inr (Or.inr (Or.inr h')))

theorem urlencodePairs_not_special {c : Char} {d : List (List Char × List (List Char))}
    (h : c ∈ urlencodePairs d) :
    c ≠ '#' ∧ c ≠ '?' ∧ c ≠ ';' ∧ c ≠ '/' ∧ c ≠ ':' ∧
      c ≠ '\t' ∧ c ≠ '\r' ∧ c ≠ '\n' := by
  have hm := mem_urlencodePairs h
  refine ⟨?_, ?_, ?_, ?_, ?_, ?_, ?_, ?_⟩ <;>
    (intro he
     subst he
     rcases hm with h' | h' | h' | h' | h' <;> exact absurd h' (by decide))

theorem filtered_nodup (q : List Char) :
    (((parseQs q).filter (fun kv => !isTracking kv.1)).map Prod.fst).Nodup := by
  have h := (parseQs_wf q).1
  exact h.sublist (List.Sublist.map Prod.fst (List.filter_sublist _))

theorem filtered_values {q : List Char} :
    ∀ kv ∈ (parseQs q).filter (fun kv => !isTracking kv.1),
      kv.2 ≠ [] ∧ ∀ v ∈ kv.2, v ≠ [] := by
  intro kv hkv
  exact (parseQs_wf q).2 kv (List.mem_of_mem_filter hkv)

theorem parseQs_newQuery (q : List Char) :
    parseQs (if ((parseQs q).filter (fun kv => !isTracking kv.1)).isEmpty then []
             else urlencodePairs ((parseQs q).filter (fun kv => !isTracking kv.1))) =
      (parseQs q).filter (fun kv => !isTracking kv.1) := by
  split_ifs with he
  · rw [List.isEmpty_iff] at he
    rw [he, parseQs_nil]
  · exact parseQs_encode _ (fun kv hkv => (filtered_values kv hkv).1)
      (fun kv hkv => (filtered_values kv hkv).2) (filtered_nodup q)

theorem filter_tracking_idem (l : List (List Char × List (List Char))) :
    (l.filter (fun kv => !isTracking kv.1)).filter (fun kv => !isTracking kv.1) =
      l.filter (fun kv => !isTracking kv.1) := by
  apply List.filter_eq_self.mpr
  intro kv hkv
  exact (List.mem_filter.mp hkv).2

theorem filtered_no_tracking {q : List Char} :
    ∀ kv ∈ (parseQs q).filter (fun kv => !isTracking kv.1), isTracking kv.1 = false := by
  intro kv hkv
  have := (List.mem_filter.mp hkv).2
  simpa using this

theorem pyToLower_fixed {c : Char}
    (h : ¬(0x41 ≤ c.toNat ∧ c.toNat ≤ 0x5A) ∧ ¬(0x410 ≤ c.toNat ∧ c.toNat ≤ 0x42F) ∧
      c.toNat ≠ 0x401) : pyToLower c = c := by
  apply charToNat_inj
  rw [pyToLower_toNat]
  obtain ⟨h1, h2, h3⟩ := h
  split_ifs with g1 g2 g3 <;> omega

theorem pyToLower_fixed_lt {c : Char} (h : c.toNat < 0x41) : pyToLower c = c :=
  pyToLower_fixed ⟨by omega, by omega, by omega⟩

theorem pyToLower_hex (c : Char) :
    Dedup.isHexDigitChar (pyToLower c) = Dedup.isHexDigitChar c := by
  have ht := pyToLower_toNat c
  simp only [Dedup.isHexDigitChar, charLe_iff, decide_eq_decide]
  have e0 : ('0' : Char).toNat = 48 := rfl
  have e9 : ('9' : Char).toNat = 57 := rfl
  have ea : ('a' : Char).toNat = 97 := rfl
  have ef : ('f' : Char).toNat = 102 := rfl
  have eA : ('A' : Char).toNat = 65 := rfl
  have eF : ('F' : Char).toNat = 70 := rfl
  rw [e0, e9, ea, ef, eA, eF]
  split_ifs at ht <;> omega

theorem mem_pyLower_iff {X : Char}
    (hX : ¬(0x41 ≤ X.toNat ∧ X.toNat ≤ 0x5A) ∧ ¬(0x61 ≤ X.toNat ∧ X.toNat ≤ 0x7A) ∧
      ¬(0x401 ≤ X.toNat ∧ X.toNat ≤ 0x42F) ∧ ¬(0x430 ≤ X.toNat ∧ X.toNat ≤ 0x44F) ∧
      X.toNat ≠ 0x451) (l : List Char) :
    X ∈ pyLower l ↔ X ∈ l := by
  unfold pyLower
  rw [List.mem_map]
  constructor
  · rintro ⟨c, hc, hcl⟩
    rw [(pyToLower_eq_special hX c).mp hcl] at hc
    exact hc
  · intro hc
    exact ⟨X, hc, (pyToLower_eq_special hX X).mpr rfl⟩

theorem takeWhile_map_comm {p : Char → Bool} {f : Char → Char}
    (hf : ∀ c, p (f c) = p c) (l : List Char) :
    (l.map f).takeWhile p = (l.takeWhile p).map f := by
  induction l with
  | nil => rfl
  | cons c rest ih =>
    simp only [List.map_cons, List.takeWhile_cons, hf c]
    by_cases hc : p c = true
    · rw [hc]
      simp only [if_true, List.map_cons, ih]
    · rw [Bool.eq_false_iff.mpr hc]
      simp

theorem dropWhile_map_comm {p : Char → Bool} {f : Char → Char}
    (hf : ∀ c, p (f c) = p c) (l : List Char) :
    (l.map f).dropWhile p = (l.dropWhile p).map f := by
  induction l with
  | nil => rfl
  | cons c rest ih =>
    simp only [List.map_cons, List.dropWhile_cons, hf c]
    by_cases hc : p c = true
    · rw [hc]
      simp only [if_true, ih]
    · rw [Bool.eq_false_iff.mpr hc]
      simp

theorem isEmpty_map {α β : Type} (f : α → β) (l : List α) :
    (l.map f).isEmpty = l.isEmpty := by
  cases l <;> rfl

theorem headD_map {α β : Type} (f : α → β) (l : List α) (d : α) :
    (l.map f).headD (f d) = f (l.headD d) := by
  cases l <;> rfl

theorem getLastD_map {α β : Type} (f : α → β) :
    ∀ (l : List α) (d : α), (l.map f).getLastD (f d) = f (l.getLastD d) := by
  intro l
  induction l with
  | nil => intro d; rfl
  | cons a t ih =>
    intro d
    rw [List.map_cons, List.getLastD_cons, List.getLastD_cons]
    exact ih a

theorem all_congr_my {α : Type} {p q : α → Bool} :
    ∀ {l : List α}, (∀ a ∈ l, p a = q a) → l.all p = l.all q := by
  intro l
  induction l with
  | nil => intro _; rfl
  | cons a t ih =>
    intro h
    simp only [List.all_cons, h a (by simp), ih (fun x hx => h x (by simp [hx]))]

theorem countP_congr_my {α : Type} {p q : α → Bool} :
    ∀ {l : List α}, (∀ a ∈ l, p a = q a) → l.countP p = l.countP q := by
  intro l
  induction l with
  | nil => intro _; rfl
  | cons a t ih =>
    intro h
    rw [List.countP_cons, List.countP_cons, h a (by simp),
      ih (fun x hx => h x (by simp [hx]))]

theorem findIdx_congr_my {α : Type} {p q : α → Bool} :
    ∀ {l : List α}, (∀ a ∈ l, p a = q a) → l.findIdx p = l.findIdx q := by
  intro l
  induction l with
  | nil => intro _; rfl
  | cons a t ih =>
    intro h
    rw [List.findIdx_cons, List.findIdx_cons, h a (by simp),
      ih (fun x hx => h x (by simp [hx]))]

theorem findIdx_map_my {α β : Type} (f : α → β) (p : β → Bool) :
    ∀ (l : List α), (l.map f).findIdx p = l.findIdx (fun a => p (f a)) := by
  intro l
  induction l with
  | nil => rfl
  | cons a t ih =>
    rw [List.map_cons, List.findIdx_cons, List.findIdx_cons, ih]

theorem splitOnCharGo_ne_nil (sep : Char) :
    ∀ (l cur : List Char), splitOnCharGo sep l cur ≠ [] := by
  intro l
  induction l with
  | nil => intro cur; simp [splitOnCharGo]
  | cons c rest ih =>
    intro cur
    simp only [splitOnCharGo]
    split_ifs
    · simp
    · exact ih (c :: cur)

theorem splitOnCharGo_concat (sep : Char) :
    ∀ (l cur : List Char),
      List.intercalate [sep] (splitOnCharGo sep l cur) = cur.reverse ++ l := by
  intro l
  induction l with
  | nil => intro cur; simp [splitOnCharGo, List.intercalate]
  | cons c rest ih =>
    intro cur
    simp only [splitOnCharGo]
    split_ifs with hc
    · subst hc
      cases hgo : splitOnCharGo c rest [] with
      | nil => exact absurd hgo (splitOnCharGo_ne_nil c rest [])
      | cons b t =>
        rw [show List.intercalate [c] (cur.reverse :: b :: t) =
            cur.reverse ++ c :: List.intercalate [c] (b :: t) by
          simp [List.intercalate, List.intersperse]]
        rw [← hgo, ih []]
        simp
    · rw [ih (c :: cur)]
      simp

theorem mem_intercalate_sep {sep c : Char} :
    ∀ {L : List (List Char)}, c ∈ List.intercalate [sep] L →
      c = sep ∨ ∃ f ∈ L, c ∈ f := by
  intro L
  induction L with
  | nil => intro h; simp [List.intercalate] at h
  | cons f L' ih =>
    intro h
    cases L' with
    | nil =>
      rw [show List.intercalate [sep] [f] = f by simp [List.intercalate]] at h
      exact Or.inr ⟨f, by simp, h⟩
    | cons g t =>
      rw [show List.intercalate [sep] (f :: g :: t) =
          f ++ sep :: List.intercalate [sep] (g :: t) by
        simp [List.intercalate, List.intersperse]] at h
      rw [List.mem_append, List.mem_cons] at h
      rcases h with h | h | h
      · exact Or.inr ⟨f, by simp, h⟩
      · exact Or.inl h
      · rcases ih h with h' | ⟨f', hf', hcf'⟩
        · exact Or.inl h'
        · exact Or.inr ⟨f', by simp [hf'], hcf'⟩

theorem splitOnCharGo_map {sep : Char} {f : Char → Char}
    (hf : ∀ c, f c = sep ↔ c = sep) :
    ∀ (l cur : List Char),
      splitOnCharGo sep (l.map f) (cur.map f) =
        (splitOnCharGo sep l cur).map (List.map f) := by
  intro l
  induction l with
  | nil =>
    intro cur
    show [(List.map f cur).reverse] = List.map (List.map f) [cur.reverse]
    simp [List.map_reverse]
  | cons c rest ih =>
    intro cur
    simp only [List.map_cons, splitOnCharGo]
    by_cases hc : c = sep
    · rw [if_pos ((hf c).mpr hc), if_pos hc]
      have h0 := ih []
      simp only [List.map_nil] at h0
      simp only [List.map_cons, List.map_reverse, h0]
    · rw [if_neg (fun he => hc ((hf c).mp he)), if_neg hc]
      have h1 := ih (c :: cur)
      simp only [List.map_cons] at h1
      rw [h1]

theorem splitOnChar_map {sep : Char} {f : Char → Char}
    (hf : ∀ c, f c = sep ↔ c = sep) (l : List Char) :
    splitOnChar sep (l.map f) = (splitOnChar sep l).map (List.map f) := by
  unfold splitOnChar
  have h0 := splitOnCharGo_map hf l []
  simp only [List.map_nil] at h0
  exact h0

theorem splitOnCharGo_head (sep : Char) :
    ∀ (l cur : List Char), ∃ t, splitOnCharGo sep l cur =
      (cur.reverse ++ l.takeWhile (fun c => c ≠ sep)) :: t := by
  intro l
  induction l with
  | nil => intro cur; exact ⟨[], by simp [splitOnCharGo]⟩
  | cons c rest ih =>
    intro cur
    simp only [splitOnCharGo, List.takeWhile_cons]
    by_cases hc : c = sep
    · rw [if_pos hc, if_neg (by simp [hc])]
      exact ⟨splitOnCharGo sep rest [], by simp⟩
    · rw [if_neg hc, if_pos (by simp [hc])]
      obtain ⟨t, ht⟩ := ih (c :: cur)
      exact ⟨t, by rw [ht]; simp⟩

theorem pyLower_map (l : List Char) : pyLower l = l.map pyToLower := rfl

theorem isEmpty_pyLower (l : List Char) : (pyLower l).isEmpty = l.isEmpty := by
  rw [pyLower_map]
  exact isEmpty_map pyToLower l

theorem pyLower_nil : pyLower [] = [] := rfl

theorem pyLower_cons (c : Char) (l : List Char) :
    pyLower (c :: l) = pyToLower c :: pyLower l := by
  rw [pyLower_map, List.map_cons, ← pyLower_map]

theorem octetOk_digits {p : List Char} (h : octetOk p = true) :
    ∀ c ∈ p, '0' ≤ c ∧ c ≤ '9' := by
  unfold octetOk at h
  simp only [Bool.and_eq_true] at h
  have hall := h.1.1.2
  intro c hc
  have := List.all_eq_true.mp hall c hc
  simp only [Bool.and_eq_true, decide_eq_true_eq] at this
  exact this

theorem ipv4Ok_fixed {s : List Char} (h : ipv4Ok s = true) : pyLower s = s := by
  unfold ipv4Ok at h
  simp only [Bool.and_eq_true] at h
  have hall := h.2
  have hchars : ∀ c ∈ s, pyToLower c = c := by
    intro c hc
    have hs : List.intercalate ['.'] (splitOnChar '.' s) = s := by
      have hcc := splitOnCharGo_concat '.' s []
      unfold splitOnChar
      simpa using hcc
    rw [← hs] at hc
    rcases mem_intercalate_sep hc with rfl | ⟨f, hf, hcf⟩
    · exact pyToLower_fixed_lt (by decide)
    · have hoct := List.all_eq_true.mp hall f hf
      have hd := octetOk_digits hoct c hcf
      have h0 := charLe_iff.mp hd.1
      have h9 := charLe_iff.mp hd.2
      have e0 : ('0' : Char).toNat = 48 := rfl
      have e9 : ('9' : Char).toNat = 57 := rfl
      rw [e0] at h0
      rw [e9] at h9
      exact pyToLower_fixed_lt (by omega)
  rw [pyLower_map]
  rw [List.map_congr_left hchars]
  exact List.map_id s

theorem hextetOk_lower (p : List Char) : hextetOk (pyLower p) = hextetOk p := by
  unfold hextetOk
  rw [pyLower_map, List.length_map, isEmpty_map, List.all_map]
  have hall : p.all (Dedup.isHexDigitChar ∘ pyToLower) = p.all Dedup.isHexDigitChar := by
    apply all_congr_my
    intro a _
    simp only [Function.comp]
    exact pyToLower_hex a
  rw [hall]

theorem ipv6StructOk_lower (parts : List (List Char)) :
    ipv6StructOk (parts.map pyLower) = ipv6StructOk parts := by
  simp only [ipv6StructOk]
  rw [List.length_map]
  have hmid : ((parts.map pyLower).drop 1).dropLast =
      ((parts.drop 1).dropLast).map pyLower := by
    rw [← List.map_drop, ← List.map_dropLast]
  rw [hmid]
  have hcount : (((parts.drop 1).dropLast).map pyLower).countP (fun p => p.isEmpty) =
      ((parts.drop 1).dropLast).countP (fun p => p.isEmpty) := by
    rw [List.countP_map]
    apply countP_congr_my
    intro a _
    simp only [Function.comp]
    rw [isEmpty_pyLower]
  rw [hcount]
  have hfind : (((parts.drop 1).dropLast).map pyLower).findIdx (fun p => p.isEmpty) =
      ((parts.drop 1).dropLast).findIdx (fun p => p.isEmpty) := by
    rw [findIdx_map_my]
    apply findIdx_congr_my
    intro a _
    rw [isEmpty_pyLower]
  rw [hfind]
  have hhead : ((parts.map pyLower).headD []).isEmpty = (parts.headD []).isEmpty := by
    cases parts with
    | nil => rfl
    | cons a t =>
      simp only [List.map_cons, List.headD_cons]
      exact isEmpty_pyLower a
  rw [hhead]
  have hlast : ((parts.map pyLower).getLastD []).isEmpty = (parts.getLastD []).isEmpty := by
    have h1 := getLastD_map pyLower parts []
    rw [pyLower_nil] at h1
    rw [h1, isEmpty_pyLower]
  rw [hlast]
  have hall1 : (parts.map pyLower).all (fun p => p.isEmpty || hextetOk p) =
      parts.all (fun p => p.isEmpty || hextetOk p) := by
    rw [List.all_map]
    apply all_congr_my
    intro a _
    simp only [Function.comp]
    rw [isEmpty_pyLower, hextetOk_lower]
  rw [hall1]
  have hall2 : (parts.map pyLower).all hextetOk = parts.all hextetOk := by
    rw [List.all_map]
    apply all_congr_my
    intro a _
    simp only [Function.comp]
    rw [hextetOk_lower]
  rw [hall2]

theorem pyToLower_colon_iff (c : Char) : pyToLower c = ':' ↔ c = ':' :=
  pyToLower_eq_special (by decide) c

theorem pyToLower_dot_iff (c : Char) : pyToLower c = '.' ↔ c = '.' :=
  pyToLower_eq_special (by decide) c

theorem pyToLower_pct_iff (c : Char) : pyToLower c = '%' ↔ c = '%' :=
  pyToLower_eq_special (by decide) c

theorem ipv6AddrOk_lower {addr : List Char} (h : ipv6AddrOk addr = true) :
    ipv6AddrOk (pyLower addr) = true := by
  simp only [ipv6AddrOk] at h ⊢
  have hsplit : splitOnChar ':' (pyLower addr) = (splitOnChar ':' addr).map pyLower := by
    rw [pyLower_map]
    exact splitOnChar_map pyToLower_colon_iff addr
  rw [hsplit, List.length_map]
  by_cases hlen : (splitOnChar ':' addr).length < 3
  · rw [if_pos hlen] at h
    simp at h
  · rw [if_neg hlen] at h ⊢
    have hlastD : ((splitOnChar ':' addr).map pyLower).getLastD [] =
        pyLower ((splitOnChar ':' addr).getLastD []) := by
      have h1 := getLastD_map pyLower (splitOnChar ':' addr) []
      rwa [pyLower_nil] at h1
    rw [hlastD]
    by_cases hdot : '.' ∈ (splitOnChar ':' addr).getLastD []
    · rw [if_pos hdot] at h
      rw [if_pos ((mem_pyLower_iff (by decide) _).mpr hdot)]
      simp only [Bool.and_eq_true] at h ⊢
      obtain ⟨h4, hstruct⟩ := h
      have hfix := ipv4Ok_fixed h4
      rw [hfix]
      refine ⟨h4, ?_⟩
      have hdl : ((splitOnChar ':' addr).map pyLower).dropLast ++ [['0'], ['0']] =
          ((splitOnChar ':' addr).dropLast ++ [['0'], ['0']]).map pyLower := by
        rw [List.map_append, ← List.map_dropLast]
        rfl
      rw [hdl, ipv6StructOk_lower]
      exact hstruct
    · rw [if_neg hdot] at h
      rw [if_neg (fun hm => hdot ((mem_pyLower_iff (by decide) _).mp hm))]
      rw [ipv6StructOk_lower]
      exact h

theorem isIPv6_lower {s : List Char} (h : isIPv6 s = true) : isIPv6 (pyLower s) = true := by
  simp only [isIPv6] at h ⊢
  have hpred : ∀ c, (fun c : Char => (c ≠ '%' : Bool)) (pyToLower c) =
      (fun c : Char => (c ≠ '%' : Bool)) c := by
    intro c
    simp only [ne_eq, decide_eq_decide]
    exact not_congr (pyToLower_pct_iff c)
  have htw : (pyLower s).takeWhile (fun c => c ≠ '%') =
      pyLower (s.takeWhile (fun c => c ≠ '%')) := by
    rw [pyLower_map, pyLower_map]
    exact takeWhile_map_comm hpred s
  have hdw : (pyLower s).dropWhile (fun c => c ≠ '%') =
      pyLower (s.dropWhile (fun c => c ≠ '%')) := by
    rw [pyLower_map, pyLower_map]
    exact dropWhile_map_comm hpred s
  rw [htw, hdw]
  cases hrest : s.dropWhile (fun c => c ≠ '%') with
  | nil =>
    rw [hrest] at h
    rw [pyLower_nil]
    exact ipv6AddrOk_lower h
  | cons x scope =>
    rw [hrest] at h
    rw [pyLower_cons]
    simp only [Bool.and_eq_true] at h ⊢
    obtain ⟨⟨hne, hall⟩, haddr⟩ := h
    refine ⟨⟨?_, ?_⟩, ipv6AddrOk_lower haddr⟩
    · simp only [isEmpty_pyLower]
      exact hne
    · rw [pyLower_map, List.all_map]
      have hcg : scope.all ((fun c : Char => (c ≠ '%' : Bool)) ∘ pyToLower) =
          scope.all (fun c : Char => (c ≠ '%' : Bool)) := by
        apply all_congr_my
        intro a _
        simp only [Function.comp]
        exact hpred a
      rw [hcg]
      exact hall

theorem ipvFutureOk_lower {hostname : List Char} (h : ipvFutureOk hostname = true) :
    ipvFutureOk (pyLower hostname) = true := by
  rw [ipvFutureOk.eq_def] at h
  split at h
  · rename_i rest
    rw [pyLower_cons, show pyToLower 'v' = 'v' from by decide]
    simp only [ipvFutureOk]
    have hhex : ∀ c, Dedup.isHexDigitChar (pyToLower c) = Dedup.isHexDigitChar c :=
      pyToLower_hex
    have htw : (pyLower rest).takeWhile Dedup.isHexDigitChar =
        pyLower (rest.takeWhile Dedup.isHexDigitChar) := by
      rw [pyLower_map, pyLower_map]
      exact takeWhile_map_comm hhex rest
    have hdw : (pyLower rest).dropWhile Dedup.isHexDigitChar =
        pyLower (rest.dropWhile Dedup.isHexDigitChar) := by
      rw [pyLower_map, pyLower_map]
      exact dropWhile_map_comm hhex rest
    rw [htw, hdw]
    simp only [Bool.and_eq_true] at h ⊢
    obtain ⟨hne, hmatch⟩ := h
    refine ⟨by rw [isEmpty_pyLower]; exact hne, ?_⟩
    cases hafter : rest.dropWhile Dedup.isHexDigitChar with
    | nil =>
      rw [hafter] at hmatch
      simp at hmatch
    | cons a tail =>
      rw [hafter] at hmatch
      rw [pyLower_cons]
      split at hmatch
      · rename_i heq
        rw [List.cons.injEq] at heq
        obtain ⟨ha, htail⟩ := heq
        subst ha
        subst htail
        rw [show pyToLower '.' = '.' from by decide]
        simp only [Bool.and_eq_true] at hmatch ⊢
        obtain ⟨hne2, hall⟩ := hmatch
        refine ⟨by rw [isEmpty_pyLower]; exact hne2, ?_⟩
        rw [pyLower_map, List.all_map]
        have : ∀ c ∈ tail, ((fun c : Char => (c ≠ '\n' : Bool)) ∘ pyToLower) c =
            (fun c : Char => (c ≠ '\n' : Bool)) c := by
          intro c _
          simp only [Function.comp, ne_eq, decide_eq_decide]
          exact not_congr (pyToLower_eq_special (by decide) c)
        rw [all_congr_my this]
        exact hall
      · simp at hmatch
  · simp at h

theorem ipv6StructOk_all {parts : List (List Char)} (h : ipv6StructOk parts = true) :
    ∀ p ∈ parts, (p.isEmpty || hextetOk p) = true := by
  simp only [ipv6StructOk] at h
  by_cases hem1 : 1 < ((parts.drop 1).dropLast.countP (fun p => p.isEmpty))
  · rw [if_pos hem1] at h
    simp at h
  · rw [if_neg hem1] at h
    by_cases hem2 : ((parts.drop 1).dropLast.countP (fun p => p.isEmpty)) = 1
    · rw [if_pos hem2] at h
      simp only [Bool.and_eq_true] at h
      exact List.all_eq_true.mp h.2
    · rw [if_neg hem2] at h
      simp only [Bool.and_eq_true] at h
      intro p hp
      have hx := List.all_eq_true.mp h.2 p hp
      rw [hx]
      simp

theorem ipv6AddrOk_head {c : Char} {A : List Char} (h : ipv6AddrOk (c :: A) = true) :
    Dedup.isHexDigitChar c = true ∨ c = ':' := by
  by_cases hc : c = ':'
  · exact Or.inr hc
  · left
    simp only [ipv6AddrOk] at h
    obtain ⟨t, ht⟩ := splitOnCharGo_head ':' (c :: A) []
    have hFshape : (c :: A).takeWhile (fun x => x ≠ ':') =
        c :: A.takeWhile (fun x => x ≠ ':') := by
      rw [List.takeWhile_cons, if_pos (by simpa using hc)]
    have hsplit : splitOnChar ':' (c :: A) =
        (c :: A.takeWhile (fun x => x ≠ ':')) :: t := by
      unfold splitOnChar
      rw [ht, hFshape]
      rfl
    split_ifs at h with h1 h2
    · simp only [Bool.and_eq_true] at h
      have hstruct := h.2
      have hmem : (c :: A.takeWhile (fun x => x ≠ ':')) ∈
          (splitOnChar ':' (c :: A)).dropLast ++ [['0'], ['0']] := by
        apply List.mem_append_left
        rw [hsplit]
        rw [hsplit] at h1
        cases t with
        | nil => simp at h1
        | cons b t' =>
          show (c :: A.takeWhile (fun x => x ≠ ':')) ∈
            (c :: A.takeWhile (fun x => x ≠ ':')) :: (b :: t').dropLast
          exact List.mem_cons_self _ _
      have := ipv6StructOk_all hstruct _ hmem
      simp only [List.isEmpty_cons, Bool.false_or] at this
      have hhex := List.all_eq_true.mp (by
        unfold hextetOk at this
        simp only [Bool.and_eq_true] at this
        exact this.2) c (by simp)
      exact hhex
    · have hstruct := h
      have hmem : (c :: A.takeWhile (fun x => x ≠ ':')) ∈ splitOnChar ':' (c :: A) := by
        rw [hsplit]
        simp
      have := ipv6StructOk_all hstruct _ hmem
      simp only [List.isEmpty_cons, Bool.false_or] at this
      have hhex := List.all_eq_true.mp (by
        unfold hextetOk at this
        simp only [Bool.and_eq_true] at this
        exact this.2) c (by simp)
      exact hhex

theorem isIPv6_head_not_vee {c : Char} {rest : List Char}
    (h : isIPv6 (c :: rest) = true) (hc : c ≠ 'v') : pyToLower c ≠ 'v' := by
  intro hlow
  by_cases hpct : c = '%'
  · subst hpct
    exact absurd hlow (by decide)
  · have haddr : ipv6AddrOk ((c :: rest).takeWhile (fun x => x ≠ '%')) = true := by
      simp only [isIPv6] at h
      cases hrest : (c :: rest).dropWhile (fun x => x ≠ '%') with
      | nil => rwa [hrest] at h
      | cons x scope =>
        rw [hrest] at h
        simp only [Bool.and_eq_true] at h
        exact h.2
    rw [List.takeWhile_cons, if_pos (by simpa using hpct)] at haddr
    rcases ipv6AddrOk_head haddr with hhex | hcolon
    · have := pyToLower_hex c
      rw [hlow, hhex] at this
      exact absurd this (by decide)
    · subst hcolon
      exact absurd hlow (by decide)

theorem checkBracketedHost_lower {hostname : List Char}
    (h : checkBracketedHost hostname = true) :
    checkBracketedHost (pyLower hostname) = true := by
  cases hostname with
  | nil => exact h
  | cons c rest =>
    by_cases hv : c = 'v'
    · subst hv
      have hred : pyLower ('v' :: rest) = 'v' :: pyLower rest := by
        rw [pyLower_cons, show pyToLower 'v' = 'v' from by decide]
      rw [hred]
      have hip : ipvFutureOk ('v' :: rest) = true := h
      have := ipvFutureOk_lower hip
      rw [hred] at this
      exact this
    · rw [checkBracketedHost.eq_def] at h
      split at h
      · rename_i heq
        rw [List.cons.injEq] at heq
        exact absurd heq.1 hv
      · have hnotv := isIPv6_head_not_vee h hv
        rw [checkBracketedHost.eq_def, pyLower_cons]
        split
        · rename_i heq
          rw [List.cons.injEq] at heq
          exact absurd heq.1 hnotv
        · rw [← pyLower_cons]
          exact isIPv6_lower h

theorem hostnameOf_lower (netloc : List Char) :
    hostnameOf (pyLower netloc) = pyLower (hostnameOf netloc) := by
  unfold hostnameOf
  have hopen : ∀ c, (fun c : Char => (c ≠ '[' : Bool)) (pyToLower c) =
      (fun c : Char => (c ≠ '[' : Bool)) c := by
    intro c
    simp only [ne_eq, decide_eq_decide]
    exact not_congr (pyToLower_eq_special (by decide) c)
  have hclose : ∀ c, (fun c : Char => (c ≠ ']' : Bool)) (pyToLower c) =
      (fun c : Char => (c ≠ ']' : Bool)) c := by
    intro c
    simp only [ne_eq, decide_eq_decide]
    exact not_congr (pyToLower_eq_special (by decide) c)
  rw [pyLower_map, pyLower_map, dropWhile_map_comm hopen, ← List.map_drop,
    takeWhile_map_comm hclose]


theorem isAsciiAlpha_lower (c : Char) : isAsciiAlpha (pyToLower c) = isAsciiAlpha c := by
  have ht := pyToLower_toNat c
  unfold isAsciiAlpha
  rw [Bool.eq_iff_iff]
  simp only [Bool.or_eq_true, Bool.and_eq_true, decide_eq_true_eq, charLe_iff]
  have eA : ('A' : Char).toNat = 65 := rfl
  have eZ : ('Z' : Char).toNat = 90 := rfl
  have ea : ('a' : Char).toNat = 97 := rfl
  have ez : ('z' : Char).toNat = 122 := rfl
  rw [eA, eZ, ea, ez]
  split_ifs at ht <;> omega

theorem isSchemeChar_lower (c : Char) : isSchemeChar (pyToLower c) = isSchemeChar c := by
  have ht := pyToLower_toNat c
  unfold isSchemeChar isAsciiAlpha
  rw [Bool.eq_iff_iff]
  simp only [Bool.or_eq_true, Bool.and_eq_true, decide_eq_true_eq, charLe_iff, charEq_iff]
  have eA : ('A' : Char).toNat = 65 := rfl
  have eZ : ('Z' : Char).toNat = 90 := rfl
  have ea : ('a' : Char).toNat = 97 := rfl
  have ez : ('z' : Char).toNat = 122 := rfl
  have e0 : ('0' : Char).toNat = 48 := rfl
  have e9 : ('9' : Char).toNat = 57 := rfl
  have ep : ('+' : Char).toNat = 43 := rfl
  have em : ('-' : Char).toNat = 45 := rfl
  have ed : ('.' : Char).toNat = 46 := rfl
  rw [eA, eZ, ea, ez, e0, e9, ep, em, ed]
  split_ifs at ht <;> omega

theorem splitScheme_nil : splitScheme [] = ([], []) := rfl

theorem splitScheme_nonalpha_head {c : Char} (hc : isAsciiAlpha c = false)
    (X : List Char) : splitScheme (c :: X) = ([], c :: X) := by
  simp only [splitScheme]
  by_cases hcol : c = ':'
  · subst hcol
    have hpre : (':' :: X).takeWhile (fun x => x ≠ ':') = [] := by
      rw [List.takeWhile_cons]
      simp
    rw [hpre]
    rw [if_neg (by simp)]
    rw [if_neg (by intro hcontra; simpa using hcontra.1)]
  · have hpre : (c :: X).takeWhile (fun x => x ≠ ':') =
        c :: X.takeWhile (fun x => x ≠ ':') := by
      rw [List.takeWhile_cons, if_pos (by simpa using hcol)]
    rw [hpre]
    by_cases hlen : (c :: X.takeWhile (fun x => x ≠ ':')).length = (c :: X).length
    · rw [if_pos hlen]
    · rw [if_neg hlen]
      rw [if_neg (by
        intro hcontra
        have h2 := hcontra.2.1
        rw [List.headD_cons] at h2
        rw [h2] at hc
        simp at hc)]

theorem splitScheme_roundtrip {sch : List Char} (rest : List Char)
    (hne : sch ≠ []) (hcolon : ':' ∉ sch) (halpha : isAsciiAlpha (sch.headD ' ') = true)
    (htail : sch.tail.all isSchemeChar = true) (hlow : pyLower sch = sch) :
    splitScheme (sch ++ ':' :: rest) = (sch, rest) := by
  simp only [splitScheme]
  have htw : (sch ++ ':' :: rest).takeWhile (fun c => c ≠ ':') = sch := by
    apply takeWhile_break
    · intro c hc
      simp only [ne_eq, decide_eq_true_eq]
      exact fun he => hcolon (he ▸ hc)
    · simp
  rw [htw]
  rw [if_neg (by
    rw [List.length_append, List.length_cons]
    omega)]
  rw [if_pos ⟨by cases sch with | nil => exact absurd rfl hne | cons a t => simp,
    halpha, htail⟩]
  rw [hlow]
  have hd : (sch ++ ':' :: rest).drop (sch.length + 1) = rest := by
    have he : sch ++ ':' :: rest = (sch ++ [':']) ++ rest := by simp
    rw [he, List.drop_left' (by simp)]
  rw [hd]

theorem first_occ_decomp {c : Char} {P : List Char} (hc : c ∈ P) :
    ∃ B, P = P.takeWhile (fun x => x ≠ c) ++ c :: B := by
  cases hdw : P.dropWhile (fun x => x ≠ c) with
  | nil =>
    exfalso
    have hall := List.dropWhile_eq_nil_iff.mp hdw
    have := hall c hc
    simp at this
  | cons d B =>
    have hd := dropWhile_head_false hdw
    have hd' : d = c := by simpa using hd
    subst hd'
    exact ⟨B, by rw [← hdw, List.takeWhile_append_dropWhile]⟩

theorem mem_takeWhile_pred {p : Char → Bool} :
    ∀ {l : List Char} {x : Char}, x ∈ l.takeWhile p → p x = true := by
  intro l
  induction l with
  | nil => intro x hx; simp at hx
  | cons c rest ih =>
    intro x hx
    rw [List.takeWhile_cons] at hx
    by_cases hc : p c = true
    · rw [if_pos hc] at hx
      rcases List.mem_cons.mp hx with rfl | hx'
      · exact hc
      · exact ih hx'
    · rw [if_neg hc] at hx
      simp at hx

theorem takeWhile_colon_prefix {P t : List Char} (hc : ':' ∈ P) :
    (P ++ t).takeWhile (fun x => x ≠ ':') = P.takeWhile (fun x => x ≠ ':') := by
  obtain ⟨B, hB⟩ := first_occ_decomp hc
  have hApred : ∀ x ∈ P.takeWhile (fun x => x ≠ ':'),
      (fun x : Char => (x ≠ ':' : Bool)) x = true := by
    intro x hx
    exact mem_takeWhile_pred hx
  conv_lhs => rw [hB]
  rw [List.append_assoc, List.cons_append]
  rw [takeWhile_break hApred (by simp)]

theorem length_takeWhile_ne_of_mem {c : Char} {P : List Char} (hc : c ∈ P) :
    (P.takeWhile (fun x => x ≠ c)).length ≠ P.length := by
  obtain ⟨B, hB⟩ := first_occ_decomp hc
  intro hlen
  conv_rhs at hlen => rw [hB]
  rw [List.length_append, List.length_cons] at hlen
  omega

theorem splitScheme_invalid_pre {l : List Char}
    (h : splitScheme l = ([], l)) (hcol : ':' ∈ l) :
    ¬(0 < (l.takeWhile (fun c => c ≠ ':')).length ∧
      isAsciiAlpha ((l.takeWhile (fun c => c ≠ ':')).headD ' ') = true ∧
      (l.takeWhile (fun c => c ≠ ':')).tail.all isSchemeChar = true) := by
  intro hvalid
  simp only [splitScheme] at h
  rw [if_neg (length_takeWhile_ne_of_mem hcol), if_pos hvalid] at h
  have h1 := congrArg Prod.fst h
  simp only at h1
  have : (pyLower (l.takeWhile (fun c => c ≠ ':'))).length = 0 := by rw [h1]; rfl
  rw [pyLower_map, List.length_map] at this
  omega

theorem takeWhile_append_q {P Y : List Char} (hP : ':' ∉ P) :
    (P ++ '?' :: Y).takeWhile (fun x => x ≠ ':') =
      P ++ '?' :: Y.takeWhile (fun x => x ≠ ':') := by
  induction P with
  | nil =>
    simp only [List.nil_append, List.takeWhile_cons]
    rw [if_pos (by simp)]
  | cons a P' ih =>
    simp only [List.cons_append, List.takeWhile_cons]
    rw [if_pos (by
      simp only [ne_eq, decide_eq_true_eq]
      exact fun he => hP (by simp [he]))]
    rw [ih (fun hx => hP (by simp [hx]))]

theorem splitScheme_stable_empty {su P : List Char} (Q : List Char)
    (h : splitScheme su = ([], su))
    (hpre : ∃ t, su = P ++ t)
    (hQ : Q = [] ∨ ∃ Y, Q = '?' :: Y) :
    splitScheme (P ++ Q) = ([], P ++ Q) := by
  by_cases hcolP : ':' ∈ P
  · -- the first-colon prefix of P ++ Q equals that of su, which is invalid
    obtain ⟨t, ht⟩ := hpre
    have hA1 : (P ++ Q).takeWhile (fun x => x ≠ ':') = P.takeWhile (fun x => x ≠ ':') :=
      takeWhile_colon_prefix hcolP
    have hA2 : su.takeWhile (fun x => x ≠ ':') = P.takeWhile (fun x => x ≠ ':') := by
      rw [ht]
      exact takeWhile_colon_prefix hcolP
    have hinv := splitScheme_invalid_pre h (by rw [ht]; exact List.mem_append_left _ hcolP)
    rw [hA2] at hinv
    simp only [splitScheme]
    rw [hA1]
    rw [if_neg (by
      intro hlen
      rw [List.length_append] at hlen
      have h1 := length_takeWhile_ne_of_mem hcolP
      have h2 : (P.takeWhile (fun x => (x ≠ ':' : Bool))).length ≤ P.length :=
        (List.takeWhile_sublist _).length_le
      omega)]
    rw [if_neg hinv]
  · -- no colon in P
    rcases hQ with rfl | ⟨Y, rfl⟩
    · -- Q = []: no colon in P at all
      rw [List.append_nil]
      simp only [splitScheme]
      have htw0 : P.takeWhile (fun x => x ≠ ':') = P :=
        List.takeWhile_eq_self_iff.mpr (fun c hc => by
          simp only [ne_eq, decide_eq_true_eq]
          exact fun he => hcolP (he ▸ hc))
      rw [htw0, if_pos rfl]
    · by_cases hcolY : ':' ∈ Y
      · -- pre = P ++ '?' :: (Y.takeWhile ≠':'): contains '?', invalid
        have hPpred : ∀ x ∈ P, (fun x : Char => (x ≠ ':' : Bool)) x = true := by
          intro x hx
          simp only [ne_eq, decide_eq_true_eq]
          exact fun he => hcolP (he ▸ hx)
        have htw : (P ++ '?' :: Y).takeWhile (fun x => x ≠ ':') =
            P ++ '?' :: Y.takeWhile (fun x => x ≠ ':') := takeWhile_append_q hcolP
        simp only [splitScheme]
        rw [htw]
        rw [if_neg (by
          intro hlen
          rw [List.length_append, List.length_append, List.length_cons,
            List.length_cons] at hlen
          have h2 : (Y.takeWhile (fun x => (x ≠ ':' : Bool))).length ≤ Y.length :=
            (List.takeWhile_sublist _).length_le
          have hlt : (Y.takeWhile (fun x => x ≠ ':')).length ≠ Y.length :=
            length_takeWhile_ne_of_mem hcolY
          omega)]
        rw [if_neg (by
          intro hvalid
          obtain ⟨hpos, halpha, hall⟩ := hvalid
          cases hP : P with
          | nil =>
            rw [hP] at halpha
            simp only [List.nil_append, List.headD_cons] at halpha
            exact absurd halpha (by decide)
          | cons a P' =>
            rw [hP] at hall
            simp only [List.cons_append, List.tail_cons] at hall
            have hmem : '?' ∈ P' ++ '?' :: Y.takeWhile (fun x => x ≠ ':') := by
              rw [List.mem_append]
              right
              simp
            have := List.all_eq_true.mp hall '?' hmem
            exact absurd this (by decide))]
      · -- ':' ∉ P ++ '?' :: Y entirely
        simp only [splitScheme]
        rw [if_pos]
        rw [List.takeWhile_eq_self_iff.mpr (fun c hc => by
          simp only [ne_eq, decide_eq_true_eq]
          intro he
          subst he
          rw [List.mem_append, List.mem_cons] at hc
          rcases hc with hc | hc | hc
          · exact hcolP hc
          · exact absurd hc.symm (by decide)
          · exact hcolY hc)]

theorem splitScheme_snd_subset {c : Char} {l : List Char}
    (h : c ∈ (splitScheme l).2) : c ∈ l := by
  simp only [splitScheme] at h
  split_ifs at h
  · exact h
  · exact List.mem_of_mem_drop h
  · exact h

theorem splitScheme_eq_of_fst_nil {l : List Char} (h : (splitScheme l).1 = []) :
    splitScheme l = ([], l) := by
  by_cases h1 : (l.takeWhile (fun c => c ≠ ':')).length = l.length
  · simp only [splitScheme]
    rw [if_pos h1]
  · by_cases h2 : 0 < (l.takeWhile (fun c => c ≠ ':')).length ∧
      isAsciiAlpha ((l.takeWhile (fun c => c ≠ ':')).headD ' ') = true ∧
      (l.takeWhile (fun c => c ≠ ':')).tail.all isSchemeChar = true
    · exfalso
      simp only [splitScheme] at h
      rw [if_neg h1, if_pos h2] at h
      simp only at h
      have : (pyLower (l.takeWhile (fun c => c ≠ ':'))).length = 0 := by rw [h]; rfl
      rw [pyLower_map, List.length_map] at this
      omega
    · simp only [splitScheme]
      rw [if_neg h1, if_neg h2]

theorem splitScheme_fst_facts {l : List Char} (h : (splitScheme l).1 ≠ []) :
    ':' ∉ (splitScheme l).1 ∧
    isAsciiAlpha ((splitScheme l).1.headD ' ') = true ∧
    (splitScheme l).1.tail.all isSchemeChar = true ∧
    pyLower ((splitScheme l).1) = (splitScheme l).1 ∧
    (∀ c ∈ (splitScheme l).1, ∃ d ∈ l, c = pyToLower d) := by
  by_cases h1 : (l.takeWhile (fun c => c ≠ ':')).length = l.length
  · exfalso
    apply h
    simp only [splitScheme]
    rw [if_pos h1]
  · by_cases h2 : 0 < (l.takeWhile (fun c => c ≠ ':')).length ∧
      isAsciiAlpha ((l.takeWhile (fun c => c ≠ ':')).headD ' ') = true ∧
      (l.takeWhile (fun c => c ≠ ':')).tail.all isSchemeChar = true
    · have hval : (splitScheme l).1 = pyLower (l.takeWhile (fun c => c ≠ ':')) := by
        simp only [splitScheme]
        rw [if_neg h1, if_pos h2]
      obtain ⟨hpos, halpha, hall⟩ := h2
      refine ⟨?_, ?_, ?_, ?_, ?_⟩
      · rw [hval]
        intro hm
        rw [pyLower_map, List.mem_map] at hm
        obtain ⟨d, hd, hdc⟩ := hm
        have := (pyToLower_colon_iff d).mp hdc
        subst this
        have := List.mem_takeWhile_imp hd
        simp at this
      · rw [hval]
        cases hpre : l.takeWhile (fun c => c ≠ ':') with
        | nil => rw [hpre] at hpos; simp at hpos
        | cons a t =>
          rw [pyLower_cons, List.headD_cons]
          rw [hpre, List.headD_cons] at halpha
          rw [isAsciiAlpha_lower]
          exact halpha
      · rw [hval]
        cases hpre : l.takeWhile (fun c => c ≠ ':') with
        | nil => rw [hpre] at hpos; simp at hpos
        | cons a t =>
          rw [pyLower_cons, List.tail_cons]
          rw [hpre, List.tail_cons] at hall
          rw [pyLower_map, List.all_map]
          have : t.all (isSchemeChar ∘ pyToLower) = t.all isSchemeChar := by
            apply all_congr_my
            intro x _
            simp only [Function.comp]
            exact isSchemeChar_lower x
          rw [this]
          exact hall
      · rw [hval]
        exact pyLower_idem _
      · rw [hval]
        intro c hc
        rw [pyLower_map, List.mem_map] at hc
        obtain ⟨d, hd, hdc⟩ := hc
        exact ⟨d, (List.takeWhile_sublist _).subset hd, hdc.symm⟩
    · exfalso
      apply h
      simp only [splitScheme]
      rw [if_neg h1, if_neg h2]

theorem urlsplitE_ok_destruct {u : List Char} {r : SplitResult}
    (h : urlsplitE u = Except.ok r) :
    (('[' ∈ r.netloc → ']' ∈ r.netloc) ∧ (']' ∈ r.netloc → '[' ∈ r.netloc) ∧
      ('[' ∈ r.netloc → checkBracketedHost (hostnameOf r.netloc) = true)) ∧
    ((∃ rest, (splitScheme (stripUnsafe u)).2 = '/' :: '/' :: rest ∧
        r = ⟨(splitScheme (stripUnsafe u)).1,
             rest.takeWhile (fun c => !isNetlocEnd c),
             (splitQuery (splitFragment (rest.dropWhile (fun c => !isNetlocEnd c))).1).1,
             (splitQuery (splitFragment (rest.dropWhile (fun c => !isNetlocEnd c))).1).2,
             (splitFragment (rest.dropWhile (fun c => !isNetlocEnd c))).2⟩) ∨
     (r = ⟨(splitScheme (stripUnsafe u)).1, [],
             (splitQuery (splitFragment ((splitScheme (stripUnsafe u)).2)).1).1,
             (splitQuery (splitFragment ((splitScheme (stripUnsafe u)).2)).1).2,
             (splitFragment ((splitScheme (stripUnsafe u)).2)).2⟩)) := by
  simp only [urlsplitE] at h
  split_ifs at h with h1 h2
  rw [Except.ok.injEq] at h
  subst h
  push_neg at h1 h2
  refine ⟨⟨h1.1, h1.2, h2⟩, ?_⟩
  split
  · rename_i rest heq
    exact Or.inl ⟨rest, heq, rfl⟩
  · exact Or.inr rfl

theorem pq_key (z : List Char) :
    '#' ∉ (splitQuery (splitFragment z).1).1 ∧ '?' ∉ (splitQuery (splitFragment z).1).1 ∧
      '#' ∉ (splitQuery (splitFragment z).1).2 := by
  unfold splitQuery splitFragment
  simp only
  refine ⟨?_, ?_, ?_⟩
  · intro hm
    have h1 := (List.takeWhile_sublist (fun c : Char => (c ≠ '?' : Bool))).subset hm
    have h2 := mem_takeWhile_pred h1
    simp at h2
  · intro hm
    have h2 := mem_takeWhile_pred hm
    simp at h2
  · intro hm
    have h1 := List.mem_of_mem_drop hm
    have h2 := (List.dropWhile_sublist (fun c : Char => (c ≠ '?' : Bool))).subset h1
    have h3 := mem_takeWhile_pred h2
    simp at h3

theorem urlsplitE_path_charset {u : List Char} {r : SplitResult}
    (hok : urlsplitE u = Except.ok r) :
    '#' ∉ r.path ∧ '?' ∉ r.path ∧ '#' ∉ r.query := by
  obtain ⟨-, hcases⟩ := urlsplitE_ok_destruct hok
  rcases hcases with ⟨rest, _, rfl⟩ | rfl
  · exact pq_key _
  · exact pq_key _

theorem urlsplitE_netloc_clean {u : List Char} {r : SplitResult}
    (hok : urlsplitE u = Except.ok r) :
    ∀ c ∈ r.netloc, isNetlocEnd c = false := by
  obtain ⟨-, hcases⟩ := urlsplitE_ok_destruct hok
  rcases hcases with ⟨rest, _, rfl⟩ | rfl
  · intro c hc
    have h2 := mem_takeWhile_pred hc
    simpa using h2
  · intro c hc
    simp at hc

theorem urlsplitE_mem_su {u : List Char} {r : SplitResult}
    (hok : urlsplitE u = Except.ok r) :
    (∀ c ∈ r.netloc, c ∈ stripUnsafe u) ∧ (∀ c ∈ r.path, c ∈ stripUnsafe u) ∧
      (∀ c ∈ r.query, c ∈ stripUnsafe u) := by
  obtain ⟨-, hcases⟩ := urlsplitE_ok_destruct hok
  have hsub : ∀ z : List Char, ∀ c,
      (c ∈ (splitQuery (splitFragment z).1).1 → c ∈ z) ∧
      (c ∈ (splitQuery (splitFragment z).1).2 → c ∈ z) := by
    intro z c
    unfold splitQuery splitFragment
    simp only
    constructor
    · intro hm
      have h1 := (List.takeWhile_sublist (fun c : Char => (c ≠ '?' : Bool))).subset hm
      exact (List.takeWhile_sublist (fun c : Char => (c ≠ '#' : Bool))).subset h1
    · intro hm
      have h1 := List.mem_of_mem_drop hm
      have h2 := (List.dropWhile_sublist (fun c : Char => (c ≠ '?' : Bool))).subset h1
      exact (List.takeWhile_sublist (fun c : Char => (c ≠ '#' : Bool))).subset h2
  rcases hcases with ⟨rest, heq, rfl⟩ | rfl
  · have hrest : ∀ c ∈ rest, c ∈ stripUnsafe u := by
      intro c hc
      apply splitScheme_snd_subset
      rw [heq]
      simp [hc]
    refine ⟨?_, ?_, ?_⟩
    · intro c hc
      exact hrest c ((List.takeWhile_sublist _).subset hc)
    · intro c hc
      have h1 := (hsub _ c).1 hc
      exact hrest c ((List.dropWhile_sublist _).subset h1)
    · intro c hc
      have h1 := (hsub _ c).2 hc
      exact hrest c ((List.dropWhile_sublist _).subset h1)
  · refine ⟨?_, ?_, ?_⟩
    · intro c hc
      simp at hc
    · intro c hc
      exact splitScheme_snd_subset ((hsub _ c).1 hc)
    · intro c hc
      exact splitScheme_snd_subset ((hsub _ c).2 hc)

theorem urlsplitE_scheme_eq {u : List Char} {r : SplitResult}
    (hok : urlsplitE u = Except.ok r) :
    r.scheme = (splitScheme (stripUnsafe u)).1 := by
  obtain ⟨-, hcases⟩ := urlsplitE_ok_destruct hok
  rcases hcases with ⟨rest, _, rfl⟩ | rfl <;> rfl

theorem path_head_of_dw (w : List Char) :
    (splitQuery (splitFragment (w.dropWhile (fun c => !isNetlocEnd c))).1).1 = [] ∨
      ((splitQuery (splitFragment (w.dropWhile (fun c => !isNetlocEnd c))).1).1).headD ' ' = '/' := by
  cases hdw : w.dropWhile (fun c => !isNetlocEnd c) with
  | nil =>
    left
    rfl
  | cons d t =>
    have hd := dropWhile_head_false hdw
    have hd3 : d = '/' ∨ d = '?' ∨ d = '#' := by
      by_contra hcon
      push_neg at hcon
      simp [isNetlocEnd, hcon.1, hcon.2.1, hcon.2.2] at hd
    unfold splitQuery splitFragment
    rcases hd3 with rfl | rfl | rfl
    · right
      rw [List.takeWhile_cons, if_pos (by decide), List.takeWhile_cons, if_pos (by decide)]
      rfl
    · left
      rw [List.takeWhile_cons, if_pos (by decide), List.takeWhile_cons, if_neg (by decide)]
    · left
      rw [List.takeWhile_cons, if_neg (by decide)]
      rfl

theorem urlsplitE_path_shape {u : List Char} {r : SplitResult}
    (hok : urlsplitE u = Except.ok r) (hsch : r.scheme = []) :
    (r.path = [] ∨ r.path.headD ' ' = '/') ∨ (∃ t, stripUnsafe u = r.path ++ t) := by
  obtain ⟨-, hcases⟩ := urlsplitE_ok_destruct hok
  rcases hcases with ⟨rest, heq, rfl⟩ | rfl
  · exact Or.inl (path_head_of_dw rest)
  · right
    have hss : splitScheme (stripUnsafe u) = ([], stripUnsafe u) :=
      splitScheme_eq_of_fst_nil (by simpa using hsch)
    rw [hss]
    unfold splitQuery splitFragment
    simp only
    refine ⟨((stripUnsafe u).takeWhile (fun c => c ≠ '#')).dropWhile (fun c => c ≠ '?') ++
      (stripUnsafe u).dropWhile (fun c => c ≠ '#'), ?_⟩
    conv_lhs => rw [← List.takeWhile_append_dropWhile (fun c : Char => (c ≠ '#' : Bool))
      (stripUnsafe u)]
    conv_lhs => rw [← List.takeWhile_append_dropWhile (fun c : Char => (c ≠ '?' : Bool))
      ((stripUnsafe u).takeWhile (fun c => c ≠ '#'))]
    rw [List.append_assoc]


theorem stripUnsafe_eq_self {l : List Char}
    (h : ∀ c ∈ l, c ≠ '\t' ∧ c ≠ '\r' ∧ c ≠ '\n') : stripUnsafe l = l := by
  unfold stripUnsafe
  apply List.filter_eq_self.mpr
  intro c hc
  obtain ⟨h1, h2, h3⟩ := h c hc
  simp [h1, h2, h3]

theorem mem_stripUnsafe {c : Char} {l : List Char} (h : c ∈ stripUnsafe l) :
    c ≠ '\t' ∧ c ≠ '\r' ∧ c ≠ '\n' := by
  unfold stripUnsafe at h
  have h2 := (List.mem_filter.mp h).2
  simp only [Bool.not_eq_true', Bool.or_eq_false_iff, decide_eq_false_iff_not] at h2
  exact ⟨h2.1.1, h2.1.2, h2.2⟩

theorem pyToLower_ctrl_iff (c : Char) :
    (pyToLower c = '\t' ↔ c = '\t') ∧ (pyToLower c = '\r' ↔ c = '\r') ∧
      (pyToLower c = '\n' ↔ c = '\n') :=
  ⟨pyToLower_eq_special (by decide) c, pyToLower_eq_special (by decide) c,
   pyToLower_eq_special (by decide) c⟩

theorem splitFQ_noq {X : List Char} (h1 : '#' ∉ X) (h2 : '?' ∉ X) :
    splitFragment X = (X, []) ∧ splitQuery X = (X, []) := by
  have t1 : X.takeWhile (fun c => c ≠ '#') = X := takeWhile_all (fun c hc => by
    simp only [ne_eq, decide_eq_true_eq]
    exact fun he => h1 (he ▸ hc))
  have d1 : X.dropWhile (fun c => c ≠ '#') = [] := dropWhile_all (fun c hc => by
    simp only [ne_eq, decide_eq_true_eq]
    exact fun he => h1 (he ▸ hc))
  have t2 : X.takeWhile (fun c => c ≠ '?') = X := takeWhile_all (fun c hc => by
    simp only [ne_eq, decide_eq_true_eq]
    exact fun he => h2 (he ▸ hc))
  have d2 : X.dropWhile (fun c => c ≠ '?') = [] := dropWhile_all (fun c hc => by
    simp only [ne_eq, decide_eq_true_eq]
    exact fun he => h2 (he ▸ hc))
  unfold splitFragment splitQuery
  rw [t1, d1, t2, d2]
  simp

theorem splitFQ_q {X q : List Char} (hX1 : '#' ∉ X) (hX2 : '?' ∉ X) (hq : '#' ∉ q) :
    splitFragment (X ++ '?' :: q) = (X ++ '?' :: q, []) ∧
      splitQuery (X ++ '?' :: q) = (X, q) := by
  have hall : ∀ c ∈ X ++ '?' :: q, (fun c : Char => (c ≠ '#' : Bool)) c = true := by
    intro c hc
    simp only [ne_eq, decide_eq_true_eq]
    intro he
    subst he
    rw [List.mem_append, List.mem_cons] at hc
    rcases hc with hc | hc | hc
    · exact hX1 hc
    · exact absurd hc.symm (by decide)
    · exact hq hc
  have hXpred : ∀ c ∈ X, (fun c : Char => (c ≠ '?' : Bool)) c = true := by
    intro c hc
    simp only [ne_eq, decide_eq_true_eq]
    exact fun he => hX2 (he ▸ hc)
  unfold splitFragment splitQuery
  rw [takeWhile_all hall, dropWhile_all hall,
    takeWhile_break hXpred (by decide), dropWhile_break hXpred (by decide)]
  simp

theorem take2_append_opt {X q : List Char} (hq : q = [] ∨ ∃ Y, q = '?' :: Y)
    (h : (X ++ q).take 2 = ['/', '/']) : X.take 2 = ['/', '/'] := by
  match X with
  | [] =>
    rcases hq with rfl | ⟨Y, rfl⟩
    · simp at h
    · simp at h
  | [a] =>
    rcases hq with rfl | ⟨Y, rfl⟩
    · simp at h
    · simp at h
  | a :: b :: t =>
    have hab : a = '/' ∧ b = '/' := by
      simp only [List.cons_append, List.take_succ_cons, List.take_zero,
        List.cons.injEq] at h
      exact ⟨h.1, h.2.1⟩
    rw [hab.1, hab.2]
    rfl

theorem urlsplitE_rebuild_netloc {O sch nl rest2 : List Char}
    (hstrip : stripUnsafe O = O)
    (hsch : splitScheme O = (sch, '/' :: '/' :: (nl ++ rest2)))
    (hnl : ∀ c ∈ nl, isNetlocEnd c = false)
    (hrest : rest2 = [] ∨ isNetlocEnd (rest2.headD ' ') = true)
    (hbr1 : '[' ∈ nl → ']' ∈ nl) (hbr2 : ']' ∈ nl → '[' ∈ nl)
    (hbr3 : '[' ∈ nl → checkBracketedHost (hostnameOf nl) = true) :
    urlsplitE O = Except.ok ⟨sch, nl,
      (splitQuery (splitFragment rest2).1).1,
      (splitQuery (splitFragment rest2).1).2,
      (splitFragment rest2).2⟩ := by
  have hnl' : ∀ c ∈ nl, (fun c => !isNetlocEnd c) c = true := by
    intro c hc
    simp only [Bool.not_eq_true']
    exact hnl c hc
  have htw : (nl ++ rest2).takeWhile (fun c => !isNetlocEnd c) = nl := by
    rcases hrest with rfl | hh
    · rw [List.append_nil]
      exact takeWhile_all hnl'
    · cases rest2 with
      | nil => exact absurd hh (by decide)
      | cons d t =>
        rw [List.headD_cons] at hh
        exact takeWhile_break hnl' (by simp [hh])
  have hdw : (nl ++ rest2).dropWhile (fun c => !isNetlocEnd c) = rest2 := by
    rcases hrest with rfl | hh
    · rw [List.append_nil]
      exact dropWhile_all hnl'
    · cases rest2 with
      | nil => exact absurd hh (by decide)
      | cons d t =>
        rw [List.headD_cons] at hh
        exact dropWhile_break hnl' (by simp [hh])
  simp only [urlsplitE]
  rw [hstrip, hsch]
  simp only [htw, hdw]
  rw [if_neg (by
    rintro (⟨hi, hni⟩ | ⟨hi, hni⟩)
    · exact hni (hbr1 hi)
    · exact hni (hbr2 hi))]
  rw [if_neg (by
    rintro ⟨hi, hch⟩
    exact hch (hbr3 hi))]

theorem urlsplitE_rebuild_plain {O sch W : List Char}
    (hstrip : stripUnsafe O = O)
    (hsch : splitScheme O = (sch, W))
    (htake : W.take 2 ≠ ['/', '/']) :
    urlsplitE O = Except.ok ⟨sch, [],
      (splitQuery (splitFragment W).1).1,
      (splitQuery (splitFragment W).1).2,
      (splitFragment W).2⟩ := by
  simp only [urlsplitE]
  rw [hstrip, hsch]
  have hW2 : ∀ z : List Char, W ≠ '/' :: '/' :: z := by
    intro z he
    exact htake (by rw [he]; rfl)
  split_ifs with h1 h2
  · exfalso
    split at h1
    · rename_i heq
      exact hW2 _ heq
    · simp at h1
  · exfalso
    split at h2
    · rename_i heq
      exact hW2 _ heq
    · simp at h2
  · split
    · rename_i heq
      exact absurd heq (hW2 _)
    · rfl

theorem urlunsplitStr_true {sch nl X q : List Char}
    (hc : (!nl.isEmpty || (!sch.isEmpty && usesNetloc.contains sch &&
      !(X.take 2 = ['/', '/'] : Bool))) = true) :
    urlunsplitStr sch nl X q =
      (if sch.isEmpty then [] else sch ++ [':']) ++
        '/' :: '/' :: (nl ++
          ((if !X.isEmpty && X.headD ' ' ≠ '/' then '/' :: X else X) ++
            (if q.isEmpty then [] else '?' :: q))) := by
  unfold urlunsplitStr
  rw [if_pos hc]
  by_cases hs : sch.isEmpty <;> by_cases hq : q.isEmpty <;>
    simp [hs, hq, List.append_assoc]

theorem urlunsplitStr_false {sch nl X q : List Char}
    (hc : ¬ (!nl.isEmpty || (!sch.isEmpty && usesNetloc.contains sch &&
      !(X.take 2 = ['/', '/'] : Bool))) = true) :
    urlunsplitStr sch nl X q =
      (if sch.isEmpty then [] else sch ++ [':']) ++
        (X ++ (if q.isEmpty then [] else '?' :: q)) := by
  unfold urlunsplitStr
  rw [if_neg hc]
  by_cases hs : sch.isEmpty <;> by_cases hq : q.isEmpty <;>
    simp [hs, hq, List.append_assoc]

theorem mem_urlunsplitStr {c : Char} {sch nl X q : List Char}
    (h : c ∈ urlunsplitStr sch nl X q) :
    c ∈ sch ∨ c ∈ nl ∨ c ∈ X ∨ c ∈ q ∨ c = '/' ∨ c = ':' ∨ c = '?' := by
  unfold urlunsplitStr at h
  split_ifs at h <;>
    (simp only [List.mem_append, List.mem_cons, List.mem_singleton] at h; tauto)

theorem normalizeUrl_eq_build {u : List Char} {r : SplitResult}
    (hne : u ≠ [])
    (hok : urlsplitE u = Except.ok r)
    (hsemi : ';' ∉ r.path) :
    normalizeUrl u = urlunsplitStr r.scheme (pyLower r.netloc)
      (if r.path = ['/'] then r.path else rstripSlash r.path)
      (if ((parseQs r.query).filter (fun kv => !isTracking kv.1)).isEmpty then []
       else urlencodePairs ((parseQs r.query).filter (fun kv => !isTracking kv.1))) := by
  have hp : urlparseE u =
      Except.ok ⟨r.scheme, r.netloc, r.path, [], r.query, r.fragment⟩ := by
    unfold urlparseE
    rw [hok]
    simp only [Except.map]
    rw [splitParams_no_semi hsemi]
  unfold normalizeUrl
  rw [if_neg (by simpa using hne), hp]
  rfl

theorem normPath_sub {c : Char} {p : List Char}
    (h : c ∈ (if p = ['/'] then p else rstripSlash p)) : c ∈ p := by
  split_ifs at h
  · exact h
  · exact mem_rstripSlash h

theorem normPath_fix_or (p : List Char) :
    rstripSlash (if p = ['/'] then p else rstripSlash p) =
      (if p = ['/'] then p else rstripSlash p) ∨
    (if p = ['/'] then p else rstripSlash p) = ['/'] := by
  by_cases hr : p = ['/']
  · right
    rw [if_pos hr, hr]
  · left
    rw [if_neg hr, rstripSlash_idem]

theorem normPath_of_fix {X : List Char} (h : rstripSlash X = X ∨ X = ['/']) :
    (if X = ['/'] then X else rstripSlash X) = X := by
  by_cases hX : X = ['/']
  · rw [if_pos hX]
  · rcases h with h | h
    · rw [if_neg hX]
      exact h
    · exact absurd h hX

theorem insert_slash_fix {X : List Char} (h : rstripSlash X = X ∨ X = ['/']) :
    rstripSlash (if !X.isEmpty && X.headD ' ' ≠ '/' then '/' :: X else X) =
      (if !X.isEmpty && X.headD ' ' ≠ '/' then '/' :: X else X) ∨
    (if !X.isEmpty && X.headD ' ' ≠ '/' then '/' :: X else X) = ['/'] := by
  split_ifs with hc
  · left
    simp only [Bool.and_eq_true, Bool.not_eq_true', decide_eq_true_eq] at hc
    have hne : X ≠ [] := by
      intro he
      rw [he] at hc
      exact absurd hc.1 (by decide)
    rcases h with h | h
    · exact rstripSlash_cons_slash hne h
    · exact absurd (by rw [h]; rfl) hc.2
  · exact h

theorem insert_shape (X : List Char) :
    (if !X.isEmpty && X.headD ' ' ≠ '/' then '/' :: X else X) = [] ∨
      ((if !X.isEmpty && X.headD ' ' ≠ '/' then '/' :: X else X)).headD ' ' = '/' := by
  split_ifs with hc
  · right
    rfl
  · cases hX : X with
    | nil => exact Or.inl rfl
    | cons a t =>
      right
      rw [List.headD_cons]
      by_contra ha
      apply hc
      rw [hX]
      simp only [Bool.and_eq_true, Bool.not_eq_true', decide_eq_true_eq]
      exact ⟨rfl, by rw [List.headD_cons]; exact ha⟩

theorem insert_idem {X : List Char} (h : X = [] ∨ X.headD ' ' = '/') :
    (if !X.isEmpty && X.headD ' ' ≠ '/' then '/' :: X else X) = X := by
  rcases h with rfl | h
  · rfl
  · rw [if_neg (by
      simp only [Bool.and_eq_true, Bool.not_eq_true', decide_eq_true_eq, not_and]
      intro h1
      rw [h]
      simp)]

theorem insert_take2 {X : List Char} (h : X.take 2 ≠ ['/', '/']) :
    (if !X.isEmpty && X.headD ' ' ≠ '/' then '/' :: X else X).take 2 ≠
      ['/', '/'] := by
  split_ifs with hc
  · simp only [Bool.and_eq_true, Bool.not_eq_true', decide_eq_true_eq] at hc
    cases hX : X with
    | nil =>
      rw [hX] at hc
      exact absurd hc.1 (by decide)
    | cons a t =>
      intro hcontra
      simp only [List.take_succ_cons, List.take_zero, List.cons.injEq] at hcontra
      apply hc.2
      rw [hX, List.headD_cons]
      exact hcontra.2.1
  · exact h

theorem mem_insert {c : Char} {X : List Char}
    (h : c ∈ (if !X.isEmpty && X.headD ' ' ≠ '/' then '/' :: X else X)) :
    c = '/' ∨ c ∈ X := by
  split_ifs at h
  · rcases List.mem_cons.mp h with rfl | h'
    · exact Or.inl rfl
    · exact Or.inr h'
  · exact Or.inr h

theorem splitScheme_prepend {sch : List Char} (W : List Char)
    (hne : sch ≠ []) (hcolon : ':' ∉ sch)
    (halpha : isAsciiAlpha (sch.headD ' ') = true)
    (htail : sch.tail.all isSchemeChar = true) (hlow : pyLower sch = sch) :
    splitScheme ((sch ++ [':']) ++ W) = (sch, W) := by
  have he : (sch ++ [':']) ++ W = sch ++ ':' :: W := by simp
  rw [he]
  exact splitScheme_roundtrip W hne hcolon halpha htail hlow

theorem urlsplitE_scheme_facts {u : List Char} {r : SplitResult}
    (hok : urlsplitE u = Except.ok r) (hs : r.scheme ≠ []) :
    ':' ∉ r.scheme ∧ isAsciiAlpha (r.scheme.headD ' ') = true ∧
      r.scheme.tail.all isSchemeChar = true ∧ pyLower r.scheme = r.scheme ∧
      (∀ c ∈ r.scheme, ∃ d ∈ stripUnsafe u, c = pyToLower d) := by
  have he := urlsplitE_scheme_eq hok
  rw [he]
  rw [he] at hs
  exact splitScheme_fst_facts hs

theorem urlsplitE_components_clean {u : List Char} {r : SplitResult}
    (hok : urlsplitE u = Except.ok r) :
    (∀ c ∈ r.scheme, c ≠ '\t' ∧ c ≠ '\r' ∧ c ≠ '\n') ∧
      (∀ c ∈ pyLower r.netloc, c ≠ '\t' ∧ c ≠ '\r' ∧ c ≠ '\n') ∧
      (∀ c ∈ r.path, c ≠ '\t' ∧ c ≠ '\r' ∧ c ≠ '\n') := by
  obtain ⟨hnm, hpm, -⟩ := urlsplitE_mem_su hok
  refine ⟨?_, ?_, ?_⟩
  · intro c hc
    by_cases hs : r.scheme = []
    · rw [hs] at hc
      simp at hc
    · obtain ⟨-, -, -, -, hmem⟩ := urlsplitE_scheme_facts hok hs
      obtain ⟨d, hd, rfl⟩ := hmem c hc
      obtain ⟨d1, d2, d3⟩ := mem_stripUnsafe hd
      exact ⟨fun he => d1 (((pyToLower_ctrl_iff d).1).mp he),
        fun he => d2 (((pyToLower_ctrl_iff d).2.1).mp he),
        fun he => d3 (((pyToLower_ctrl_iff d).2.2).mp he)⟩
  · intro c hc
    rw [pyLower_map, List.mem_map] at hc
    obtain ⟨d, hd, rfl⟩ := hc
    obtain ⟨d1, d2, d3⟩ := mem_stripUnsafe (hnm d hd)
    exact ⟨fun he => d1 (((pyToLower_ctrl_iff d).1).mp he),
      fun he => d2 (((pyToLower_ctrl_iff d).2.1).mp he),
      fun he => d3 (((pyToLower_ctrl_iff d).2.2).mp he)⟩
  · intro c hc
    exact mem_stripUnsafe (hpm c hc)

theorem urlsplitE_netloc_lower_facts {u : List Char} {r : SplitResult}
    (hok : urlsplitE u = Except.ok r) :
    (∀ c ∈ pyLower r.netloc, isNetlocEnd c = false) ∧
      ('[' ∈ pyLower r.netloc → ']' ∈ pyLower r.netloc) ∧
      (']' ∈ pyLower r.netloc → '[' ∈ pyLower r.netloc) ∧
      ('[' ∈ pyLower r.netloc →
        checkBracketedHost (hostnameOf (pyLower r.netloc)) = true) := by
  obtain ⟨⟨hb1, hb2, hb3⟩, -⟩ := urlsplitE_ok_destruct hok
  have hclean := urlsplitE_netloc_clean hok
  have hlb : '[' ∈ pyLower r.netloc ↔ '[' ∈ r.netloc :=
    mem_pyLower_iff (by decide) r.netloc
  have hrb : ']' ∈ pyLower r.netloc ↔ ']' ∈ r.netloc :=
    mem_pyLower_iff (by decide) r.netloc
  refine ⟨?_, ?_, ?_, ?_⟩
  · intro c hc
    rw [pyLower_map, List.mem_map] at hc
    obtain ⟨d, hd, rfl⟩ := hc
    have hdend := hclean d hd
    simp only [isNetlocEnd, Bool.or_eq_false_iff, decide_eq_false_iff_not]
      at hdend ⊢
    exact ⟨⟨fun he => hdend.1.1 ((pyToLower_eq_special (by decide) d).mp he),
      fun he => hdend.1.2 ((pyToLower_eq_special (by decide) d).mp he)⟩,
      fun he => hdend.2 ((pyToLower_eq_special (by decide) d).mp he)⟩
  · intro h
    exact hrb.mpr (hb1 (hlb.mp h))
  · intro h
    exact hlb.mpr (hb2 (hrb.mp h))
  · intro h
    rw [hostnameOf_lower]
    exact checkBracketedHost_lower (hb3 (hlb.mp h))


theorem urlparseE_of_ok {O : List Char} {s n p q f : List Char}
    (h : urlsplitE O = Except.ok ⟨s, n, p, q, f⟩) (hp : ';' ∉ p) :
    urlparseE O = Except.ok ⟨s, n, p, [], q, f⟩ := by
  unfold urlparseE
  rw [h]
  simp only [Except.map]
  rw [splitParams_no_semi hp]

/-- C4 counterexample: `normalize_url` is not idempotent.  On
`"http://h/a/;x/;p"` the first pass splits the path parameters at the first
`;` after the last `/`, strips the trailing slash of the remaining path and
re-attaches the parameters with `;`, producing `"http://h/a/;x;p"`; the
second pass now sees an earlier last `/`, splits at a different `;` and
strips another slash, producing the different `"http://h/a;x;p"`. -/
theorem normalize_url_idempotence_counterexample :
    normalizeUrl (normalizeUrl "http://h/a/;x/;p".data) ≠
      normalizeUrl "http://h/a/;x/;p".data := by decide

/-- C4 (amended): on every URL accepted by `urlsplit` whose parsed path
contains no `;` (so the `urlparse` parameter split is inert) and which does
not hit the path-to-netloc migration corner (empty netloc with a normalized
path starting `//`), `normalize_url` is idempotent, and its output parses
back with an empty fragment, empty path parameters, a netloc that is fixed
under lowercasing, no tracking parameter left in the query, and no trailing
slash on the path unless the path is the root `/`.  Outside these provisos
idempotence genuinely fails (see the counterexample). -/
theorem normalize_url_spec {u : List Char} {r : SplitResult}
    (hok : urlsplitE u = Except.ok r)
    (hsemi : ';' ∉ r.path)
    (hmig : ¬(r.netloc = [] ∧
      (if r.path = ['/'] then r.path else rstripSlash r.path).take 2 = ['/', '/'])) :
    normalizeUrl (normalizeUrl u) = normalizeUrl u ∧
    ∃ p : ParseResult, urlparseE (normalizeUrl u) = Except.ok p ∧
      p.fragment = [] ∧ p.params = [] ∧
      pyLower p.netloc = p.netloc ∧
      (∀ kv ∈ parseQs p.query, isTracking kv.1 = false) ∧
      (p.path = ['/'] ∨ rstripSlash p.path = p.path) := by
  by_cases hu : u = []
  · subst hu
    exact ⟨rfl, ⟨[], [], [], [], [], []⟩, rfl, rfl, rfl, rfl, by decide, Or.inr rfl⟩
  · set X1 := if r.path = ['/'] then r.path else rstripSlash r.path with hX1def
    set F := (parseQs r.query).filter (fun kv => !isTracking kv.1) with hFdef
    set nQ := if F.isEmpty then [] else urlencodePairs F with hnQdef
    have h1 : normalizeUrl u = urlunsplitStr r.scheme (pyLower r.netloc) X1 nQ :=
      normalizeUrl_eq_build hu hok hsemi
    obtain ⟨hscl, hncl, hpcl⟩ := urlsplitE_components_clean hok
    obtain ⟨hnend, hnb1, hnb2, hnb3⟩ := urlsplitE_netloc_lower_facts hok
    obtain ⟨hpnohash, hpnoq, -⟩ := urlsplitE_path_charset hok
    have hX1sub : ∀ c ∈ X1, c ∈ r.path := by
      intro c hc
      rw [hX1def] at hc
      exact normPath_sub hc
    have hX1hash : '#' ∉ X1 := fun hc => hpnohash (hX1sub _ hc)
    have hX1q : '?' ∉ X1 := fun hc => hpnoq (hX1sub _ hc)
    have hX1semi : ';' ∉ X1 := fun hc => hsemi (hX1sub _ hc)
    have hX1clean : ∀ c ∈ X1, c ≠ '\t' ∧ c ≠ '\r' ∧ c ≠ '\n' :=
      fun c hc => hpcl c (hX1sub c hc)
    have hX1fix : rstripSlash X1 = X1 ∨ X1 = ['/'] := by
      rw [hX1def]
      exact normPath_fix_or r.path
    have hnQhash : '#' ∉ nQ := by
      rw [hnQdef]
      split_ifs with he
      · simp
      · intro hc
        exact (urlencodePairs_not_special hc).1 rfl
    have hnQclean : ∀ c ∈ nQ, c ≠ '\t' ∧ c ≠ '\r' ∧ c ≠ '\n' := by
      rw [hnQdef]
      split_ifs with he
      · intro c hc
        simp at hc
      · intro c hc
        obtain ⟨-, -, -, -, -, t1, t2, t3⟩ := urlencodePairs_not_special hc
        exact ⟨t1, t2, t3⟩
    have hOclean : stripUnsafe (urlunsplitStr r.scheme (pyLower r.netloc) X1 nQ) =
        urlunsplitStr r.scheme (pyLower r.netloc) X1 nQ := by
      apply stripUnsafe_eq_self
      intro c hc
      rcases mem_urlunsplitStr hc with h | h | h | h | rfl | rfl | rfl
      · exact hscl c h
      · exact hncl c h
      · exact hX1clean c h
      · exact hnQclean c h
      · exact ⟨by decide, by decide, by decide⟩
      · exact ⟨by decide, by decide, by decide⟩
      · exact ⟨by decide, by decide, by decide⟩
    have hQshape : (if nQ.isEmpty then ([] : List Char) else '?' :: nQ) = [] ∨
        ∃ Y, (if nQ.isEmpty then ([] : List Char) else '?' :: nQ) = '?' :: Y := by
      split_ifs with h
      · exact Or.inl rfl
      · exact Or.inr ⟨nQ, rfl⟩
    have hFQ : ∀ P : List Char, '#' ∉ P → '?' ∉ P →
        (splitQuery (splitFragment
          (P ++ (if nQ.isEmpty then [] else '?' :: nQ))).1).1 = P ∧
        (splitQuery (splitFragment
          (P ++ (if nQ.isEmpty then [] else '?' :: nQ))).1).2 = nQ ∧
        (splitFragment (P ++ (if nQ.isEmpty then [] else '?' :: nQ))).2 = [] := by
      intro P hP1 hP2
      split_ifs with he
      · rw [List.append_nil]
        obtain ⟨hf, hq⟩ := splitFQ_noq hP1 hP2
        have hf1 : (splitFragment P).1 = P := by rw [hf]
        have hf2 : (splitFragment P).2 = [] := by rw [hf]
        have hq1 : (splitQuery P).1 = P := by rw [hq]
        have hq2 : (splitQuery P).2 = [] := by rw [hq]
        rw [hf1, hq1, hq2, hf2]
        refine ⟨rfl, ?_, rfl⟩
        rw [List.isEmpty_iff] at he
        rw [he]
      · obtain ⟨hf, hq⟩ := splitFQ_q hP1 hP2 hnQhash
        have hf1 : (splitFragment (P ++ '?' :: nQ)).1 = P ++ '?' :: nQ := by rw [hf]
        have hf2 : (splitFragment (P ++ '?' :: nQ)).2 = [] := by rw [hf]
        have hq1 : (splitQuery (P ++ '?' :: nQ)).1 = P := by rw [hq]
        have hq2 : (splitQuery (P ++ '?' :: nQ)).2 = nQ := by rw [hq]
        rw [hf1, hq1, hq2, hf2]
        exact ⟨rfl, rfl, rfl⟩
    have hschsplit : ∀ W : List Char,
        splitScheme ((if r.scheme.isEmpty then [] else r.scheme ++ [':']) ++
          '/' :: '/' :: W) = (r.scheme, '/' :: '/' :: W) := by
      intro W
      by_cases hs : r.scheme = []
      · rw [hs]
        have h0 : (if ([] : List Char).isEmpty then ([] : List Char)
            else [] ++ [':']) = [] := rfl
        rw [h0, List.nil_append]
        exact splitScheme_nonalpha_head (by decide) _
      · obtain ⟨hcolon, halpha, htail, hlow, -⟩ := urlsplitE_scheme_facts hok hs
        rw [if_neg (fun h => hs (List.isEmpty_iff.mp h))]
        exact splitScheme_prepend _ hs hcolon halpha htail hlow
    have hschsplit2 : ∀ W : List Char, (r.scheme = [] → splitScheme W = ([], W)) →
        splitScheme ((if r.scheme.isEmpty then [] else r.scheme ++ [':']) ++ W) =
          (r.scheme, W) := by
      intro W hW
      by_cases hs : r.scheme = []
      · rw [hs]
        have h0 : (if ([] : List Char).isEmpty then ([] : List Char)
            else [] ++ [':']) = [] := rfl
        rw [h0, List.nil_append]
        exact hW hs
      · obtain ⟨hcolon, halpha, htail, hlow, -⟩ := urlsplitE_scheme_facts hok hs
        rw [if_neg (fun h => hs (List.isEmpty_iff.mp h))]
        exact splitScheme_prepend _ hs hcolon halpha htail hlow
    have hpq : parseQs nQ = F := by
      have h0 := parseQs_newQuery r.query
      rw [← hFdef] at h0
      rw [← hnQdef] at h0
      exact h0
    have hidem : F.filter (fun kv => !isTracking kv.1) = F := by
      have h0 := filter_tracking_idem (parseQs r.query)
      rw [← hFdef] at h0
      exact h0
    have hq2 : (if ((parseQs nQ).filter (fun kv => !isTracking kv.1)).isEmpty then []
        else urlencodePairs ((parseQs nQ).filter (fun kv => !isTracking kv.1))) =
          nQ := by
      rw [hpq, hidem, ← hnQdef]
    by_cases hcond : (!(pyLower r.netloc).isEmpty || (!r.scheme.isEmpty &&
        usesNetloc.contains r.scheme && !(X1.take 2 = ['/', '/'] : Bool))) = true
    · -- the netloc (or uses_netloc scheme) branch of urlunsplit
      have hO : urlunsplitStr r.scheme (pyLower r.netloc) X1 nQ =
          (if r.scheme.isEmpty then [] else r.scheme ++ [':']) ++
            '/' :: '/' :: (pyLower r.netloc ++
              ((if !X1.isEmpty && X1.headD ' ' ≠ '/' then '/' :: X1 else X1) ++
                (if nQ.isEmpty then [] else '?' :: nQ))) := urlunsplitStr_true hcond
      set P2 := if !X1.isEmpty && X1.headD ' ' ≠ '/' then '/' :: X1 else X1
        with hP2def
      have hP2mem : ∀ c ∈ P2, c = '/' ∨ c ∈ X1 := by
        intro c hc
        rw [hP2def] at hc
        exact mem_insert hc
      have hP2hash : '#' ∉ P2 := by
        intro hc
        rcases hP2mem _ hc with h | h
        · exact absurd h (by decide)
        · exact hX1hash h
      have hP2q : '?' ∉ P2 := by
        intro hc
        rcases hP2mem _ hc with h | h
        · exact absurd h (by decide)
        · exact hX1q h
      have hP2semi : ';' ∉ P2 := by
        intro hc
        rcases hP2mem _ hc with h | h
        · exact absurd h (by decide)
        · exact hX1semi h
      have hP2shape : P2 = [] ∨ P2.headD ' ' = '/' := by
        rw [hP2def]
        exact insert_shape X1
      have hP2fix : rstripSlash P2 = P2 ∨ P2 = ['/'] := by
        rw [hP2def]
        exact insert_slash_fix hX1fix
      have hrest : (P2 ++ (if nQ.isEmpty then [] else '?' :: nQ)) = [] ∨
          isNetlocEnd ((P2 ++ (if nQ.isEmpty then [] else '?' :: nQ)).headD ' ') =
            true := by
        rcases hP2shape with hP | hP
        · rw [hP, List.nil_append]
          rcases hQshape with hQ | ⟨Y, hQ⟩
          · rw [hQ]
            exact Or.inl rfl
          · rw [hQ]
            right
            rw [List.headD_cons]
            decide
        · right
          obtain ⟨a, t, hat⟩ := List.exists_cons_of_ne_nil (l := P2) (by
            intro hc
            rw [hc] at hP
            exact absurd hP (by decide))
          rw [hat, List.headD_cons] at hP
          rw [hat, List.cons_append, List.headD_cons, hP]
          decide
      have hok2 : urlsplitE (urlunsplitStr r.scheme (pyLower r.netloc) X1 nQ) =
          Except.ok ⟨r.scheme, pyLower r.netloc, P2, nQ, []⟩ := by
        have hstrip2 := hOclean
        rw [hO] at hstrip2
        have hre := urlsplitE_rebuild_netloc hstrip2
          (hschsplit (pyLower r.netloc ++
            (P2 ++ (if nQ.isEmpty then [] else '?' :: nQ))))
          hnend hrest hnb1 hnb2 hnb3
        obtain ⟨hfq1, hfq2, hfq3⟩ := hFQ P2 hP2hash hP2q
        rw [hfq1, hfq2, hfq3] at hre
        rw [hO]
        exact hre
      have hOne : urlunsplitStr r.scheme (pyLower r.netloc) X1 nQ ≠ [] := by
        rw [hO]
        intro hcontra
        exact absurd (List.append_eq_nil.mp hcontra).2 (List.cons_ne_nil _ _)
      have hP2norm : (if P2 = ['/'] then P2 else rstripSlash P2) = P2 :=
        normPath_of_fix hP2fix
      have h2 : normalizeUrl (urlunsplitStr r.scheme (pyLower r.netloc) X1 nQ) =
          urlunsplitStr r.scheme (pyLower (pyLower r.netloc))
            (if P2 = ['/'] then P2 else rstripSlash P2)
            (if ((parseQs nQ).filter (fun kv => !isTracking kv.1)).isEmpty then []
             else urlencodePairs ((parseQs nQ).filter (fun kv => !isTracking kv.1))) :=
        normalizeUrl_eq_build hOne hok2 hP2semi
      rw [hq2, hP2norm, pyLower_idem] at h2
      have hcond2 : (!(pyLower r.netloc).isEmpty || (!r.scheme.isEmpty &&
          usesNetloc.contains r.scheme && !(P2.take 2 = ['/', '/'] : Bool))) =
            true := by
        have hcondP := hcond
        simp only [Bool.or_eq_true, Bool.and_eq_true] at hcondP ⊢
        rcases hcondP with h | ⟨⟨ha, hb⟩, hc2⟩
        · exact Or.inl h
        · right
          refine ⟨⟨ha, hb⟩, ?_⟩
          simp only [Bool.not_eq_true', decide_eq_false_iff_not] at hc2 ⊢
          have h3 := insert_take2 hc2
          rw [← hP2def] at h3
          exact h3
      have hO2 : urlunsplitStr r.scheme (pyLower r.netloc) P2 nQ =
          urlunsplitStr r.scheme (pyLower r.netloc) X1 nQ := by
        rw [urlunsplitStr_true hcond2, hO]
        have hins : (if !P2.isEmpty && P2.headD ' ' ≠ '/' then '/' :: P2 else P2) =
            P2 := insert_idem hP2shape
        rw [hins]
      refine ⟨?_, ⟨r.scheme, pyLower r.netloc, P2, [], nQ, []⟩, ?_, rfl, rfl,
        ?_, ?_, ?_⟩
      · rw [h1, h2]
        exact hO2
      · rw [h1]
        exact urlparseE_of_ok hok2 hP2semi
      · exact pyLower_idem r.netloc
      · intro kv hkv
        have hkv' : kv ∈ parseQs nQ := hkv
        rw [hpq, hFdef] at hkv'
        exact filtered_no_tracking kv hkv'
      · rcases hP2fix with h | h
        · exact Or.inr h
        · exact Or.inl h
    · -- the plain branch of urlunsplit (netloc empty, no scheme override)
      have hO : urlunsplitStr r.scheme (pyLower r.netloc) X1 nQ =
          (if r.scheme.isEmpty then [] else r.scheme ++ [':']) ++
            (X1 ++ (if nQ.isEmpty then [] else '?' :: nQ)) :=
        urlunsplitStr_false hcond
      have hcondP := hcond
      simp only [Bool.or_eq_true, not_or] at hcondP
      obtain ⟨hc1, hc2⟩ := hcondP
      have hnl0 : pyLower r.netloc = [] := by
        cases hN : pyLower r.netloc with
        | nil => rfl
        | cons a t =>
          exfalso
          apply hc1
          rw [hN]
          rfl
      have hrn0 : r.netloc = [] := by
        have h3 := isEmpty_pyLower r.netloc
        rw [hnl0] at h3
        exact List.isEmpty_iff.mp h3.symm
      have htakeX1 : X1.take 2 ≠ ['/', '/'] := fun h => hmig ⟨hrn0, h⟩
      have hsplitO : splitScheme (urlunsplitStr r.scheme (pyLower r.netloc) X1 nQ) =
          (r.scheme, X1 ++ (if nQ.isEmpty then [] else '?' :: nQ)) := by
        rw [hO]
        apply hschsplit2
        intro hs
        by_cases hX1nil : X1 = []
        · rw [hX1nil, List.nil_append]
          rcases hQshape with hQ | ⟨Y, hQ⟩
          · rw [hQ]
            exact splitScheme_nil
          · rw [hQ]
            exact splitScheme_nonalpha_head (by decide) Y
        · by_cases hX1head : X1.headD ' ' = '/'
          · obtain ⟨a, t, hat⟩ := List.exists_cons_of_ne_nil hX1nil
            rw [hat, List.headD_cons] at hX1head
            rw [hat, hX1head, List.cons_append]
            exact splitScheme_nonalpha_head (by decide) _
          · have hX1r : X1 = rstripSlash r.path := by
              by_cases hroot : r.path = ['/']
              · exfalso
                apply hX1head
                rw [hX1def, if_pos hroot, hroot]
                rfl
              · rw [hX1def, if_neg hroot]
            obtain ⟨k, hk⟩ := rstripSlash_decomp r.path
            rw [← hX1r] at hk
            have hpne : r.path ≠ [] := by
              rw [hk]
              intro hcc
              exact hX1nil (List.append_eq_nil.mp hcc).1
            have hphead : r.path.headD ' ' ≠ '/' := by
              obtain ⟨a, t, hat⟩ := List.exists_cons_of_ne_nil hX1nil
              rw [hk, hat, List.cons_append, List.headD_cons]
              rw [hat, List.headD_cons] at hX1head
              exact hX1head
            rcases urlsplitE_path_shape hok hs with hshape | ⟨tt, htt⟩
            · rcases hshape with h0 | h0
              · exact absurd h0 hpne
              · exact absurd h0 hphead
            · have hsu : splitScheme (stripUnsafe u) = ([], stripUnsafe u) := by
                apply splitScheme_eq_of_fst_nil
                have h5 := urlsplitE_scheme_eq hok
                rw [hs] at h5
                exact h5.symm
              have hpre : ∃ w, stripUnsafe u = X1 ++ w :=
                ⟨List.replicate k '/' ++ tt, by rw [htt, hk, List.append_assoc]⟩
              exact splitScheme_stable_empty _ hsu hpre hQshape
      have hWtake : (X1 ++ (if nQ.isEmpty then [] else '?' :: nQ)).take 2 ≠
          ['/', '/'] := fun h => htakeX1 (take2_append_opt hQshape h)
      have hok2 : urlsplitE (urlunsplitStr r.scheme (pyLower r.netloc) X1 nQ) =
          Except.ok ⟨r.scheme, [], X1, nQ, []⟩ := by
        have hre := urlsplitE_rebuild_plain hOclean hsplitO hWtake
        obtain ⟨hfq1, hfq2, hfq3⟩ := hFQ X1 hX1hash hX1q
        rw [hfq1, hfq2, hfq3] at hre
        exact hre
      by_cases hOne : urlunsplitStr r.scheme (pyLower r.netloc) X1 nQ = []
      · refine ⟨?_, ⟨[], [], [], [], [], []⟩, ?_, rfl, rfl, rfl, ?_, Or.inr rfl⟩
        · rw [h1, hOne]
          rfl
        · rw [h1, hOne]
          rfl
        · intro kv hkv
          have hkv' : kv ∈ parseQs ([] : List Char) := hkv
          rw [parseQs_nil] at hkv'
          simp at hkv'
      · have hX1norm : (if X1 = ['/'] then X1 else rstripSlash X1) = X1 :=
          normPath_of_fix hX1fix
        have h2 : normalizeUrl (urlunsplitStr r.scheme (pyLower r.netloc) X1 nQ) =
            urlunsplitStr r.scheme []
              (if X1 = ['/'] then X1 else rstripSlash X1)
              (if ((parseQs nQ).filter (fun kv => !isTracking kv.1)).isEmpty
               then []
               else urlencodePairs
                 ((parseQs nQ).filter (fun kv => !isTracking kv.1))) :=
          normalizeUrl_eq_build (r := ⟨r.scheme, [], X1, nQ, []⟩) hOne hok2 hX1semi
        rw [hq2, hX1norm] at h2
        have hO2 : urlunsplitStr r.scheme ([] : List Char) X1 nQ =
            urlunsplitStr r.scheme (pyLower r.netloc) X1 nQ := by
          rw [hnl0]
        rw [hO2] at h2
        refine ⟨?_, ⟨r.scheme, [], X1, [], nQ, []⟩, ?_, rfl, rfl, rfl, ?_, ?_⟩
        · rw [h1, h2]
        · rw [h1]
          exact urlparseE_of_ok hok2 hX1semi
        · intro kv hkv
          have hkv' : kv ∈ parseQs nQ := hkv
          rw [hpq, hFdef] at hkv'
          exact filtered_no_tracking kv hkv'
        · rcases hX1fix with h | h
          · exact Or.inr h
          · exact Or.inl h

/-- Witness for C4 (amended): the URL `"http://EX.com/a/?utm_source=x&b=c#f"`
satisfies the provisos, and `normalize_url` (which sends it to
`"http://ex.com/a?b=c"`) is idempotent on it with the claimed output
shape. -/
theorem normalize_url_spec_witness :
    normalizeUrl (normalizeUrl "http://EX.com/a/?utm_source=x&b=c#f".data) =
      normalizeUrl "http://EX.com/a/?utm_source=x&b=c#f".data ∧
    ∃ p : ParseResult,
      urlparseE (normalizeUrl "http://EX.com/a/?utm_source=x&b=c#f".data) =
        Except.ok p ∧
      p.fragment = [] ∧ p.params = [] ∧
      pyLower p.netloc = p.netloc ∧
      (∀ kv ∈ parseQs p.query, isTracking kv.1 = false) ∧
      (p.path = ['/'] ∨ rstripSlash p.path = p.path) :=
  normalize_url_spec
    (r := ⟨"http".data, "EX.com".data, "/a/".data, "utm_source=x&b=c".data,
      "f".data⟩)
    rfl (by decide) (by decide)

end UrlNorm
